import Mathlib

/-!
The implicit-free-list allocator of `mm.c`

A shallow embedding of `src/mm.c` and a verification of its specification.

Modelling conventions.

* The code is written for the ILP32 target of the malloc lab: a tag is one
  `size_t` word of `WSIZE = 4` bytes, so `size_t` and pointers are 32 bits wide.
  Every `size_t` and pointer operation of the source is taken modulo
  `WORD = 2 ^ 32` (`add32`, `sub32`, `mul32`).
* Memory is word granular: `mem a` is the 32-bit word stored at byte address `a`.
  The allocator only ever reads and writes whole words at addresses that are
  multiples of four, and `memcpy` is called with a length that is a multiple of
  eight, so a word never straddles two cells.  `byteAt` gives the little-endian
  byte view of a cell.
* `PUT` also appends the pair (address, value) to the ghost list `writes`; the
  list is never read by the code and only serves to state what was written.
* The loops of `find_fit`, `best_fit`, `next_fit` and `mm_check` take a fuel
  argument; `none` means that the fuel ran out.  `NULL` is the pointer `0`.
-/

namespace Mm

/-! ## Constants and macros -/

/-- Number of values of a `size_t` (and of a pointer): `2 ^ 32`. -/
def WORD : Nat := 4294967296

def ALIGNMENT : Nat := 8
def WSIZE : Nat := 4
def DSIZE : Nat := 8
def CHUNKSIZE : Nat := 4096
def OVERHEAD : Nat := 8

/-- The mask `~0x7` converted to `size_t`. -/
def NOT7 : Nat := 4294967288

/-- Unsigned addition of `size_t` values and pointers. -/
def add32 (a b : Nat) : Nat := (a + b) % WORD

/-- Unsigned subtraction of `size_t` values and pointers. -/
def sub32 (a b : Nat) : Nat := (a + (WORD - b % WORD)) % WORD

/-- Unsigned multiplication of `size_t` values. -/
def mul32 (a b : Nat) : Nat := (a * b) % WORD

def MAX (x y : Nat) : Nat := if x > y then x else y

def PACK (size alloc : Nat) : Nat := size ||| alloc

/-- The state of the program: the memory, the state of the growth primitive
(`mem_start_brk`, `mem_brk`, `mem_max_addr`) and the two globals of `mm.c`. -/
structure Heap where
  mem : Nat → Nat
  writes : List (Nat × Nat)
  mem_start_brk : Nat
  mem_brk : Nat
  mem_max_addr : Nat
  heap_listp : Nat
  last_malloc_call : Nat

def GET (h : Heap) (p : Nat) : Nat := h.mem p

def PUT (h : Heap) (p val : Nat) : Heap :=
  { h with mem := fun a => if a = p then val else h.mem a, writes := (p, val) :: h.writes }

def GET_SIZE (h : Heap) (p : Nat) : Nat := GET h p &&& NOT7

def GET_ALLOC (h : Heap) (p : Nat) : Nat := GET h p &&& 1

def HDRP (bp : Nat) : Nat := sub32 bp WSIZE

def FTRP (h : Heap) (bp : Nat) : Nat := sub32 (add32 bp (GET_SIZE h (HDRP bp))) DSIZE

def NEXT_BLKP (h : Heap) (bp : Nat) : Nat := add32 bp (GET_SIZE h (sub32 bp WSIZE))

def PREV_BLKP (h : Heap) (bp : Nat) : Nat := sub32 bp (GET_SIZE h (sub32 bp DSIZE))

def ALIGN (size : Nat) : Nat := add32 size (ALIGNMENT - 1) &&& NOT7

/-- Little-endian byte `k` of the payload that starts at `p`. -/
def byteAt (h : Heap) (p k : Nat) : Nat := h.mem (p + 4 * (k / 4)) / 256 ^ (k % 4) % 256

/-! ## The growth primitive -/

/-- Modelled from the spec: the growth primitive `mem_sbrk` of `memlib.c`, which is
not part of the sources.  `extend(nbytes)` returns the start of a newly added
region that immediately follows the previously mapped range, or the failure
sentinel `(void *)-1`; it fails when the request does not fit below
`mem_max_addr`, and then changes nothing. -/
def mem_sbrk (h : Heap) (incr : Nat) : Heap × Nat :=
  if h.mem_brk + incr ≤ h.mem_max_addr then
    ({ h with mem_brk := h.mem_brk + incr }, h.mem_brk)
  else (h, WORD - 1)

/-- Modelled from the spec: `mem_heap_lo`, the first byte of the mapped range. -/
def mem_heap_lo (h : Heap) : Nat := h.mem_start_brk

/-- Modelled from the spec: `mem_heap_hi`, the last byte of the mapped range. -/
def mem_heap_hi (h : Heap) : Nat := h.mem_brk - 1

/-- The library routine `memcpy` on word cells: the `n` bytes at `src` are copied to
`dst`, all source cells being read before any cell is written. -/
def memcpy (h : Heap) (dst src n : Nat) : Heap :=
  { h with mem := fun a => if dst ≤ a ∧ a < dst + n then h.mem (src + (a - dst)) else h.mem a }

/-! ## The functions of `mm.c` -/

def coalesce (h : Heap) (bp : Nat) : Heap × Nat :=
  let prev_alloc := GET_ALLOC h (FTRP h (PREV_BLKP h bp))
  let next_alloc := GET_ALLOC h (HDRP (NEXT_BLKP h bp))
  let size := GET_SIZE h (HDRP bp)
  if prev_alloc ≠ 0 ∧ next_alloc ≠ 0 then
    ({ h with last_malloc_call := bp }, bp)
  else if prev_alloc ≠ 0 ∧ ¬ (next_alloc ≠ 0) then
    let size := add32 size (GET_SIZE h (HDRP (NEXT_BLKP h bp)))
    let h := PUT h (HDRP bp) (PACK size 0)
    let h := PUT h (FTRP h bp) (PACK size 0)
    ({ h with last_malloc_call := bp }, bp)
  else if ¬ (prev_alloc ≠ 0) ∧ next_alloc ≠ 0 then
    let size := add32 size (GET_SIZE h (HDRP (PREV_BLKP h bp)))
    let h := PUT h (FTRP h bp) (PACK size 0)
    let h := PUT h (HDRP (PREV_BLKP h bp)) (PACK size 0)
    ({ h with last_malloc_call := PREV_BLKP h bp }, PREV_BLKP h bp)
  else
    let size := add32 size (add32 (GET_SIZE h (HDRP (PREV_BLKP h bp)))
      (GET_SIZE h (FTRP h (NEXT_BLKP h bp))))
    let h := PUT h (HDRP (PREV_BLKP h bp)) (PACK size 0)
    let h := PUT h (FTRP h (NEXT_BLKP h bp)) (PACK size 0)
    ({ h with last_malloc_call := PREV_BLKP h bp }, PREV_BLKP h bp)

def extend_heap (h : Heap) (words : Nat) : Heap × Nat :=
  let size := if words % 2 ≠ 0 then mul32 (add32 words 1) WSIZE else mul32 words WSIZE
  match mem_sbrk h size with
  | (h, bp) =>
    if bp = WORD - 1 then (h, 0)
    else
      let h := PUT h (HDRP bp) (PACK size 0)
      let h := PUT h (FTRP h bp) (PACK size 0)
      let h := PUT h (HDRP (NEXT_BLKP h bp)) (PACK 0 1)
      coalesce h bp

def mm_init (h : Heap) : Heap × Int :=
  match mem_sbrk h (4 * WSIZE) with
  | (h, p) =>
    let h := { h with heap_listp := p }
    if h.heap_listp = 0 then (h, -1)
    else
      let h := PUT h h.heap_listp 0
      let h := PUT h (add32 h.heap_listp WSIZE) (PACK OVERHEAD 1)
      let h := PUT h (add32 h.heap_listp DSIZE) (PACK OVERHEAD 1)
      let h := PUT h (add32 (add32 h.heap_listp WSIZE) DSIZE) (PACK 0 1)
      let h := { h with heap_listp := add32 h.heap_listp DSIZE }
      let h := { h with last_malloc_call := h.heap_listp }
      match extend_heap h (CHUNKSIZE / WSIZE) with
      | (h, bp) => if bp = 0 then (h, -1) else (h, 0)

def find_fit_loop (h : Heap) (asize : Nat) : Nat → Nat → Option Nat
  | 0, _ => none
  | fuel + 1, bp =>
    if GET_SIZE h (HDRP bp) > 0 then
      if GET_ALLOC h (HDRP bp) = 0 ∧ asize ≤ GET_SIZE h (HDRP bp) then some bp
      else find_fit_loop h asize fuel (NEXT_BLKP h bp)
    else some 0

def find_fit (fuel : Nat) (h : Heap) (asize : Nat) : Option Nat :=
  find_fit_loop h asize fuel h.heap_listp

def best_fit_loop (h : Heap) (asize : Nat) : Nat → Nat → Nat → Option Nat
  | 0, _, _ => none
  | fuel + 1, bp, tempp =>
    if GET_SIZE h (HDRP bp) > 0 then
      let hdr_size := GET_SIZE h (HDRP bp)
      if GET_ALLOC h (HDRP bp) = 0 ∧ asize ≤ hdr_size then
        if asize = hdr_size then some bp
        else if tempp = 0 then best_fit_loop h asize fuel (NEXT_BLKP h bp) bp
        else if hdr_size < GET_SIZE h (HDRP tempp) then
          best_fit_loop h asize fuel (NEXT_BLKP h bp) bp
        else best_fit_loop h asize fuel (NEXT_BLKP h bp) tempp
      else best_fit_loop h asize fuel (NEXT_BLKP h bp) tempp
    else some tempp

def best_fit (fuel : Nat) (h : Heap) (asize : Nat) : Option Nat :=
  best_fit_loop h asize fuel h.heap_listp 0

def next_fit_loop (h : Heap) (asize : Nat) : Nat → Nat → Option (Heap × Nat)
  | 0, _ => none
  | fuel + 1, bp =>
    if GET_SIZE h (HDRP bp) > 0 then
      if GET_ALLOC h (HDRP bp) = 0 ∧ asize ≤ GET_SIZE h (HDRP bp) then
        some ({ h with last_malloc_call := bp }, bp)
      else next_fit_loop h asize fuel (NEXT_BLKP h bp)
    else some ({ h with last_malloc_call := h.heap_listp }, 0)

def next_fit (fuel : Nat) (h : Heap) (asize : Nat) : Option (Heap × Nat) :=
  next_fit_loop h asize fuel h.last_malloc_call

def place (h : Heap) (bp asize : Nat) : Heap :=
  let csize := GET_SIZE h (HDRP bp)
  if sub32 csize asize ≥ 2 * DSIZE then
    let h := PUT h (HDRP bp) (PACK asize 1)
    let h := PUT h (FTRP h bp) (PACK asize 1)
    let bp := NEXT_BLKP h bp
    let h := PUT h (HDRP bp) (PACK (sub32 csize asize) 0)
    PUT h (FTRP h bp) (PACK (sub32 csize asize) 0)
  else
    let h := PUT h (HDRP bp) (PACK csize 1)
    PUT h (FTRP h bp) (PACK csize 1)

/-- The adjusted block size that `mm_malloc` computes from the request. -/
def adjust (size : Nat) : Nat :=
  if size ≤ DSIZE then DSIZE + OVERHEAD
  else mul32 DSIZE (add32 (add32 size OVERHEAD) (DSIZE - 1) / DSIZE)

def mm_malloc (fuel : Nat) (h : Heap) (size : Nat) : Option (Heap × Nat) :=
  if size ≤ 0 then some (h, 0)
  else
    let asize := adjust size
    match next_fit fuel h asize with
    | none => none
    | some (h, bp) =>
      if bp ≠ 0 then some (place h bp asize, bp)
      else
        let extendsize := MAX asize CHUNKSIZE
        match extend_heap h (extendsize / WSIZE) with
        | (h, bp) =>
          if bp = 0 then some (h, 0)
          else some (place h bp asize, bp)

/-- The heap left by a call whose returned pointer the caller discards. -/
def heapOf (r : Heap × Nat) : Heap := r.1

def mm_free (h : Heap) (ptr : Nat) : Heap :=
  let size := GET_SIZE h (HDRP ptr)
  let h := PUT h (HDRP ptr) (PACK size 0)
  let h := PUT h (FTRP h ptr) (PACK size 0)
  heapOf (coalesce h ptr)

/-- The tail of `mm_realloc` ("we need to call malloc for more space"). -/
def realloc_move (fuel : Nat) (h : Heap) (oldptr size size_align : Nat) : Option (Heap × Nat) :=
  match mm_malloc fuel h size with
  | none => none
  | some (h, newptr) =>
    let h := mm_free h oldptr
    if newptr = 0 then some (h, 0)
    else some (memcpy h newptr oldptr size_align, newptr)

def mm_realloc (fuel : Nat) (h : Heap) (ptr size : Nat) : Option (Heap × Nat) :=
  let oldptr := ptr
  let oldhdr := HDRP oldptr
  if oldptr = 0 then mm_malloc fuel h size
  else if size ≤ 0 then some (mm_free h oldptr, oldptr)
  else
    let size_align := ALIGN size
    let size_w_overhead := add32 size_align OVERHEAD
    let old_hdr_size := GET_SIZE h oldhdr
    if size_w_overhead = old_hdr_size then some (h, oldptr)
    else
      let next_blk := NEXT_BLKP h oldptr
      let next_hdr := HDRP next_blk
      let next_blk_size := GET_SIZE h next_hdr
      if GET_ALLOC h next_hdr ≠ 0 then
        if sub32 old_hdr_size size_w_overhead < 2 * DSIZE then some (h, oldptr)
        else if old_hdr_size > size_w_overhead then
          let h := PUT h oldhdr (PACK size_w_overhead 1)
          let h := PUT h (add32 oldptr size_align) (PACK size_w_overhead 1)
          let h := PUT h (add32 (add32 oldptr size_align) WSIZE)
            (PACK (sub32 old_hdr_size size_w_overhead) 0)
          let h := PUT h (FTRP h oldptr) (PACK (sub32 old_hdr_size size_w_overhead) 0)
          some (h, oldptr)
        else realloc_move fuel h oldptr size size_align
      else
        if old_hdr_size > size_w_overhead ∨
            sub32 (add32 old_hdr_size next_blk_size) (2 * DSIZE) ≥ size_w_overhead then
          let h := PUT h oldhdr (PACK size_w_overhead 1)
          let h := PUT h (add32 oldptr size_align) (PACK size_w_overhead 1)
          let h := PUT h (add32 (add32 oldptr size_align) WSIZE)
            (PACK (add32 (sub32 old_hdr_size size_w_overhead) next_blk_size) 0)
          let h := PUT h (FTRP h next_blk)
            (PACK (add32 (sub32 old_hdr_size size_w_overhead) next_blk_size) 0)
          let h := { h with last_malloc_call := NEXT_BLKP h oldptr }
          some (h, oldptr)
        else realloc_move fuel h oldptr size size_align

/-- The loop of `mm_check`; `curr` is `curr_block_alloc`. -/
def mm_check_loop (h : Heap) : Nat → Nat → Nat → Option Nat
  | 0, _, _ => none
  | fuel + 1, bp, curr =>
    if GET_SIZE h (HDRP bp) > 0 then
      if bp ≠ h.heap_listp ∧ GET_ALLOC h (HDRP bp) = 0 ∧ curr = 0 then some 0
      else
        let curr := if bp ≠ h.heap_listp then GET_ALLOC h (HDRP bp) else curr
        if bp > mem_heap_hi h ∨ bp < mem_heap_lo h then some 0
        else if GET_SIZE h (HDRP bp) % DSIZE ≠ 0 then some 0
        else mm_check_loop h fuel (NEXT_BLKP h bp) curr
    else some 1

/-- The size in bytes that `extend_heap` requests for `words` words. -/
def extend_size (words : Nat) : Nat :=
  if words % 2 ≠ 0 then mul32 (add32 words 1) WSIZE else mul32 words WSIZE

def mm_check (fuel : Nat) (h : Heap) : Option Nat :=
  mm_check_loop h fuel h.heap_listp (GET_ALLOC h h.heap_listp)

/-! ## The block chain -/

/-- A block as the tags describe it: its total size and its allocated bit. -/
structure Blk where
  size : Nat
  alloc : Bool
deriving DecidableEq

/-- The allocated bit of a block as a number. -/
def Blk.bit (b : Blk) : Nat := if b.alloc then 1 else 0

/-- The tag word of a block. -/
def Blk.tag (b : Blk) : Nat := PACK b.size b.bit

/-- Total number of bytes of a list of consecutive blocks. -/
def total : List Blk → Nat
  | [] => 0
  | b :: bs => b.size + total bs

/-- The header words of the consecutive blocks `bs`, the first with payload at `a`. -/
def Hdrs (m : Nat → Nat) : Nat → List Blk → Prop
  | _, [] => True
  | a, b :: bs => m (a - 4) = b.tag ∧ Hdrs m (a + b.size) bs

/-- The footer words of the consecutive blocks `bs`, the first with payload at `a`. -/
def Ftrs (m : Nat → Nat) : Nat → List Blk → Prop
  | _, [] => True
  | a, b :: bs => m (a + b.size - 8) = b.tag ∧ Ftrs m (a + b.size) bs

/-- No two consecutive blocks are both free. -/
def NoAdjFree (bs : List Blk) : Prop :=
  List.Chain' (fun b c => b.alloc = true ∨ c.alloc = true) bs

/-- The payload pointers of the consecutive blocks `bs` laid out from `a`, followed by
the position of the block after them (the epilogue when `bs` is the whole chain). -/
def starts : Nat → List Blk → List Nat
  | a, [] => [a]
  | a, b :: bs => a :: starts (a + b.size) bs

instance decHdrs (m : Nat → Nat) : (a : Nat) → (bs : List Blk) → Decidable (Hdrs m a bs)
  | _, [] => isTrue trivial
  | a, b :: bs =>
    have := decHdrs m (a + b.size) bs
    inferInstanceAs (Decidable (m (a - 4) = b.tag ∧ Hdrs m (a + b.size) bs))

instance decFtrs (m : Nat → Nat) : (a : Nat) → (bs : List Blk) → Decidable (Ftrs m a bs)
  | _, [] => isTrue trivial
  | a, b :: bs =>
    have := decFtrs m (a + b.size) bs
    inferInstanceAs (Decidable (m (a + b.size - 8) = b.tag ∧ Ftrs m (a + b.size) bs))

instance decNoAdjFree (bs : List Blk) : Decidable (NoAdjFree bs) :=
  List.decidableChain' bs

/-- The header chain of `h` is `bs`, prologue first: following the header sizes from
`heap_listp` visits the blocks `bs`, all of positive size and inside the mapped range,
and arrives at the epilogue header in the last word of the mapped range; the search
cursor is at a block of the chain (the prologue, a block, or the epilogue). -/
structure Chain (h : Heap) (bs : List Blk) : Prop where
  lo_pos : 0 < h.mem_start_brk
  lo_al : h.mem_start_brk % 8 = 0
  listp : h.heap_listp = h.mem_start_brk + 8
  max_lt : h.mem_max_addr < WORD
  brk_le : h.mem_brk ≤ h.mem_max_addr
  pro : bs.head? = some ⟨8, true⟩
  pos : ∀ b ∈ bs, 8 ≤ b.size ∧ b.size % 8 = 0
  hdrs : Hdrs h.mem h.heap_listp bs
  epi : h.mem (h.mem_brk - 4) = PACK 0 1
  fin : h.heap_listp + total bs = h.mem_brk
  cur : h.last_malloc_call ∈ starts h.heap_listp bs

/-- The heap `h` is well formed and `bs` is its chain of blocks, prologue first: the
blocks tile the range between `heap_listp` and the epilogue header in the last word of
the mapped range, every header equals its footer, sizes are multiples of eight (at
least 16 after the prologue), no two consecutive blocks are free, and the search
cursor is at a block of the chain (prologue and epilogue included). -/
structure WF (h : Heap) (bs : List Blk) : Prop where
  lo_pos : 0 < h.mem_start_brk
  lo_al : h.mem_start_brk % 8 = 0
  listp : h.heap_listp = h.mem_start_brk + 8
  max_lt : h.mem_max_addr < WORD
  brk_le : h.mem_brk ≤ h.mem_max_addr
  pro : bs.head? = some ⟨8, true⟩
  pos : ∀ b ∈ bs, 8 ≤ b.size ∧ b.size % 8 = 0
  sizes : ∀ b ∈ bs.tail, 16 ≤ b.size
  hdrs : Hdrs h.mem h.heap_listp bs
  ftrs : Ftrs h.mem h.heap_listp bs
  epi : h.mem (h.mem_brk - 4) = PACK 0 1
  fin : h.heap_listp + total bs = h.mem_brk
  coal : NoAdjFree bs
  cur : h.last_malloc_call ∈ starts h.heap_listp bs

/-- Well-formedness without the requirement that free blocks are coalesced: the state
between marking a block free and coalescing it. -/
structure Tiled (h : Heap) (bs : List Blk) : Prop where
  lo_pos : 0 < h.mem_start_brk
  lo_al : h.mem_start_brk % 8 = 0
  listp : h.heap_listp = h.mem_start_brk + 8
  max_lt : h.mem_max_addr < WORD
  brk_le : h.mem_brk ≤ h.mem_max_addr
  pro : bs.head? = some ⟨8, true⟩
  pos : ∀ b ∈ bs, 8 ≤ b.size ∧ b.size % 8 = 0
  sizes : ∀ b ∈ bs.tail, 16 ≤ b.size
  hdrs : Hdrs h.mem h.heap_listp bs
  ftrs : Ftrs h.mem h.heap_listp bs
  epi : h.mem (h.mem_brk - 4) = PACK 0 1
  fin : h.heap_listp + total bs = h.mem_brk
  cur : h.last_malloc_call ∈ starts h.heap_listp bs

/-- The blocks before a freed block that stay after coalescing, and the number of bytes
that the freed block absorbs from the block before it. -/
def mergePrev (pre : List Blk) : List Blk × Nat :=
  match pre.getLast? with
  | some pb => if pb.alloc then (pre, 0) else (pre.dropLast, pb.size)
  | none => (pre, 0)

/-- The blocks after a freed block that stay after coalescing, and the number of bytes
that the freed block absorbs from the block after it. -/
def mergeNext (post : List Blk) : List Blk × Nat :=
  match post with
  | nb :: rest => if nb.alloc then (post, 0) else (rest, nb.size)
  | [] => ([], 0)

/-- The chain after coalescing a free block of size `s` that lies between the blocks
`pre` and `post`. -/
def coalesced (pre : List Blk) (s : Nat) (post : List Blk) : List Blk :=
  (mergePrev pre).1 ++ ⟨(mergePrev pre).2 + s + (mergeNext post).2, false⟩ :: (mergeNext post).1

/-- The consecutive blocks `bs` laid out from `a`, each with its payload pointer. -/
def blocksAt : Nat → List Blk → List (Nat × Blk)
  | _, [] => []
  | a, b :: bs => (a, b) :: blocksAt (a + b.size) bs

/-- The growth primitive and `heap_listp` are the same in `h'` as in `h`. -/
def SameBounds (h h' : Heap) : Prop :=
  h'.mem_start_brk = h.mem_start_brk ∧ h'.mem_brk = h.mem_brk ∧
    h'.mem_max_addr = h.mem_max_addr ∧ h'.heap_listp = h.heap_listp

/-- Every word written by `PUT` between `h` and `h'` is a tag `PACK size alloc` whose
size is a multiple of eight and whose allocated bit is `0` or `1`. -/
def TagWrites (h h' : Heap) : Prop :=
  ∃ ws : List (Nat × Nat), h'.writes = ws ++ h.writes ∧ ∀ e ∈ ws, e.2 % 8 ≤ 1

/-- The payload pointer of the first free block of size at least `asize` among the
consecutive blocks `bs` laid out from `a`, if there is one. -/
def firstFit (asize : Nat) : Nat → List Blk → Option Nat
  | _, [] => none
  | a, b :: bs =>
    if b.alloc = false ∧ asize ≤ b.size then some a else firstFit asize (a + b.size) bs

/-- The pointer `p` is live: it is the payload pointer of an allocated block of the
chain `bs` other than the prologue; `pre` are the blocks before it, `b` the block
itself and `post` the blocks after it. -/
def Live (h : Heap) (bs pre : List Blk) (b : Blk) (post : List Blk) (p : Nat) : Prop :=
  bs = pre ++ b :: post ∧ pre ≠ [] ∧ p = h.heap_listp + total pre ∧ b.alloc = true

/-- The needed total size `ALIGN(size) + OVERHEAD` as `mm_realloc` computes it. -/
def needed (size : Nat) : Nat := add32 (ALIGN size) OVERHEAD

/-- A region on which nothing has been mapped yet. -/
structure Fresh (h : Heap) : Prop where
  lo_pos : 0 < h.mem_start_brk
  lo_al : h.mem_start_brk % 8 = 0
  brk : h.mem_brk = h.mem_start_brk
  max_lt : h.mem_max_addr < WORD

/-- The block at `bp` has size `size` and allocated bit `alloc` in its header and in its
footer. -/
def BlockAt (h : Heap) (bp size alloc : Nat) : Prop :=
  GET h (HDRP bp) = PACK size alloc ∧ GET h (FTRP h bp) = PACK size alloc

/-- The payload pointers that the loop of `mm_check` visits when it starts at `bp`:
the blocks reached by following the header sizes, up to the first header of size 0.
`none` means that the fuel ran out before a header of size 0 was reached. -/
def chainFrom (h : Heap) : Nat → Nat → Option (List Nat)
  | 0, _ => none
  | fuel + 1, bp =>
    if GET_SIZE h (HDRP bp) > 0 then
      (chainFrom h fuel (NEXT_BLKP h bp)).map (fun l => bp :: l)
    else some []

/-- The condition (b) in the words of the specification: the block with payload pointer
`bp` lies within the mapped range, from its header word to the last byte of its footer
word. -/
def BlockWithin (h : Heap) (bp : Nat) : Prop :=
  mem_heap_lo h ≤ HDRP bp ∧ FTRP h bp + (WSIZE - 1) ≤ mem_heap_hi h

/-- The three conditions for the blocks with payload pointers `bps`, with (b) read on
the payload pointers: (a) no two consecutive blocks both have a free header, (b) every
payload pointer lies within `[mem_heap_lo, mem_heap_hi]`, (c) every size is a multiple
of eight. -/
def Healthy (h : Heap) (bps : List Nat) : Prop :=
  List.Chain' (fun x y => GET_ALLOC h (HDRP x) ≠ 0 ∨ GET_ALLOC h (HDRP y) ≠ 0) bps ∧
  (∀ x ∈ bps, mem_heap_lo h ≤ x ∧ x ≤ mem_heap_hi h) ∧
  (∀ x ∈ bps, GET_SIZE h (HDRP x) % 8 = 0)

/-- The conditions that the loop of `mm_check` tests on the blocks `bps`, `curr` being
the allocated bit it remembers from the block before them. -/
def okFrom (h : Heap) : Nat → List Nat → Prop
  | _, [] => True
  | curr, x :: l =>
    ¬ (GET_ALLOC h (HDRP x) = 0 ∧ curr = 0) ∧
    (mem_heap_lo h ≤ x ∧ x ≤ mem_heap_hi h) ∧ GET_SIZE h (HDRP x) % 8 = 0 ∧
    okFrom h (GET_ALLOC h (HDRP x)) l

/-! ## Concrete heaps -/

/-- The heap that a call returned, or `h` when the call ran out of fuel. -/
def heapOr (h : Heap) (r : Option (Heap × Nat)) : Heap :=
  match r with
  | some (h', _) => h'
  | none => h

/-- The pointer that a call returned. -/
def ptrOf (r : Option (Heap × Nat)) : Option Nat := r.map (fun x => x.2)

/-- An empty region at address 64 with room for the prologue, the epilogue and two
chunks. -/
def region : Heap :=
  { mem := fun _ => 0, writes := [], mem_start_brk := 64, mem_brk := 64,
    mem_max_addr := 64 + 16 + 4096 + 4096, heap_listp := 0, last_malloc_call := 0 }

/-- An empty region at address 64 with room for the prologue, the epilogue and one
chunk only. -/
def smallRegion : Heap :=
  { mem := fun _ => 0, writes := [], mem_start_brk := 64, mem_brk := 64,
    mem_max_addr := 64 + 16 + 4096, heap_listp := 0, last_malloc_call := 0 }

/-- The heap after `mm_init` on `region`. -/
def initHeap : Heap := (mm_init region).1

/-- The heap after `mm_init` on `smallRegion`. -/
def smallHeap : Heap := (mm_init smallRegion).1

/-- The test `main` up to its second allocation: `mm_malloc(16)` returns 80, `mm_malloc(8)`
returns 104. -/
def mainHeap : Heap :=
  heapOr initHeap (mm_malloc 8 (heapOr initHeap (mm_malloc 8 initHeap 16)) 8)

/-- After `mm_malloc(40)` (returns 80) and `mm_malloc(8)` (returns 128) on `initHeap`. -/
def twoBlocks : Heap :=
  heapOr initHeap (mm_malloc 8 (heapOr initHeap (mm_malloc 8 initHeap 40)) 8)

/-- After `mm_realloc(80, 8)` on `twoBlocks`. -/
def shrunk : Heap := heapOr twoBlocks (mm_realloc 8 twoBlocks 80 8)

/-- After three `mm_malloc(8)` (returning 80, 96 and 112) on `initHeap` and
`mm_free(80)`. -/
def holeHeap : Heap :=
  mm_free (heapOr initHeap (mm_malloc 8 (heapOr initHeap (mm_malloc 8
    (heapOr initHeap (mm_malloc 8 initHeap 8)) 8)) 8)) 80

/-- After `mm_malloc(16)` (returns 80) on `initHeap`. -/
def oneBlock : Heap := heapOr initHeap (mm_malloc 8 initHeap 16)

/-- After `mm_malloc(16)` (returns 80) on `smallHeap`. -/
def fullHeap : Heap := heapOr smallHeap (mm_malloc 8 smallHeap 16)

/-- An empty region at address 64 without room for anything. -/
def noRoom : Heap :=
  { mem := fun _ => 0, writes := [], mem_start_brk := 64, mem_brk := 64,
    mem_max_addr := 64, heap_listp := 0, last_malloc_call := 0 }

/-- The heap after `mm_init` with the prologue footer overwritten by a free tag. -/
def footerFree : Heap := PUT initHeap 72 8

/-- The heap after `mm_init` with the prologue header overwritten by a free tag. -/
def headerFree : Heap := PUT initHeap 68 8

/-- The heap after `mm_init` with the header of the free block overwritten by a free
tag of size 8192, twice the size of the block. -/
def overrun : Heap := PUT initHeap 76 8192

/-- The test `main` just before its `mm_realloc`: `p = mm_malloc(16)` (80),
`q = mm_malloc(8)` (104), `mm_free(p)`, `s = mm_malloc(8)` (80). -/
def mainBefore : Heap := heapOr mainHeap (mm_malloc 8 (mm_free mainHeap 80) 8)

/-- The test `main` at its end: after `mm_realloc(q, 16)`. -/
def mainAfter : Heap := heapOr mainBefore (mm_realloc 8 mainBefore 104 16)

/-- After `mm_malloc(4040)` on `holeHeap`: the free block at 128 is consumed and the
cursor stays on it, behind the free block at 80. -/
def skipHeap : Heap := heapOr holeHeap (mm_malloc 8 holeHeap 4040)

/-- The heap of the test `main` after its first three calls, with the block at `104`
marked free in its header and footer and not yet coalesced. -/
def markedFree : Heap := PUT (PUT mainHeap 100 16) 112 16

/-! ## Lemmas -/

/-! ## Arithmetic of tags -/

theorem add32_eq {a b : Nat} (h : a + b < WORD) : add32 a b = a + b := by
  unfold add32; exact Nat.mod_eq_of_lt h

theorem sub32_eq {a b : Nat} (hb : b ≤ a) (ha : a < WORD) : sub32 a b = a - b := by
  unfold sub32 WORD at *; omega

theorem and_NOT7 (v : Nat) (hv : v < WORD) : v &&& NOT7 = v - v % 8 := by
  have key : v &&& NOT7 = 2 ^ 3 * (v / 2 ^ 3) := by
    apply Nat.eq_of_testBit_eq
    intro i
    have hN : NOT7 = 2 ^ 3 * (2 ^ 29 - 1) := by norm_num [NOT7]
    rw [Nat.testBit_and, hN, Nat.testBit_mul_pow_two, Nat.testBit_mul_pow_two,
      Nat.testBit_two_pow_sub_one, ← Nat.shiftRight_eq_div_pow, Nat.testBit_shiftRight]
    by_cases h3 : i < 3
    · have : ¬ (i ≥ 3) := by omega
      simp [this]
    · have h3' : i ≥ 3 := by omega
      have e : 3 + (i - 3) = i := by omega
      by_cases h32 : i < 32
      · have : i - 3 < 29 := by omega
        simp [h3', this, e]
      · have hz : v.testBit i = false := by
          apply Nat.testBit_lt_two_pow
          calc v < 2 ^ 32 := by simpa [WORD] using hv
            _ ≤ 2 ^ i := Nat.pow_le_pow_right (by norm_num) (by omega)
        simp [hz, e]
  rw [key]; omega

theorem PACK_eq {s a : Nat} (hs : s % 8 = 0) (ha : a < 8) : PACK s a = s + a := by
  unfold PACK
  have := Nat.mul_add_lt_is_or (i := 3) (b := a) (by simpa using ha) (s / 8)
  have e : 2 ^ 3 * (s / 8) = s := by omega
  rw [e] at this
  exact this.symm

theorem and_one (v : Nat) : v &&& 1 = v % 2 := Nat.and_one_is_mod v

theorem and_NOT7_tag {s a : Nat} (hs : s % 8 = 0) (ha : a ≤ 1) (hlt : s + a < 4294967296) :
    (s + a) &&& NOT7 = s := by
  rw [and_NOT7 _ (by unfold WORD; omega)]; omega

theorem and_one_tag {s a : Nat} (hs : s % 8 = 0) (ha : a ≤ 1) : (s + a) &&& 1 = a := by
  rw [and_one]; omega

theorem GET_SIZE_eq {h : Heap} (p s a : Nat) (hm : h.mem p = s + a)
    (hs : s % 8 = 0) (ha : a ≤ 1) (hlt : s + a < 4294967296) : GET_SIZE h p = s := by
  unfold GET_SIZE GET; rw [hm]; exact and_NOT7_tag hs ha hlt

theorem GET_SIZE_eq0 {h : Heap} (p s : Nat) (hm : h.mem p = s)
    (hs : s % 8 = 0) (hlt : s < 4294967296) : GET_SIZE h p = s :=
  GET_SIZE_eq p s 0 hm hs (by omega) (by omega)

theorem GET_ALLOC_eq {h : Heap} (p s a : Nat) (hm : h.mem p = s + a)
    (hs : s % 8 = 0) (ha : a ≤ 1) : GET_ALLOC h p = a := by
  unfold GET_ALLOC GET; rw [hm]; exact and_one_tag hs ha

theorem GET_ALLOC_eq0 {h : Heap} (p s : Nat) (hm : h.mem p = s)
    (hs : s % 8 = 0) : GET_ALLOC h p = 0 :=
  GET_ALLOC_eq p s 0 hm hs (by omega)

theorem HDRP_eq {bp : Nat} (h4 : 4 ≤ bp) (hlt : bp < 4294967296) : HDRP bp = bp - 4 := by
  unfold HDRP WSIZE; exact sub32_eq h4 (by unfold WORD; omega)

@[simp]
theorem PUT_mem (h : Heap) (p v x : Nat) :
    (PUT h p v).mem x = if x = p then v else h.mem x := rfl
@[simp]
theorem PUT_writes (h : Heap) (p v : Nat) : (PUT h p v).writes = (p, v) :: h.writes := rfl
@[simp]
theorem PUT_start (h : Heap) (p v : Nat) : (PUT h p v).mem_start_brk = h.mem_start_brk := rfl
@[simp]
theorem PUT_brk (h : Heap) (p v : Nat) : (PUT h p v).mem_brk = h.mem_brk := rfl
@[simp]
theorem PUT_max (h : Heap) (p v : Nat) : (PUT h p v).mem_max_addr = h.mem_max_addr := rfl
@[simp]
theorem PUT_listp (h : Heap) (p v : Nat) : (PUT h p v).heap_listp = h.heap_listp := rfl
@[simp]
theorem PUT_cursor (h : Heap) (p v : Nat) :
    (PUT h p v).last_malloc_call = h.last_malloc_call := rfl

theorem PUT_mem_eq (h : Heap) (p v : Nat) : (PUT h p v).mem p = v := by simp

theorem PUT_mem_ne (h : Heap) {p x : Nat} (v : Nat) (hne : x ≠ p) :
    (PUT h p v).mem x = h.mem x := by simp [hne]

theorem FTRP_eq {h : Heap} (bp s a : Nat) (hm : h.mem (bp - 4) = s + a)
    (hs : s % 8 = 0) (ha : a ≤ 1) (h4 : 4 ≤ bp) (h8 : 8 ≤ bp + s) (hlt : bp + s < 4294967296) :
    FTRP h bp = bp + s - 8 := by
  unfold FTRP
  rw [HDRP_eq h4 (by omega), GET_SIZE_eq _ s a hm hs ha (by omega),
    add32_eq (by unfold WORD; omega)]
  exact sub32_eq (by unfold DSIZE; omega) (by unfold WORD; omega)

theorem FTRP_eq0 {h : Heap} (bp s : Nat) (hm : h.mem (bp - 4) = s)
    (hs : s % 8 = 0) (h4 : 4 ≤ bp) (h8 : 8 ≤ bp + s) (hlt : bp + s < 4294967296) :
    FTRP h bp = bp + s - 8 :=
  FTRP_eq bp s 0 hm hs (by omega) h4 h8 hlt

theorem NEXT_BLKP_eq {h : Heap} (bp s a : Nat) (hm : h.mem (bp - 4) = s + a)
    (hs : s % 8 = 0) (ha : a ≤ 1) (h4 : 4 ≤ bp) (hlt : bp + s < 4294967296) :
    NEXT_BLKP h bp = bp + s := by
  unfold NEXT_BLKP
  have e : sub32 bp WSIZE = bp - 4 := sub32_eq (by unfold WSIZE; omega) (by unfold WORD; omega)
  rw [e, GET_SIZE_eq _ s a hm hs ha (by omega), add32_eq (by unfold WORD; omega)]

theorem NEXT_BLKP_eq0 {h : Heap} (bp s : Nat) (hm : h.mem (bp - 4) = s)
    (hs : s % 8 = 0) (h4 : 4 ≤ bp) (hlt : bp + s < 4294967296) :
    NEXT_BLKP h bp = bp + s :=
  NEXT_BLKP_eq bp s 0 hm hs (by omega) h4 hlt

theorem PREV_BLKP_eq {h : Heap} (bp s a : Nat) (hm : h.mem (bp - 8) = s + a)
    (hs : s % 8 = 0) (ha : a ≤ 1) (h8 : 8 ≤ bp) (hle : s ≤ bp)
    (hlt : bp < 4294967296) : PREV_BLKP h bp = bp - s := by
  unfold PREV_BLKP
  have e : sub32 bp DSIZE = bp - 8 := sub32_eq (by unfold DSIZE; omega) (by unfold WORD; omega)
  rw [e, GET_SIZE_eq _ s a hm hs ha (by omega)]
  exact sub32_eq hle (by unfold WORD; omega)

/-! ## Lists of blocks -/

theorem Blk.bit_le (b : Blk) : b.bit ≤ 1 := by
  unfold Blk.bit; split <;> omega

theorem Blk.tag_eq (b : Blk) (hs : b.size % 8 = 0) : b.tag = b.size + b.bit := by
  unfold Blk.tag; exact PACK_eq hs (by have := b.bit_le; omega)

@[simp]
theorem total_nil : total [] = 0 := rfl
@[simp]
theorem total_cons (b : Blk) (bs : List Blk) : total (b :: bs) = b.size + total bs := rfl

@[simp]
theorem total_append (xs ys : List Blk) : total (xs ++ ys) = total xs + total ys := by
  induction xs with
  | nil => simp
  | cons b bs ih => simp [ih]; omega

theorem Hdrs_append (m : Nat → Nat) (a : Nat) (xs ys : List Blk) :
    Hdrs m a (xs ++ ys) ↔ Hdrs m a xs ∧ Hdrs m (a + total xs) ys := by
  induction xs generalizing a with
  | nil => simp [Hdrs]
  | cons b bs ih => simp [Hdrs, ih, and_assoc, Nat.add_assoc]

theorem Ftrs_append (m : Nat → Nat) (a : Nat) (xs ys : List Blk) :
    Ftrs m a (xs ++ ys) ↔ Ftrs m a xs ∧ Ftrs m (a + total xs) ys := by
  induction xs generalizing a with
  | nil => simp [Ftrs]
  | cons b bs ih => simp [Ftrs, ih, and_assoc, Nat.add_assoc]

/-- Header words only depend on the cells at header positions of the range. -/
theorem Hdrs_frame {m m' : Nat → Nat} {a : Nat} {bs : List Blk} (hal : a % 8 = 0) (ha : 8 ≤ a)
    (hs : ∀ b ∈ bs, 8 ≤ b.size ∧ b.size % 8 = 0)
    (hfr : ∀ x, x % 8 = 4 → a ≤ x + 4 → x + 4 < a + total bs → m' x = m x)
    (H : Hdrs m a bs) : Hdrs m' a bs := by
  induction bs generalizing a with
  | nil => trivial
  | cons b bs ih =>
    have hb := hs b (List.mem_cons_self _ _)
    simp only [Hdrs, total_cons] at *
    refine ⟨?_, ih (by omega) (by omega) (fun c hc => hs c (List.mem_cons_of_mem _ hc)) ?_ H.2⟩
    · rw [hfr (a - 4) (by omega) (by omega) (by omega)]; exact H.1
    · intro x h1 h2 h3; exact hfr x h1 (by omega) (by omega)

/-- Footer words only depend on the cells at footer positions of the range. -/
theorem Ftrs_frame {m m' : Nat → Nat} {a : Nat} {bs : List Blk} (hal : a % 8 = 0)
    (hs : ∀ b ∈ bs, 8 ≤ b.size ∧ b.size % 8 = 0)
    (hfr : ∀ x, x % 8 = 0 → a ≤ x → x + 8 ≤ a + total bs → m' x = m x)
    (H : Ftrs m a bs) : Ftrs m' a bs := by
  induction bs generalizing a with
  | nil => trivial
  | cons b bs ih =>
    have hb := hs b (List.mem_cons_self _ _)
    simp only [Ftrs, total_cons] at *
    refine ⟨?_, ih (by omega) (fun c hc => hs c (List.mem_cons_of_mem _ hc)) ?_ H.2⟩
    · rw [hfr (a + b.size - 8) (by omega) (by omega) (by omega)]; exact H.1
    · intro x h1 h2 h3; exact hfr x h1 (by omega) (by omega)

theorem pos_append {xs ys : List Blk} (h : ∀ b ∈ xs ++ ys, 8 ≤ b.size ∧ b.size % 8 = 0) :
    (∀ b ∈ xs, 8 ≤ b.size ∧ b.size % 8 = 0) ∧ (∀ b ∈ ys, 8 ≤ b.size ∧ b.size % 8 = 0) :=
  ⟨fun b hb => h b (List.mem_append_left _ hb), fun b hb => h b (List.mem_append_right _ hb)⟩

theorem total_mod {bs : List Blk} (h : ∀ b ∈ bs, 8 ≤ b.size ∧ b.size % 8 = 0) :
    total bs % 8 = 0 := by
  induction bs with
  | nil => rfl
  | cons b bs ih =>
    have hb := h b (List.mem_cons_self _ _)
    have := ih (fun c hc => h c (List.mem_cons_of_mem _ hc))
    simp only [total_cons]; omega

/-- Replacing the blocks `mid` by `mid'` (same extent) when the header cells outside
the extent of `mid` are unchanged. -/
theorem Hdrs_splice {m m' : Nat → Nat} {a : Nat} {pre mid mid' post : List Blk}
    (hal : a % 8 = 0) (ha : 8 ≤ a)
    (hpre : ∀ b ∈ pre, 8 ≤ b.size ∧ b.size % 8 = 0)
    (hpost : ∀ b ∈ post, 8 ≤ b.size ∧ b.size % 8 = 0)
    (htot : total mid' = total mid) (hm8 : total mid % 8 = 0)
    (hfr : ∀ x, x % 8 = 4 → (x + 4 < a + total pre ∨ a + total pre + total mid ≤ x + 4) →
      m' x = m x)
    (H : Hdrs m a (pre ++ mid ++ post)) (Hmid : Hdrs m' (a + total pre) mid') :
    Hdrs m' a (pre ++ mid' ++ post) := by
  rw [Hdrs_append, Hdrs_append] at *
  have hp8 := total_mod hpre
  refine ⟨⟨Hdrs_frame hal ha hpre (fun x h1 _ h3 => hfr x h1 (Or.inl h3)) H.1.1, Hmid⟩, ?_⟩
  simp only [total_append] at *
  rw [htot]
  exact Hdrs_frame (by omega) (by omega) hpost (fun x h1 h2 _ => hfr x h1 (Or.inr (by omega))) H.2

/-! ## Symbolic execution of the block operations -/

/-- `place` when the remainder is split off (`asize` any multiple of eight, even `0`). -/
theorem place_split {h : Heap} {bp asize csize : Nat} (hbp : 8 ≤ bp)
    (hhi : bp + csize < 4294967296) (hc : csize % 8 = 0) (ha : asize % 8 = 0)
    (hle : asize + 16 ≤ csize) (Hh : h.mem (bp - 4) = csize) :
    place h bp asize =
      PUT (PUT (PUT (PUT h (bp - 4) (asize + 1)) (bp + asize - 8) (asize + 1))
        (bp + asize - 4) (csize - asize)) (bp + csize - 8) (csize - asize) := by
  have e0 : HDRP bp = bp - 4 := HDRP_eq (by omega) (by omega)
  have e1 : GET_SIZE h (bp - 4) = csize := GET_SIZE_eq0 _ csize Hh hc (by omega)
  have e2 : sub32 csize asize = csize - asize := sub32_eq (by omega) (by unfold WORD; omega)
  have e3 : PACK asize 1 = asize + 1 := PACK_eq ha (by omega)
  have e4 : PACK (csize - asize) 0 = csize - asize := PACK_eq (by omega) (by omega)
  have c : csize - asize ≥ 2 * DSIZE := by unfold DSIZE; omega
  unfold place
  simp only [e0, e1, e2, e3, e4, if_pos c]
  have f1 : FTRP (PUT h (bp - 4) (asize + 1)) bp = bp + asize - 8 :=
    FTRP_eq bp asize 1 (PUT_mem_eq _ _ _) ha (by omega) (by omega) (by omega) (by omega)
  rw [f1]
  have m2 : (PUT (PUT h (bp - 4) (asize + 1)) (bp + asize - 8) (asize + 1)).mem (bp - 4)
      = asize + 1 := by
    rw [PUT_mem_ne _ _ (by omega), PUT_mem_eq]
  have n1 : NEXT_BLKP (PUT (PUT h (bp - 4) (asize + 1)) (bp + asize - 8) (asize + 1)) bp
      = bp + asize := NEXT_BLKP_eq bp asize 1 m2 ha (by omega) (by omega) (by omega)
  rw [n1]
  have e5 : HDRP (bp + asize) = bp + asize - 4 := HDRP_eq (by omega) (by omega)
  rw [e5]
  have f2 : FTRP (PUT (PUT (PUT h (bp - 4) (asize + 1)) (bp + asize - 8) (asize + 1))
      (bp + asize - 4) (csize - asize)) (bp + asize) = bp + csize - 8 := by
    rw [FTRP_eq0 (bp + asize) (csize - asize) (PUT_mem_eq _ _ _) (by omega)
      (by omega) (by omega) (by omega)]
    omega
  rw [f2]

/-- `place` when the whole block is consumed. -/
theorem place_whole {h : Heap} {bp asize csize : Nat} (hbp : 8 ≤ bp)
    (hhi : bp + csize < 4294967296) (hc : csize % 8 = 0) (hc8 : 8 ≤ csize)
    (hle : asize ≤ csize) (hlt : csize < asize + 16) (Hh : h.mem (bp - 4) = csize) :
    place h bp asize = PUT (PUT h (bp - 4) (csize + 1)) (bp + csize - 8) (csize + 1) := by
  have e0 : HDRP bp = bp - 4 := HDRP_eq (by omega) (by omega)
  have e1 : GET_SIZE h (bp - 4) = csize := GET_SIZE_eq0 _ csize Hh hc (by omega)
  have e2 : sub32 csize asize = csize - asize := sub32_eq (by omega) (by unfold WORD; omega)
  have e3 : PACK csize 1 = csize + 1 := PACK_eq hc (by omega)
  have c : ¬ (csize - asize ≥ 2 * DSIZE) := by unfold DSIZE; omega
  unfold place
  simp only [e0, e1, e2, e3, if_neg c]
  rw [FTRP_eq bp csize 1 (PUT_mem_eq _ _ _) hc (by omega) (by omega) (by omega) (by omega)]

/-- `coalesce`, case 1: both neighbours allocated. -/
theorem coalesce_case1 {h : Heap} {bp s ps ns : Nat}
    (hs : s % 8 = 0) (hps : ps % 8 = 0) (hns : ns % 8 = 0) (hps8 : 8 ≤ ps)
    (hlo : ps + 8 ≤ bp) (hhi : bp + s + ns < 4294967296)
    (Hpf : h.mem (bp - 8) = ps + 1) (Hph : h.mem (bp - ps - 4) = ps + 1)
    (Hh : h.mem (bp - 4) = s) (Hnh : h.mem (bp + s - 4) = ns + 1) :
    coalesce h bp = ({ h with last_malloc_call := bp }, bp) := by
  have p1 : PREV_BLKP h bp = bp - ps :=
    PREV_BLKP_eq bp ps 1 Hpf hps (by omega) (by omega) (by omega) (by omega)
  have p2 : FTRP h (bp - ps) = bp - 8 := by
    rw [FTRP_eq (bp - ps) ps 1 Hph hps (by omega) (by omega) (by omega) (by omega)]; omega
  have p3 : GET_ALLOC h (bp - 8) = 1 := GET_ALLOC_eq _ ps 1 Hpf hps (by omega)
  have n1 : NEXT_BLKP h bp = bp + s := NEXT_BLKP_eq0 bp s Hh hs (by omega) (by omega)
  have n2 : HDRP (bp + s) = bp + s - 4 := HDRP_eq (by omega) (by omega)
  have n3 : GET_ALLOC h (bp + s - 4) = 1 := GET_ALLOC_eq _ ns 1 Hnh hns (by omega)
  unfold coalesce
  simp [p1, p2, p3, n1, n2, n3]

/-- `coalesce`, case 2: only the next block is free. -/
theorem coalesce_case2 {h : Heap} {bp s ps ns : Nat}
    (hs : s % 8 = 0) (hps : ps % 8 = 0) (hns : ns % 8 = 0) (hps8 : 8 ≤ ps)
    (hlo : ps + 8 ≤ bp) (hhi : bp + s + ns < 4294967296)
    (Hpf : h.mem (bp - 8) = ps + 1) (Hph : h.mem (bp - ps - 4) = ps + 1)
    (Hh : h.mem (bp - 4) = s) (Hnh : h.mem (bp + s - 4) = ns) :
    coalesce h bp =
      ({ PUT (PUT h (bp - 4) (s + ns)) (bp + s + ns - 8) (s + ns) with
          last_malloc_call := bp }, bp) := by
  have p1 : PREV_BLKP h bp = bp - ps :=
    PREV_BLKP_eq bp ps 1 Hpf hps (by omega) (by omega) (by omega) (by omega)
  have p2 : FTRP h (bp - ps) = bp - 8 := by
    rw [FTRP_eq (bp - ps) ps 1 Hph hps (by omega) (by omega) (by omega) (by omega)]; omega
  have p3 : GET_ALLOC h (bp - 8) = 1 := GET_ALLOC_eq _ ps 1 Hpf hps (by omega)
  have n1 : NEXT_BLKP h bp = bp + s := NEXT_BLKP_eq0 bp s Hh hs (by omega) (by omega)
  have n2 : HDRP (bp + s) = bp + s - 4 := HDRP_eq (by omega) (by omega)
  have n3 : GET_ALLOC h (bp + s - 4) = 0 := GET_ALLOC_eq0 _ ns Hnh hns
  have n4 : GET_SIZE h (bp + s - 4) = ns := GET_SIZE_eq0 _ ns Hnh hns (by omega)
  have e0 : HDRP bp = bp - 4 := HDRP_eq (by omega) (by omega)
  have e1 : GET_SIZE h (bp - 4) = s := GET_SIZE_eq0 _ s Hh hs (by omega)
  have e2 : add32 s ns = s + ns := add32_eq (by unfold WORD; omega)
  have e3 : PACK (s + ns) 0 = s + ns := PACK_eq (by omega) (by omega)
  have f1 : FTRP (PUT h (bp - 4) (s + ns)) bp = bp + s + ns - 8 := by
    rw [FTRP_eq0 bp (s + ns) (PUT_mem_eq _ _ _) (by omega) (by omega) (by omega) (by omega)]
    omega
  unfold coalesce
  simp [p1, p2, p3, n1, n2, n3, n4, e0, e1, e2, e3, f1]

/-- `coalesce`, case 3: only the previous block is free. -/
theorem coalesce_case3 {h : Heap} {bp s ps ns : Nat}
    (hs : s % 8 = 0) (hps : ps % 8 = 0) (hns : ns % 8 = 0) (hps8 : 8 ≤ ps) (hs8 : 8 ≤ s)
    (hlo : ps + 8 ≤ bp) (hhi : bp + s + ns < 4294967296)
    (Hpf : h.mem (bp - 8) = ps) (Hph : h.mem (bp - ps - 4) = ps)
    (Hh : h.mem (bp - 4) = s) (Hnh : h.mem (bp + s - 4) = ns + 1) :
    coalesce h bp =
      ({ PUT (PUT h (bp + s - 8) (s + ps)) (bp - ps - 4) (s + ps) with
          last_malloc_call := bp - ps }, bp - ps) := by
  have p1 : PREV_BLKP h bp = bp - ps :=
    PREV_BLKP_eq bp ps 0 Hpf hps (by omega) (by omega) (by omega) (by omega)
  have p2 : FTRP h (bp - ps) = bp - 8 := by
    rw [FTRP_eq0 (bp - ps) ps Hph hps (by omega) (by omega) (by omega)]; omega
  have p3 : GET_ALLOC h (bp - 8) = 0 := GET_ALLOC_eq0 _ ps Hpf hps
  have p4 : HDRP (bp - ps) = bp - ps - 4 := HDRP_eq (by omega) (by omega)
  have p5 : GET_SIZE h (bp - ps - 4) = ps := GET_SIZE_eq0 _ ps Hph hps (by omega)
  have n1 : NEXT_BLKP h bp = bp + s := NEXT_BLKP_eq0 bp s Hh hs (by omega) (by omega)
  have n2 : HDRP (bp + s) = bp + s - 4 := HDRP_eq (by omega) (by omega)
  have n3 : GET_ALLOC h (bp + s - 4) = 1 := GET_ALLOC_eq _ ns 1 Hnh hns (by omega)
  have e0 : HDRP bp = bp - 4 := HDRP_eq (by omega) (by omega)
  have e1 : GET_SIZE h (bp - 4) = s := GET_SIZE_eq0 _ s Hh hs (by omega)
  have e2 : add32 s ps = s + ps := add32_eq (by unfold WORD; omega)
  have e3 : PACK (s + ps) 0 = s + ps := PACK_eq (by omega) (by omega)
  have f1 : FTRP h bp = bp + s - 8 := FTRP_eq0 bp s Hh hs (by omega) (by omega) (by omega)
  have q1 : PREV_BLKP (PUT h (bp + s - 8) (s + ps)) bp = bp - ps :=
    PREV_BLKP_eq bp ps 0 (by rw [PUT_mem_ne _ _ (by omega)]; exact Hpf) hps (by omega)
      (by omega) (by omega) (by omega)
  have q2 : PREV_BLKP (PUT (PUT h (bp + s - 8) (s + ps)) (bp - ps - 4) (s + ps)) bp = bp - ps :=
    PREV_BLKP_eq bp ps 0
      (by rw [PUT_mem_ne _ _ (by omega), PUT_mem_ne _ _ (by omega)]; exact Hpf) hps (by omega)
      (by omega) (by omega) (by omega)
  unfold coalesce
  simp [p1, p2, p3, p4, p5, n1, n2, n3, e0, e1, e2, e3, f1, q1, q2]

/-- `coalesce`, case 4: both neighbours are free. -/
theorem coalesce_case4 {h : Heap} {bp s ps ns : Nat}
    (hs : s % 8 = 0) (hps : ps % 8 = 0) (hns : ns % 8 = 0) (hps8 : 8 ≤ ps) (hs8 : 8 ≤ s)
    (hns8 : 8 ≤ ns) (hlo : ps + 8 ≤ bp) (hhi : bp + s + ns < 4294967296)
    (Hpf : h.mem (bp - 8) = ps) (Hph : h.mem (bp - ps - 4) = ps)
    (Hh : h.mem (bp - 4) = s) (Hnh : h.mem (bp + s - 4) = ns)
    (Hnf : h.mem (bp + s + ns - 8) = ns) :
    coalesce h bp =
      ({ PUT (PUT h (bp - ps - 4) (s + (ps + ns))) (bp + s + ns - 8) (s + (ps + ns)) with
          last_malloc_call := bp - ps }, bp - ps) := by
  have p1 : PREV_BLKP h bp = bp - ps :=
    PREV_BLKP_eq bp ps 0 Hpf hps (by omega) (by omega) (by omega) (by omega)
  have p2 : FTRP h (bp - ps) = bp - 8 := by
    rw [FTRP_eq0 (bp - ps) ps Hph hps (by omega) (by omega) (by omega)]; omega
  have p3 : GET_ALLOC h (bp - 8) = 0 := GET_ALLOC_eq0 _ ps Hpf hps
  have p4 : HDRP (bp - ps) = bp - ps - 4 := HDRP_eq (by omega) (by omega)
  have p5 : GET_SIZE h (bp - ps - 4) = ps := GET_SIZE_eq0 _ ps Hph hps (by omega)
  have n1 : NEXT_BLKP h bp = bp + s := NEXT_BLKP_eq0 bp s Hh hs (by omega) (by omega)
  have n2 : HDRP (bp + s) = bp + s - 4 := HDRP_eq (by omega) (by omega)
  have n3 : GET_ALLOC h (bp + s - 4) = 0 := GET_ALLOC_eq0 _ ns Hnh hns
  have n5 : FTRP h (bp + s) = bp + s + ns - 8 :=
    FTRP_eq0 (bp + s) ns Hnh hns (by omega) (by omega) (by omega)
  have n6 : GET_SIZE h (bp + s + ns - 8) = ns := GET_SIZE_eq0 _ ns Hnf hns (by omega)
  have e0 : HDRP bp = bp - 4 := HDRP_eq (by omega) (by omega)
  have e1 : GET_SIZE h (bp - 4) = s := GET_SIZE_eq0 _ s Hh hs (by omega)
  have e2 : add32 ps ns = ps + ns := add32_eq (by unfold WORD; omega)
  have e2' : add32 s (ps + ns) = s + (ps + ns) := add32_eq (by unfold WORD; omega)
  have e3 : PACK (s + (ps + ns)) 0 = s + (ps + ns) := PACK_eq (by omega) (by omega)
  have q0 : NEXT_BLKP (PUT h (bp - ps - 4) (s + (ps + ns))) bp = bp + s :=
    NEXT_BLKP_eq0 bp s (by rw [PUT_mem_ne _ _ (by omega)]; exact Hh) hs (by omega) (by omega)
  have q1 : FTRP (PUT h (bp - ps - 4) (s + (ps + ns))) (bp + s) = bp + s + ns - 8 :=
    FTRP_eq0 (bp + s) ns (by rw [PUT_mem_ne _ _ (by omega)]; exact Hnh) hns (by omega)
      (by omega) (by omega)
  have q2 : PREV_BLKP (PUT (PUT h (bp - ps - 4) (s + (ps + ns))) (bp + s + ns - 8)
      (s + (ps + ns))) bp = bp - ps :=
    PREV_BLKP_eq bp ps 0
      (by rw [PUT_mem_ne _ _ (by omega), PUT_mem_ne _ _ (by omega)]; exact Hpf) hps (by omega)
      (by omega) (by omega) (by omega)
  unfold coalesce
  simp [p1, p2, p3, p4, p5, n1, n2, n3, n5, n6, e0, e1, e2, e2', e3, q0, q1, q2]

/-- `mm_free` marks the block free and coalesces. -/
theorem mm_free_eq {h : Heap} {p s : Nat} {r : Heap × Nat} (hs : s % 8 = 0) (_ : 8 ≤ s)
    (hp : 8 ≤ p) (hhi : p + s < 4294967296) (Hh : h.mem (p - 4) = s + 1)
    (hr : coalesce (PUT (PUT h (p - 4) s) (p + s - 8) s) p = r) :
    mm_free h p = r.1 := by
  have e0 : HDRP p = p - 4 := HDRP_eq (by omega) (by omega)
  have e1 : GET_SIZE h (p - 4) = s := GET_SIZE_eq _ s 1 Hh hs (by omega) (by omega)
  have e2 : PACK s 0 = s := PACK_eq hs (by omega)
  have f1 : FTRP (PUT h (p - 4) s) p = p + s - 8 :=
    FTRP_eq0 p s (PUT_mem_eq _ _ _) hs (by omega) (by omega) (by omega)
  unfold mm_free
  simp only [e0, e1, e2, f1, hr]
  rfl

theorem extend_heap_fail {h : Heap} {words : Nat}
    (hf : h.mem_max_addr < h.mem_brk + extend_size words) :
    extend_heap h words = (h, 0) := by
  unfold extend_heap mem_sbrk
  have hsz : (if words % 2 ≠ 0 then mul32 (add32 words 1) WSIZE else mul32 words WSIZE)
      = extend_size words := rfl
  have : ¬ (h.mem_brk + extend_size words ≤ h.mem_max_addr) := by omega
  simp only [hsz, this, if_false, if_true]

theorem extend_size_mod (words : Nat) : extend_size words % 8 = 0 := by
  unfold extend_size mul32 add32 WSIZE WORD
  split_ifs <;> omega

theorem extend_heap_ok {h : Heap} {words : Nat}
    (hok : h.mem_brk + extend_size words ≤ h.mem_max_addr) (hmax : h.mem_max_addr < 4294967296)
    (h8 : 8 ≤ extend_size words) (hb : 8 ≤ h.mem_brk) (hb8 : h.mem_brk % 8 = 0) :
    extend_heap h words =
      coalesce (PUT (PUT (PUT { h with mem_brk := h.mem_brk + extend_size words }
        (h.mem_brk - 4) (extend_size words))
        (h.mem_brk + extend_size words - 8) (extend_size words))
        (h.mem_brk + extend_size words - 4) 1) h.mem_brk := by
  have hm8 : extend_size words % 8 = 0 := extend_size_mod words
  have hne : h.mem_brk ≠ WORD - 1 := by unfold WORD; omega
  have e0 : HDRP h.mem_brk = h.mem_brk - 4 := HDRP_eq (by omega) (by omega)
  have e2 : PACK (extend_size words) 0 = extend_size words := PACK_eq hm8 (by omega)
  have e3 : PACK 0 1 = 1 := by decide
  have f1 : FTRP (PUT { h with mem_brk := h.mem_brk + extend_size words }
      (h.mem_brk - 4) (extend_size words)) h.mem_brk = h.mem_brk + extend_size words - 8 :=
    FTRP_eq0 h.mem_brk (extend_size words) (PUT_mem_eq _ _ _) hm8 (by omega) (by omega) (by omega)
  have n1 : NEXT_BLKP (PUT (PUT { h with mem_brk := h.mem_brk + extend_size words }
      (h.mem_brk - 4) (extend_size words))
      (h.mem_brk + extend_size words - 8) (extend_size words)) h.mem_brk
      = h.mem_brk + extend_size words :=
    NEXT_BLKP_eq0 h.mem_brk (extend_size words)
      (by rw [PUT_mem_ne _ _ (by omega), PUT_mem_eq]) hm8 (by omega) (by omega)
  have e4 : HDRP (h.mem_brk + extend_size words) = h.mem_brk + extend_size words - 4 :=
    HDRP_eq (by omega) (by omega)
  unfold extend_heap mem_sbrk
  have hsz : (if words % 2 ≠ 0 then mul32 (add32 words 1) WSIZE else mul32 words WSIZE)
      = extend_size words := rfl
  simp only [hsz, hok, if_true, hne, if_false, e0, e2, e3, f1, n1, e4]

theorem Blk.bit_eq_zero (b : Blk) : b.bit = 0 ↔ b.alloc = false := by
  unfold Blk.bit; cases b.alloc <;> simp

theorem next_fit_loop_spec (h : Heap) (asize : Nat) :
    ∀ (bs : List Blk) (a fuel : Nat), Hdrs h.mem a bs →
      (∀ b ∈ bs, 8 ≤ b.size ∧ b.size % 8 = 0) → h.mem (a + total bs - 4) = 1 → 8 ≤ a →
      a + total bs < 4294967296 → bs.length < fuel →
      next_fit_loop h asize fuel a = some (match firstFit asize a bs with
        | some p => ({ h with last_malloc_call := p }, p)
        | none => ({ h with last_malloc_call := h.heap_listp }, 0)) := by
  intro bs
  induction bs with
  | nil =>
    intro a fuel _ _ hepi ha hlt hfuel
    obtain ⟨f, rfl⟩ : ∃ f, fuel = f + 1 := ⟨fuel - 1, by simp at hfuel; omega⟩
    simp only [total_nil, Nat.add_zero] at hepi
    have e0 : HDRP a = a - 4 := HDRP_eq (by omega) (by simpa using hlt)
    have e1 : GET_SIZE h (a - 4) = 0 := GET_SIZE_eq (a - 4) 0 1 (by simpa using hepi) rfl
      (by omega) (by omega)
    simp [next_fit_loop, firstFit, e0, e1]
  | cons b bs ih =>
    intro a fuel hH hpos hepi ha hlt hfuel
    obtain ⟨f, rfl⟩ : ∃ f, fuel = f + 1 := ⟨fuel - 1, by simp at hfuel; omega⟩
    have hb := hpos b (List.mem_cons_self _ _)
    simp only [Hdrs, total_cons, List.length_cons] at hH hepi hlt hfuel
    have hm : h.mem (a - 4) = b.size + b.bit := by rw [hH.1, b.tag_eq hb.2]
    have e0 : HDRP a = a - 4 := HDRP_eq (by omega) (by omega)
    have e1 : GET_SIZE h (a - 4) = b.size :=
      GET_SIZE_eq (a - 4) b.size b.bit hm hb.2 b.bit_le (by have := b.bit_le; omega)
    have e2 : GET_ALLOC h (a - 4) = b.bit := GET_ALLOC_eq (a - 4) b.size b.bit hm hb.2 b.bit_le
    have e3 : NEXT_BLKP h a = a + b.size :=
      NEXT_BLKP_eq a b.size b.bit hm hb.2 b.bit_le (by omega) (by omega)
    have hpos' : b.size > 0 := by omega
    rw [next_fit_loop]
    simp only [e0, e1, e2, e3, hpos', if_true, b.bit_eq_zero, firstFit]
    by_cases hc : b.alloc = false ∧ asize ≤ b.size
    · simp only [hc, and_self, if_true]
    · simp only [hc, if_false]
      exact ih (a + b.size) f hH.2 (fun c hc => hpos c (List.mem_cons_of_mem _ hc))
        (by rw [show a + b.size + total bs - 4 = a + (b.size + total bs) - 4 by omega]; exact hepi)
        (by omega) (by omega) (by omega)

/-! ## Splicing blocks into a chain -/

theorem Ftrs_splice {m m' : Nat → Nat} {a : Nat} {pre mid mid' post : List Blk}
    (hal : a % 8 = 0)
    (hpre : ∀ b ∈ pre, 8 ≤ b.size ∧ b.size % 8 = 0)
    (hpost : ∀ b ∈ post, 8 ≤ b.size ∧ b.size % 8 = 0)
    (htot : total mid' = total mid) (hm8 : total mid % 8 = 0)
    (hfr : ∀ x, x % 8 = 0 → (x + 8 ≤ a + total pre ∨ a + total pre + total mid ≤ x) →
      m' x = m x)
    (H : Ftrs m a (pre ++ mid ++ post)) (Hmid : Ftrs m' (a + total pre) mid') :
    Ftrs m' a (pre ++ mid' ++ post) := by
  rw [Ftrs_append, Ftrs_append] at *
  have hp8 := total_mod hpre
  refine ⟨⟨Ftrs_frame hal hpre (fun x h1 _ h3 => hfr x h1 (Or.inl h3)) H.1.1, Hmid⟩, ?_⟩
  simp only [total_append] at *
  rw [htot]
  exact Ftrs_frame (by omega) hpost (fun x h1 h2 _ => hfr x h1 (Or.inr (by omega))) H.2

theorem mem_starts_self (a : Nat) (bs : List Blk) : a ∈ starts a bs := by
  cases bs <;> simp [starts]

theorem mem_starts_append (c a : Nat) (xs ys : List Blk) :
    c ∈ starts a (xs ++ ys) ↔ c ∈ starts a xs ∨ c ∈ starts (a + total xs) ys := by
  induction xs generalizing a with
  | nil =>
    simp only [List.nil_append, starts, total_nil, Nat.add_zero, List.mem_singleton]
    constructor
    · exact fun h => Or.inr h
    · rintro (h | h)
      · rw [h]; exact mem_starts_self _ _
      · exact h
  | cons b bs ih =>
    have := ih (a + b.size)
    show c ∈ starts a (b :: (bs ++ ys)) ↔ _
    simp only [starts, List.mem_cons, total_cons, this, Nat.add_assoc, or_assoc]

theorem mem_starts_end (a : Nat) (bs : List Blk) : a + total bs ∈ starts a bs := by
  induction bs generalizing a with
  | nil => simp [starts]
  | cons b bs ih =>
    simp only [starts, total_cons, List.mem_cons]
    right; rw [← Nat.add_assoc]; exact ih _

theorem mem_starts_mid (a : Nat) (xs ys : List Blk) : a + total xs ∈ starts a (xs ++ ys) := by
  rw [mem_starts_append]; exact Or.inl (mem_starts_end _ _)

/-- Positions stay on the chain when the blocks `mid` are replaced by blocks `mid'` of
the same extent that keep the positions of `mid`. -/
theorem starts_splice {c a : Nat} {pre mid mid' post : List Blk}
    (htot : total mid' = total mid)
    (hsub : ∀ x, x ∈ starts (a + total pre) mid → x ∈ starts (a + total pre) mid')
    (h : c ∈ starts a (pre ++ mid ++ post)) : c ∈ starts a (pre ++ mid' ++ post) := by
  simp only [mem_starts_append, total_append] at *
  rw [htot]
  rcases h with (h | h) | h
  · exact Or.inl (Or.inl h)
  · exact Or.inl (Or.inr (hsub _ h))
  · exact Or.inr h

theorem head_append_of_ne {pre : List Blk} (hne : pre ≠ []) (ys : List Blk) :
    (pre ++ ys).head? = pre.head? := by
  cases pre with
  | nil => exact absurd rfl hne
  | cons a l => rfl

theorem tail_append_of_ne {pre : List Blk} (hne : pre ≠ []) (ys : List Blk) :
    (pre ++ ys).tail = pre.tail ++ ys := by
  cases pre with
  | nil => exact absurd rfl hne
  | cons a l => rfl

theorem total_mid_mod {pre mid post : List Blk}
    (h : ∀ b ∈ pre ++ mid ++ post, 8 ≤ b.size ∧ b.size % 8 = 0) : total mid % 8 = 0 :=
  total_mod (fun b hb => h b (by simp [hb]))

/-- The header chain after a local change of the heap. -/
theorem Chain_splice {h h' : Heap} {pre mid mid' post : List Blk}
    (hc : Chain h (pre ++ mid ++ post)) (hne : pre ≠ [])
    (e1 : h'.mem_start_brk = h.mem_start_brk) (e2 : h'.mem_brk = h.mem_brk)
    (e3 : h'.mem_max_addr = h.mem_max_addr) (e4 : h'.heap_listp = h.heap_listp)
    (htot : total mid' = total mid)
    (hsz : ∀ b ∈ mid', 8 ≤ b.size ∧ b.size % 8 = 0)
    (hfrH : ∀ x, x % 8 = 4 → (x + 4 < h.heap_listp + total pre ∨
      h.heap_listp + total pre + total mid ≤ x + 4) → h'.mem x = h.mem x)
    (hH : Hdrs h'.mem (h.heap_listp + total pre) mid')
    (hcur : h'.last_malloc_call ∈ starts h.heap_listp (pre ++ mid' ++ post)) :
    Chain h' (pre ++ mid' ++ post) := by
  have hlp := hc.listp
  have hlo := hc.lo_pos
  have hal := hc.lo_al
  have hpos := hc.pos
  have hpre : ∀ b ∈ pre, 8 ≤ b.size ∧ b.size % 8 = 0 := fun b hb => hpos b (by simp [hb])
  have hpost : ∀ b ∈ post, 8 ≤ b.size ∧ b.size % 8 = 0 := fun b hb => hpos b (by simp [hb])
  have hfin := hc.fin
  simp only [total_append] at hfin
  have t1 := total_mod hpre
  have t2 := total_mod hpost
  have t3 : total mid % 8 = 0 := total_mid_mod hpos
  refine ⟨by rw [e1]; exact hlo, by rw [e1]; exact hal, by rw [e4, e1]; exact hlp,
    by rw [e3]; exact hc.max_lt, by rw [e2, e3]; exact hc.brk_le, ?_, ?_, ?_, ?_, ?_, ?_⟩
  · rw [List.append_assoc, head_append_of_ne hne, ← head_append_of_ne hne (mid ++ post),
      ← List.append_assoc]
    exact hc.pro
  · intro b hb
    simp only [List.mem_append] at hb
    rcases hb with (hb | hb) | hb
    · exact hpre b hb
    · exact hsz b hb
    · exact hpost b hb
  · rw [e4]
    exact Hdrs_splice (by omega) (by omega) hpre hpost htot (total_mid_mod hpos) hfrH hc.hdrs hH
  · rw [e2, hfrH _ (by omega) (Or.inr (by omega))]; exact hc.epi
  · rw [e4, e2]; simp only [total_append]; omega
  · rw [e4]; exact hcur

theorem WF.toTiled {h : Heap} {bs : List Blk} (w : WF h bs) : Tiled h bs :=
  ⟨w.lo_pos, w.lo_al, w.listp, w.max_lt, w.brk_le, w.pro, w.pos, w.sizes, w.hdrs, w.ftrs, w.epi,
    w.fin, w.cur⟩

theorem Tiled.toWF {h : Heap} {bs : List Blk} (w : Tiled h bs) (c : NoAdjFree bs) : WF h bs :=
  ⟨w.lo_pos, w.lo_al, w.listp, w.max_lt, w.brk_le, w.pro, w.pos, w.sizes, w.hdrs, w.ftrs, w.epi,
    w.fin, c, w.cur⟩

theorem Tiled.headerChain {h : Heap} {bs : List Blk} (w : Tiled h bs) : Chain h bs :=
  ⟨w.lo_pos, w.lo_al, w.listp, w.max_lt, w.brk_le, w.pro, w.pos, w.hdrs, w.epi, w.fin, w.cur⟩

/-- Tiling after a local change of the heap. -/
theorem Tiled_splice {h h' : Heap} {pre mid mid' post : List Blk}
    (hw : Tiled h (pre ++ mid ++ post)) (hne : pre ≠ [])
    (e1 : h'.mem_start_brk = h.mem_start_brk) (e2 : h'.mem_brk = h.mem_brk)
    (e3 : h'.mem_max_addr = h.mem_max_addr) (e4 : h'.heap_listp = h.heap_listp)
    (htot : total mid' = total mid)
    (hsz : ∀ b ∈ mid', 16 ≤ b.size ∧ b.size % 8 = 0)
    (hfrH : ∀ x, x % 8 = 4 → (x + 4 < h.heap_listp + total pre ∨
      h.heap_listp + total pre + total mid ≤ x + 4) → h'.mem x = h.mem x)
    (hfrF : ∀ x, x % 8 = 0 → (x + 8 ≤ h.heap_listp + total pre ∨
      h.heap_listp + total pre + total mid ≤ x) → h'.mem x = h.mem x)
    (hH : Hdrs h'.mem (h.heap_listp + total pre) mid')
    (hF : Ftrs h'.mem (h.heap_listp + total pre) mid')
    (hcur : h'.last_malloc_call ∈ starts h.heap_listp (pre ++ mid' ++ post)) :
    Tiled h' (pre ++ mid' ++ post) := by
  have hc := Chain_splice hw.headerChain hne e1 e2 e3 e4 htot
    (fun b hb => ⟨by have := (hsz b hb).1; omega, (hsz b hb).2⟩) hfrH hH hcur
  have hpos := hw.pos
  have hpre : ∀ b ∈ pre, 8 ≤ b.size ∧ b.size % 8 = 0 := fun b hb => hpos b (by simp [hb])
  have hpost : ∀ b ∈ post, 8 ≤ b.size ∧ b.size % 8 = 0 := fun b hb => hpos b (by simp [hb])
  have hlp := hw.listp
  have hlo := hw.lo_pos
  have hal := hw.lo_al
  refine ⟨hc.lo_pos, hc.lo_al, hc.listp, hc.max_lt, hc.brk_le, hc.pro, hc.pos, ?_, hc.hdrs, ?_,
    hc.epi, hc.fin, hc.cur⟩
  · intro b hb
    rw [List.append_assoc, tail_append_of_ne hne] at hb
    have hs := hw.sizes
    rw [List.append_assoc, tail_append_of_ne hne] at hs
    simp only [List.mem_append] at hb hs
    rcases hb with hb | hb | hb
    · exact hs b (Or.inl hb)
    · exact (hsz b hb).1
    · exact hs b (Or.inr (Or.inr hb))
  · rw [e4]
    exact Ftrs_splice (by omega) hpre hpost htot (total_mid_mod hpos) hfrF hw.ftrs hF

theorem Hdrs_at {m : Nat → Nat} {a : Nat} {xs : List Blk} {b : Blk} {ys : List Blk}
    (H : Hdrs m a (xs ++ b :: ys)) : m (a + total xs - 4) = b.tag := by
  rw [Hdrs_append] at H; exact H.2.1

theorem Ftrs_at {m : Nat → Nat} {a : Nat} {xs : List Blk} {b : Blk} {ys : List Blk}
    (H : Ftrs m a (xs ++ b :: ys)) : m (a + total xs + b.size - 8) = b.tag := by
  rw [Ftrs_append] at H; exact H.2.1

theorem TagWrites.refl (h : Heap) : TagWrites h h := ⟨[], rfl, by simp⟩

theorem TagWrites.trans {h1 h2 h3 : Heap} (a : TagWrites h1 h2) (b : TagWrites h2 h3) :
    TagWrites h1 h3 := by
  obtain ⟨w1, e1, p1⟩ := a
  obtain ⟨w2, e2, p2⟩ := b
  refine ⟨w2 ++ w1, by rw [e2, e1, List.append_assoc], ?_⟩
  intro e he
  rcases List.mem_append.1 he with he | he
  · exact p2 e he
  · exact p1 e he

theorem TagWrites.put {h1 h2 : Heap} (a : TagWrites h1 h2) (p v : Nat) (hv : v % 8 ≤ 1) :
    TagWrites h1 (PUT h2 p v) := by
  obtain ⟨w1, e1, p1⟩ := a
  refine ⟨(p, v) :: w1, by simp [e1], ?_⟩
  intro e he
  rcases List.mem_cons.1 he with he | he
  · rw [he]; exact hv
  · exact p1 e he

theorem TagWrites.of_eq {h1 h2 h3 : Heap} (a : TagWrites h1 h2) (e : h3.writes = h2.writes) :
    TagWrites h1 h3 := by
  obtain ⟨w1, e1, p1⟩ := a
  exact ⟨w1, by rw [e, e1], p1⟩

/-! ## Coalescing keeps the heap well formed -/

theorem mem_congr {m : Nat → Nat} {x y v : Nat} (h : m x = v) (e : y = x) : m y = v := by
  rw [e]; exact h

theorem mergePrev_concat (pre : List Blk) (pb : Blk) :
    mergePrev (pre ++ [pb]) = if pb.alloc then (pre ++ [pb], 0) else (pre, pb.size) := by
  simp [mergePrev]

theorem tag_free (s : Nat) (hs : s % 8 = 0) : (Blk.mk s false).tag = s := by
  rw [Blk.tag_eq _ hs]; rfl

theorem tag_alloc (s : Nat) (hs : s % 8 = 0) : (Blk.mk s true).tag = s + 1 := by
  rw [Blk.tag_eq _ hs]; rfl

theorem bit_alloc {b : Blk} (h : b.alloc = true) : b.bit = 1 := by simp [Blk.bit, h]
theorem bit_free {b : Blk} (h : b.alloc = false) : b.bit = 0 := by simp [Blk.bit, h]

/-- The facts about the cells around a free block of a tiled heap that `coalesce` reads. -/
theorem Tiled.around {h : Heap} {pre : List Blk} {pb : Blk} {s : Nat} {post : List Blk}
    (ht : Tiled h (pre ++ [pb] ++ ⟨s, false⟩ :: post)) :
    h.mem (h.heap_listp + total pre + pb.size - 4) = s ∧
    h.mem (h.heap_listp + total pre + pb.size - 8) = pb.size + pb.bit ∧
    h.mem (h.heap_listp + total pre - 4) = pb.size + pb.bit ∧
    h.heap_listp % 8 = 0 ∧ 16 ≤ h.heap_listp ∧ total pre % 8 = 0 ∧ 8 ≤ pb.size ∧
    pb.size % 8 = 0 ∧ 8 ≤ s ∧ s % 8 = 0 ∧ total post % 8 = 0 ∧
    h.heap_listp + total pre + pb.size + s + total post = h.mem_brk ∧
    h.mem_brk < 4294967296 := by
  have hpos := ht.pos
  have hpb := hpos pb (by simp)
  have hs := hpos ⟨s, false⟩ (by simp)
  have hpre : ∀ b ∈ pre, 8 ≤ b.size ∧ b.size % 8 = 0 := fun b hb => hpos b (by simp [hb])
  have hpost : ∀ b ∈ post, 8 ≤ b.size ∧ b.size % 8 = 0 := fun b hb => hpos b (by simp [hb])
  have hH := ht.hdrs
  have hF := ht.ftrs
  have h1 := Hdrs_at hH
  have e : pre ++ [pb] ++ ⟨s, false⟩ :: post = pre ++ pb :: ⟨s, false⟩ :: post := by simp
  rw [e] at hH hF
  have h2 := Ftrs_at hF
  have h3 := Hdrs_at hH
  have hfin := ht.fin
  have hmax := ht.max_lt
  have hbrk := ht.brk_le
  have hlp := ht.listp
  have hlo := ht.lo_pos
  have hal := ht.lo_al
  simp only [total_append, total_cons, total_nil] at h1 hfin
  rw [tag_free s hs.2] at h1
  rw [pb.tag_eq hpb.2] at h2 h3
  refine ⟨mem_congr h1 (by omega), h2, h3, by omega, by omega, total_mod hpre, hpb.1,
    hpb.2, hs.1, hs.2, total_mod hpost, by omega, by unfold WORD at hmax; omega⟩

/-- The header of the block after a free block of a tiled heap (the epilogue header when
there is none): either it is marked allocated, or the next block is free. -/
theorem Tiled.next {h : Heap} {pre : List Blk} {s : Nat} {post : List Blk}
    (ht : Tiled h (pre ++ ⟨s, false⟩ :: post)) :
    (∃ ns, ns % 8 = 0 ∧ ns ≤ total post ∧ h.mem (h.heap_listp + total pre + s - 4) = ns + 1 ∧
      mergeNext post = (post, 0) ∧ ∀ y ∈ post.head?, y.alloc = true) ∨
    (∃ nb rest, post = nb :: rest ∧ nb.alloc = false ∧ 16 ≤ nb.size ∧ nb.size % 8 = 0 ∧
      h.mem (h.heap_listp + total pre + s - 4) = nb.size ∧
      h.mem (h.heap_listp + total pre + s + nb.size - 8) = nb.size) := by
  cases post with
  | nil =>
    left
    refine ⟨0, rfl, Nat.le_refl _, ?_, rfl, by simp⟩
    have hfin := ht.fin
    have hepi := ht.epi
    simp only [total_append, total_cons, total_nil] at hfin
    rw [← hfin] at hepi
    exact mem_congr hepi (by omega)
  | cons nb rest =>
    have hnb := ht.pos nb (by simp)
    have hH := ht.hdrs
    have hF := ht.ftrs
    have e : pre ++ ⟨s, false⟩ :: nb :: rest = (pre ++ [⟨s, false⟩]) ++ nb :: rest := by simp
    rw [e] at hH hF
    have h1 := Hdrs_at hH
    have h2 := Ftrs_at hF
    simp only [total_append, total_cons, total_nil] at h1 h2
    rw [nb.tag_eq hnb.2] at h1 h2
    have h16 : 16 ≤ nb.size := by
      apply ht.sizes
      cases pre <;> simp
    cases hna : nb.alloc with
    | true =>
      left
      rw [bit_alloc hna] at h1
      exact ⟨nb.size, hnb.2, by simp, mem_congr h1 (by omega), by simp [mergeNext, hna],
        by simp [hna]⟩
    | false =>
      right
      rw [bit_free hna] at h1 h2
      exact ⟨nb, rest, rfl, hna, h16, hnb.2, mem_congr h1 (by omega), mem_congr h2 (by omega)⟩

theorem PUT_mem_eq' (h : Heap) {p x : Nat} (v : Nat) (e : x = p) : (PUT h p v).mem x = v := by
  rw [e]; exact PUT_mem_eq h p v

theorem mem_starts_at {c a : Nat} (xs ys : List Blk) (e : c = a + total xs) :
    c ∈ starts a (xs ++ ys) := by
  rw [e]; exact mem_starts_mid a xs ys

theorem NoAdjFree_snoc_cons {xs : List Blk} {x y : Blk} {ys : List Blk} :
    NoAdjFree (xs ++ [x] ++ y :: ys) ↔
      NoAdjFree (xs ++ [x]) ∧ (x.alloc = true ∨ y.alloc = true) ∧ NoAdjFree (y :: ys) := by
  unfold NoAdjFree
  rw [List.chain'_append]
  simp
  intro _
  exact and_comm

theorem NoAdjFree_append {xs ys : List Blk} :
    NoAdjFree (xs ++ ys) ↔ NoAdjFree xs ∧ NoAdjFree ys ∧
      ∀ x ∈ xs.getLast?, ∀ y ∈ ys.head?, x.alloc = true ∨ y.alloc = true := by
  unfold NoAdjFree
  exact List.chain'_append

theorem NoAdjFree_cons_cons {x y : Blk} {ys : List Blk} :
    NoAdjFree (x :: y :: ys) ↔ (x.alloc = true ∨ y.alloc = true) ∧ NoAdjFree (y :: ys) := by
  unfold NoAdjFree
  exact List.chain'_cons

theorem NoAdjFree_single (x : Blk) : NoAdjFree [x] := by
  unfold NoAdjFree; exact List.chain'_singleton x

theorem NoAdjFree_tail {x : Blk} {ys : List Blk} (h : NoAdjFree (x :: ys)) : NoAdjFree ys := by
  unfold NoAdjFree at *; exact List.Chain'.tail h

theorem NoAdjFree_init {xs : List Blk} {x : Blk} (h : NoAdjFree (xs ++ [x])) : NoAdjFree xs := by
  unfold NoAdjFree at *; exact List.Chain'.left_of_append h

/-- Appending a block to a coalesced list. -/
theorem NoAdjFree_snoc {xs : List Blk} {x : Blk} (h : NoAdjFree xs)
    (hl : ∀ y ∈ xs.getLast?, y.alloc = true ∨ x.alloc = true) : NoAdjFree (xs ++ [x]) := by
  unfold NoAdjFree at *
  rw [List.chain'_append]
  exact ⟨h, List.chain'_singleton x, fun a ha b hb => by
    simp at hb; subst hb; exact hl a ha⟩

theorem NoAdjFree_cons {x : Blk} {ys : List Blk} (h : NoAdjFree ys)
    (hl : ∀ y ∈ ys.head?, x.alloc = true ∨ y.alloc = true) : NoAdjFree (x :: ys) := by
  unfold NoAdjFree at *
  rw [List.chain'_cons']
  exact ⟨hl, h⟩

theorem NoAdjFree_head_alloc {nb : Blk} {rest : List Blk} (c : NoAdjFree (nb :: rest))
    (hf : nb.alloc = false) : ∀ y ∈ rest.head?, y.alloc = true := by
  unfold NoAdjFree at c
  rw [List.chain'_cons'] at c
  intro y hy
  rcases c.1 y hy with h | h
  · rw [hf] at h; exact absurd h (by simp)
  · exact h

theorem NoAdjFree_last_alloc {pb : Blk} {pre : List Blk} (c : NoAdjFree (pre ++ [pb]))
    (hf : pb.alloc = false) : ∀ y ∈ pre.getLast?, y.alloc = true := by
  rw [NoAdjFree_append] at c
  intro y hy
  rcases c.2.2 y hy pb (by simp) with h | h
  · exact h
  · rw [hf] at h; exact absurd h (by simp)

/-- `coalesce` on a free block of a tiled heap whose other blocks are coalesced: the
result is well formed, its chain is `coalesced pre s post`, and the returned pointer
and the cursor are the start of the merged block. -/
theorem coalesce_WF {h : Heap} {pre : List Blk} {s : Nat} {post : List Blk}
    (ht : Tiled h (pre ++ ⟨s, false⟩ :: post)) (hne : pre ≠ []) (hs16 : 16 ≤ s)
    (c1 : NoAdjFree pre) (c2 : NoAdjFree post) :
    ∃ h', coalesce h (h.heap_listp + total pre) = (h', h.heap_listp + total (mergePrev pre).1) ∧
      WF h' (coalesced pre s post) ∧
      h'.last_malloc_call = h.heap_listp + total (mergePrev pre).1 ∧
      SameBounds h h' ∧ TagWrites h h' := by
  obtain ⟨pre', pb, rfl⟩ : ∃ pre' pb, pre = pre' ++ [pb] := by
    rcases List.eq_nil_or_concat' pre with h0 | h0
    · exact absurd h0 hne
    · exact h0
  obtain ⟨Hh, Hpf, Hph, a8, a16, tp8, pb8, pbm, s8, sm, tq8, hfin, hlt⟩ := ht.around
  have hnext := ht.next
  obtain ⟨p, hp⟩ : ∃ p, p = h.heap_listp + total pre' + pb.size := ⟨_, rfl⟩
  have ep : h.heap_listp + total (pre' ++ [pb]) = p := by
    simp only [total_append, total_cons, total_nil]; omega
  rw [ep] at hnext ⊢
  rw [← hp] at Hh Hpf hfin
  have Hph' : h.mem (p - pb.size - 4) = pb.size + pb.bit := mem_congr Hph (by omega)
  have hpro := ht.pro
  have hpos := ht.pos
  cases hpa : pb.alloc with
  | true =>
    rw [bit_alloc hpa] at Hpf Hph'
    have em : mergePrev (pre' ++ [pb]) = (pre' ++ [pb], 0) := by
      rw [mergePrev_concat]; simp [hpa]
    rw [em]; simp only []
    rw [ep]
    rcases hnext with ⟨ns, nsm, nsle, Hnh, emn, hhd⟩ | ⟨nb, rest, rfl, hna, nb16, nbm, Hnh, Hnf⟩
    · -- case 1
      have hex := @coalesce_case1 h p s pb.size ns sm pbm nsm
        pb8 (by omega) (by omega) Hpf Hph' Hh Hnh
      refine ⟨_, hex, ?_, rfl, ⟨rfl, rfl, rfl, rfl⟩, TagWrites.refl h⟩
      have el : coalesced (pre' ++ [pb]) s post = pre' ++ [pb] ++ ⟨s, false⟩ :: post := by
        simp [coalesced, em, emn]
      rw [el]
      refine Tiled.toWF ?_ ?_
      · exact ⟨ht.lo_pos, ht.lo_al, ht.listp, ht.max_lt, ht.brk_le, ht.pro, ht.pos, ht.sizes,
          ht.hdrs, ht.ftrs, ht.epi, ht.fin, mem_starts_at _ _ ep.symm⟩
      · rw [NoAdjFree_append]
        refine ⟨c1, NoAdjFree_cons c2 (fun y hy => Or.inr (hhd y hy)), ?_⟩
        intro x hx y hy
        simp at hx hy
        subst hx
        exact Or.inl hpa
    · -- case 2
      have hex := @coalesce_case2 h p s pb.size nb.size sm pbm
        nbm pb8 (by omega) (by simp only [total_cons] at hfin; omega) Hpf Hph' Hh Hnh
      refine ⟨_, hex, ?_, rfl, ⟨rfl, rfl, rfl, rfl⟩, ?_⟩
      · have el : coalesced (pre' ++ [pb]) s (nb :: rest)
            = pre' ++ [pb] ++ [⟨s + nb.size, false⟩] ++ rest := by
          simp [coalesced, em, mergeNext, hna]
        rw [el]
        have e0 : pre' ++ [pb] ++ ⟨s, false⟩ :: nb :: rest
            = pre' ++ [pb] ++ [⟨s, false⟩, nb] ++ rest := by simp
        rw [e0] at ht
        simp only [total_cons] at hfin
        refine Tiled.toWF (Tiled_splice ht hne rfl rfl rfl rfl (by simp)
          (by intro b hb; simp at hb; subst hb; exact ⟨by simp; omega, by simp; omega⟩)
          ?_ ?_ ?_ ?_ ?_) ?_
        · intro x hx hr
          rw [ep] at hr
          simp only [total_cons, total_nil] at hr
          show (PUT (PUT h (p - 4) (s + nb.size)) (p + s + nb.size - 8) (s + nb.size)).mem x = _
          rw [PUT_mem_ne _ _ (by omega), PUT_mem_ne _ _ (by omega)]
        · intro x hx hr
          rw [ep] at hr
          simp only [total_cons, total_nil] at hr
          show (PUT (PUT h (p - 4) (s + nb.size)) (p + s + nb.size - 8) (s + nb.size)).mem x = _
          rw [PUT_mem_ne _ _ (by omega), PUT_mem_ne _ _ (by omega)]
        · rw [ep]
          refine ⟨?_, trivial⟩
          rw [tag_free _ (by omega)]
          show (PUT (PUT h (p - 4) (s + nb.size)) (p + s + nb.size - 8) (s + nb.size)).mem _ = _
          rw [PUT_mem_ne _ _ (by omega), PUT_mem_eq]
        · rw [ep]
          refine ⟨?_, trivial⟩
          rw [tag_free _ (by omega)]
          show (PUT (PUT h (p - 4) (s + nb.size)) (p + s + nb.size - 8) (s + nb.size)).mem _ = _
          rw [PUT_mem_eq' _ _ (by simp only []; omega)]
        · rw [List.append_assoc]
          exact mem_starts_at _ _ ep.symm
        · rw [List.append_assoc, NoAdjFree_append]
          refine ⟨c1, NoAdjFree_cons (NoAdjFree_tail c2) ?_, ?_⟩
          · intro y hy
            exact Or.inr (NoAdjFree_head_alloc c2 hna y hy)
          · intro x hx y hy
            simp at hx hy
            subst hx
            exact Or.inl hpa
      · exact ((TagWrites.refl h).put _ _ (by omega)).put _ _ (by omega)
  | false =>
    rw [bit_free hpa] at Hpf Hph'
    simp only [Nat.add_zero] at Hpf Hph'
    have em : mergePrev (pre' ++ [pb]) = (pre', pb.size) := by
      rw [mergePrev_concat]; simp [hpa]
    rw [em]; simp only []
    have hne' : pre' ≠ [] := by
      intro h0
      rw [h0] at hpro
      simp at hpro
      rw [hpro] at hpa
      simp at hpa
    have pb16 : 16 ≤ pb.size := by
      apply ht.sizes
      rw [List.append_assoc, tail_append_of_ne hne']
      simp
    have eq : p - pb.size = h.heap_listp + total pre' := by omega
    rcases hnext with ⟨ns, nsm, nsle, Hnh, emn, hhd⟩ | ⟨nb, rest, rfl, hna, nb16, nbm, Hnh, Hnf⟩
    · -- case 3
      have hex := @coalesce_case3 h p s pb.size ns sm pbm nsm
        pb8 s8 (by omega) (by omega) Hpf Hph' Hh Hnh
      rw [eq] at hex
      refine ⟨_, hex, ?_, rfl, ⟨rfl, rfl, rfl, rfl⟩, ?_⟩
      · have el : coalesced (pre' ++ [pb]) s post
            = pre' ++ [⟨s + pb.size, false⟩] ++ post := by
          simp [coalesced, em, emn, Nat.add_comm]
        rw [el]
        have e0 : pre' ++ [pb] ++ ⟨s, false⟩ :: post
            = pre' ++ [pb, ⟨s, false⟩] ++ post := by simp
        rw [e0] at ht
        refine Tiled.toWF (Tiled_splice ht hne' rfl rfl rfl rfl (by simp; omega)
          (by intro b hb; simp at hb; subst hb; exact ⟨by simp; omega, by simp; omega⟩)
          ?_ ?_ ?_ ?_ ?_) ?_
        · intro x hx hr
          simp only [total_cons, total_nil] at hr
          show (PUT (PUT h (p + s - 8) (s + pb.size)) (h.heap_listp + total pre' - 4)
            (s + pb.size)).mem x = _
          rw [PUT_mem_ne _ _ (by omega), PUT_mem_ne _ _ (by omega)]
        · intro x hx hr
          simp only [total_cons, total_nil] at hr
          show (PUT (PUT h (p + s - 8) (s + pb.size)) (h.heap_listp + total pre' - 4)
            (s + pb.size)).mem x = _
          rw [PUT_mem_ne _ _ (by omega), PUT_mem_ne _ _ (by omega)]
        · refine ⟨?_, trivial⟩
          rw [tag_free _ (by omega)]
          show (PUT (PUT h (p + s - 8) (s + pb.size)) (h.heap_listp + total pre' - 4)
            (s + pb.size)).mem _ = _
          rw [PUT_mem_eq]
        · refine ⟨?_, trivial⟩
          rw [tag_free _ (by omega)]
          show (PUT (PUT h (p + s - 8) (s + pb.size)) (h.heap_listp + total pre' - 4)
            (s + pb.size)).mem _ = _
          rw [PUT_mem_ne _ _ (by simp only []; omega), PUT_mem_eq' _ _ (by simp only []; omega)]
        · rw [List.append_assoc]
          exact mem_starts_at _ _ rfl
        · rw [List.append_assoc, NoAdjFree_append]
          refine ⟨NoAdjFree_init c1, NoAdjFree_cons c2 (fun y hy => Or.inr (hhd y hy)), ?_⟩
          intro x hx y hy
          exact Or.inl (NoAdjFree_last_alloc c1 hpa x hx)
      · exact ((TagWrites.refl h).put _ _ (by omega)).put _ _ (by omega)
    · -- case 4
      simp only [total_cons] at hfin
      have hex := @coalesce_case4 h p s pb.size nb.size sm pbm
        nbm pb8 s8 (by omega) (by omega) (by omega) Hpf Hph' Hh Hnh Hnf
      rw [eq] at hex
      refine ⟨_, hex, ?_, rfl, ⟨rfl, rfl, rfl, rfl⟩, ?_⟩
      · have el : coalesced (pre' ++ [pb]) s (nb :: rest)
            = pre' ++ [⟨s + (pb.size + nb.size), false⟩] ++ rest := by
          simp [coalesced, em, mergeNext, hna]; omega
        rw [el]
        have e0 : pre' ++ [pb] ++ ⟨s, false⟩ :: nb :: rest
            = pre' ++ [pb, ⟨s, false⟩, nb] ++ rest := by simp
        rw [e0] at ht
        refine Tiled.toWF (Tiled_splice ht hne' rfl rfl rfl rfl (by simp; omega)
          (by intro b hb; simp at hb; subst hb; exact ⟨by simp; omega, by simp; omega⟩)
          ?_ ?_ ?_ ?_ ?_) ?_
        · intro x hx hr
          simp only [total_cons, total_nil] at hr
          show (PUT (PUT h (h.heap_listp + total pre' - 4) (s + (pb.size + nb.size)))
            (p + s + nb.size - 8) (s + (pb.size + nb.size))).mem x = _
          rw [PUT_mem_ne _ _ (by omega), PUT_mem_ne _ _ (by omega)]
        · intro x hx hr
          simp only [total_cons, total_nil] at hr
          show (PUT (PUT h (h.heap_listp + total pre' - 4) (s + (pb.size + nb.size)))
            (p + s + nb.size - 8) (s + (pb.size + nb.size))).mem x = _
          rw [PUT_mem_ne _ _ (by omega), PUT_mem_ne _ _ (by omega)]
        · refine ⟨?_, trivial⟩
          rw [tag_free _ (by omega)]
          show (PUT (PUT h (h.heap_listp + total pre' - 4) (s + (pb.size + nb.size)))
            (p + s + nb.size - 8) (s + (pb.size + nb.size))).mem _ = _
          rw [PUT_mem_ne _ _ (by omega), PUT_mem_eq]
        · refine ⟨?_, trivial⟩
          rw [tag_free _ (by omega)]
          show (PUT (PUT h (h.heap_listp + total pre' - 4) (s + (pb.size + nb.size)))
            (p + s + nb.size - 8) (s + (pb.size + nb.size))).mem _ = _
          rw [PUT_mem_eq' _ _ (by simp only []; omega)]
        · rw [List.append_assoc]
          exact mem_starts_at _ _ rfl
        · rw [List.append_assoc, NoAdjFree_append]
          refine ⟨NoAdjFree_init c1, NoAdjFree_cons (NoAdjFree_tail c2)
            (fun y hy => Or.inr (NoAdjFree_head_alloc c2 hna y hy)), ?_⟩
          intro x hx y hy
          exact Or.inl (NoAdjFree_last_alloc c1 hpa x hx)
      · exact ((TagWrites.refl h).put _ _ (by omega)).put _ _ (by omega)

theorem WF.coal_parts {h : Heap} {pre : List Blk} {b : Blk} {post : List Blk}
    (hw : WF h (pre ++ b :: post)) : NoAdjFree pre ∧ NoAdjFree post := by
  have c := hw.coal
  rw [NoAdjFree_append] at c
  exact ⟨c.1, NoAdjFree_tail c.2.1⟩

/-- The facts about the cells of a block of a well-formed heap. -/
theorem Tiled.block {h : Heap} {pre : List Blk} {b : Blk} {post : List Blk}
    (ht : Tiled h (pre ++ b :: post)) (hne : pre ≠ []) :
    h.mem (h.heap_listp + total pre - 4) = b.size + b.bit ∧
    h.mem (h.heap_listp + total pre + b.size - 8) = b.size + b.bit ∧
    h.heap_listp % 8 = 0 ∧ 16 ≤ h.heap_listp ∧ total pre % 8 = 0 ∧ 8 ≤ total pre ∧
    16 ≤ b.size ∧ b.size % 8 = 0 ∧ total post % 8 = 0 ∧
    h.heap_listp + total pre + b.size + total post = h.mem_brk ∧
    h.mem_brk < 4294967296 := by
  have hpos := ht.pos
  have hb := hpos b (by simp)
  have hpre : ∀ b ∈ pre, 8 ≤ b.size ∧ b.size % 8 = 0 := fun b hb => hpos b (by simp [hb])
  have hpost : ∀ b ∈ post, 8 ≤ b.size ∧ b.size % 8 = 0 := fun b hb => hpos b (by simp [hb])
  have h1 := Hdrs_at ht.hdrs
  have h2 := Ftrs_at ht.ftrs
  rw [b.tag_eq hb.2] at h1 h2
  have hfin := ht.fin
  have hmax := ht.max_lt
  have hbrk := ht.brk_le
  have hlp := ht.listp
  have hlo := ht.lo_pos
  have hal := ht.lo_al
  simp only [total_append, total_cons] at hfin
  have h16 : 16 ≤ b.size := by
    apply ht.sizes
    rw [tail_append_of_ne hne]
    simp
  have hp8 : 8 ≤ total pre := by
    cases pre with
    | nil => exact absurd rfl hne
    | cons x xs =>
      have := hpre x (by simp)
      simp only [total_cons]; omega
  exact ⟨h1, h2, by omega, by omega, total_mod hpre, hp8, h16, hb.2, total_mod hpost, by omega,
    by unfold WORD at hmax; omega⟩

/-- `mm_free` of a live pointer keeps the heap well formed; the chain is the coalesced
one and the cursor is left on the merged free block. -/
theorem mm_free_WF {h : Heap} {bs pre : List Blk} {b : Blk} {post : List Blk} {p : Nat}
    (hw : WF h bs) (hl : Live h bs pre b post p) :
    WF (mm_free h p) (coalesced pre b.size post) ∧
      (mm_free h p).last_malloc_call = h.heap_listp + total (mergePrev pre).1 ∧
      SameBounds h (mm_free h p) ∧ TagWrites h (mm_free h p) := by
  obtain ⟨rfl, hne, rfl, hba⟩ := hl
  obtain ⟨Hh, Hf, a8, a16, tp8, tp, b16, bm, tq8, hfin, hlt⟩ := hw.toTiled.block hne
  rw [bit_alloc hba] at Hh Hf
  obtain ⟨c1, c2⟩ := hw.coal_parts
  obtain ⟨p, hp⟩ : ∃ p, p = h.heap_listp + total pre := ⟨_, rfl⟩
  rw [← hp] at Hh Hf hfin ⊢
  have ht : Tiled (PUT (PUT h (p - 4) b.size) (p + b.size - 8) b.size)
      (pre ++ ⟨b.size, false⟩ :: post) := by
    have e0 : pre ++ b :: post = pre ++ [b] ++ post := by simp
    have e1 : pre ++ ⟨b.size, false⟩ :: post = pre ++ [⟨b.size, false⟩] ++ post := by simp
    have ht0 := hw.toTiled
    rw [e0] at ht0
    rw [e1]
    refine Tiled_splice ht0 hne rfl rfl rfl rfl (by simp)
      (by intro c hc; simp at hc; subst hc; exact ⟨b16, bm⟩) ?_ ?_ ?_ ?_ ?_
    · intro x hx hr
      rw [← hp] at hr
      simp only [total_cons, total_nil] at hr
      rw [PUT_mem_ne _ _ (by omega), PUT_mem_ne _ _ (by omega)]
    · intro x hx hr
      rw [← hp] at hr
      simp only [total_cons, total_nil] at hr
      rw [PUT_mem_ne _ _ (by omega), PUT_mem_ne _ _ (by omega)]
    · rw [← hp]
      refine ⟨?_, trivial⟩
      rw [tag_free _ bm, PUT_mem_ne _ _ (by omega), PUT_mem_eq]
    · rw [← hp]
      refine ⟨?_, trivial⟩
      rw [tag_free _ bm, PUT_mem_eq' _ _ (by simp only [])]
    · have hc := hw.cur
      rw [e0] at hc
      exact starts_splice (by simp) (by intro x hx; simpa [starts] using hx) hc
  obtain ⟨h', hex, hwf', hcur', hsb, htw⟩ := coalesce_WF ht hne b16 c1 c2
  simp only [PUT_listp] at hex hcur'
  rw [← hp] at hex
  have hfree := mm_free_eq (h := h) (p := p) (s := b.size) bm (by omega) (by omega) (by omega)
    Hh hex
  simp only [] at hfree
  rw [hfree]
  refine ⟨hwf', hcur', ?_, ?_⟩
  · obtain ⟨e1, e2, e3, e4⟩ := hsb
    exact ⟨e1, e2, e3, e4⟩
  · exact (((TagWrites.refl h).put _ _ (by omega)).put _ _ (by omega)).trans htw

/-! ## Placement -/

theorem WF.ne_nil {h : Heap} {bs : List Blk} (hw : WF h bs) : bs ≠ [] := by
  intro h0
  have := hw.pro
  rw [h0] at this
  simp at this

/-- The bounds of a well-formed heap. -/
theorem WF.bounds {h : Heap} {bs : List Blk} (hw : WF h bs) :
    h.heap_listp % 8 = 0 ∧ 16 ≤ h.heap_listp ∧ total bs % 8 = 0 ∧ 8 ≤ total bs ∧
    h.heap_listp + total bs = h.mem_brk ∧ h.mem_brk ≤ h.mem_max_addr ∧
    h.mem_max_addr < 4294967296 ∧ h.mem_brk % 8 = 0 ∧ h.heap_listp = h.mem_start_brk + 8 := by
  have hlp := hw.listp
  have hlo := hw.lo_pos
  have hal := hw.lo_al
  have hfin := hw.fin
  have hmax := hw.max_lt
  have hbrk := hw.brk_le
  have t8 := total_mod hw.pos
  have hp8 : 8 ≤ total bs := by
    cases bs with
    | nil => exact absurd rfl hw.ne_nil
    | cons x xs =>
      have := hw.pos x (by simp)
      simp only [total_cons]; omega
  unfold WORD at hmax
  exact ⟨by omega, by omega, t8, hp8, hfin, hbrk, hmax, by omega, hlp⟩

/-- A successful `extend_heap` on a well-formed heap: the new free block is appended to
the chain and coalesced with the last block when that one is free. -/
theorem extend_heap_WF {h : Heap} {bs : List Blk} {words : Nat}
    (hw : WF h bs) (h16 : 16 ≤ extend_size words)
    (hok : h.mem_brk + extend_size words ≤ h.mem_max_addr) :
    ∃ h', extend_heap h words = (h', h.heap_listp + total (mergePrev bs).1) ∧
      WF h' (coalesced bs (extend_size words) []) ∧
      h'.last_malloc_call = h.heap_listp + total (mergePrev bs).1 ∧
      h'.mem_start_brk = h.mem_start_brk ∧ h'.mem_brk = h.mem_brk + extend_size words ∧
      h'.mem_max_addr = h.mem_max_addr ∧ h'.heap_listp = h.heap_listp ∧ TagWrites h h' := by
  obtain ⟨a8, a16, t8, tge, hfin, hbrk, hmax, b8, hlp⟩ := hw.bounds
  have hm8 := extend_size_mod words
  obtain ⟨E, hE⟩ : ∃ E, E = extend_size words := ⟨_, rfl⟩
  rw [← hE] at h16 hok hm8 ⊢
  have hex := @extend_heap_ok h words (by rw [← hE]; exact hok) hmax
    (by rw [← hE]; omega) (by omega) b8
  rw [← hE] at hex
  have hpos := hw.pos
  have ht : Tiled (PUT (PUT (PUT { h with mem_brk := h.mem_brk + E } (h.mem_brk - 4) E)
      (h.mem_brk + E - 8) E) (h.mem_brk + E - 4) 1) (bs ++ [⟨E, false⟩]) := by
    refine ⟨hw.lo_pos, hw.lo_al, hw.listp, hw.max_lt, hok, ?_, ?_, ?_, ?_, ?_, ?_, ?_, ?_⟩
    · rw [head_append_of_ne hw.ne_nil]; exact hw.pro
    · intro b hb
      rcases List.mem_append.1 hb with hb | hb
      · exact hpos b hb
      · simp at hb; subst hb; exact ⟨by simp; omega, hm8⟩
    · intro b hb
      rw [tail_append_of_ne hw.ne_nil] at hb
      rcases List.mem_append.1 hb with hb | hb
      · exact hw.sizes b hb
      · simp at hb; subst hb; exact h16
    · simp only [PUT_listp]
      rw [Hdrs_append]
      refine ⟨Hdrs_frame a8 (by omega) hpos ?_ hw.hdrs, ?_, trivial⟩
      · intro x hx h1 h2
        show (PUT (PUT (PUT { h with mem_brk := h.mem_brk + E } (h.mem_brk - 4) E)
          (h.mem_brk + E - 8) E) (h.mem_brk + E - 4) 1).mem x = h.mem x
        rw [PUT_mem_ne _ _ (by omega), PUT_mem_ne _ _ (by omega), PUT_mem_ne _ _ (by omega)]
      · rw [tag_free _ hm8]
        show (PUT (PUT (PUT { h with mem_brk := h.mem_brk + E } (h.mem_brk - 4) E)
          (h.mem_brk + E - 8) E) (h.mem_brk + E - 4) 1).mem (h.heap_listp + total bs - 4) = E
        rw [PUT_mem_ne _ _ (by omega), PUT_mem_ne _ _ (by omega), PUT_mem_eq' _ _ (by omega)]
    · simp only [PUT_listp]
      rw [Ftrs_append]
      refine ⟨Ftrs_frame a8 hpos ?_ hw.ftrs, ?_, trivial⟩
      · intro x hx h1 h2
        show (PUT (PUT (PUT { h with mem_brk := h.mem_brk + E } (h.mem_brk - 4) E)
          (h.mem_brk + E - 8) E) (h.mem_brk + E - 4) 1).mem x = h.mem x
        rw [PUT_mem_ne _ _ (by omega), PUT_mem_ne _ _ (by omega), PUT_mem_ne _ _ (by omega)]
      · rw [tag_free _ hm8]
        show (PUT (PUT (PUT { h with mem_brk := h.mem_brk + E } (h.mem_brk - 4) E)
          (h.mem_brk + E - 8) E) (h.mem_brk + E - 4) 1).mem
            (h.heap_listp + total bs + E - 8) = E
        rw [PUT_mem_ne _ _ (by omega), PUT_mem_eq' _ _ (by omega)]
    · show (PUT (PUT (PUT { h with mem_brk := h.mem_brk + E } (h.mem_brk - 4) E)
          (h.mem_brk + E - 8) E) (h.mem_brk + E - 4) 1).mem (h.mem_brk + E - 4) = PACK 0 1
      rw [PUT_mem_eq]; rfl
    · show h.heap_listp + total (bs ++ [⟨E, false⟩]) = h.mem_brk + E
      simp only [total_append, total_cons, total_nil]; omega
    · show h.last_malloc_call ∈ starts h.heap_listp (bs ++ [⟨E, false⟩])
      rw [mem_starts_append]; exact Or.inl hw.cur
  obtain ⟨h', hco, hwf', hcur', hsb, htw⟩ := coalesce_WF ht hw.ne_nil h16 hw.coal
    (by unfold NoAdjFree; exact List.chain'_nil)
  have e1 : (PUT (PUT (PUT { h with mem_brk := h.mem_brk + E } (h.mem_brk - 4) E)
      (h.mem_brk + E - 8) E) (h.mem_brk + E - 4) 1).heap_listp = h.heap_listp := rfl
  rw [e1] at hco hcur'
  rw [hfin] at hco
  rw [hex, hco]
  obtain ⟨s1, s2, s3, s4⟩ := hsb
  refine ⟨h', rfl, hwf', hcur', s1, s2, s3, s4, ?_⟩
  have t0 : TagWrites h { h with mem_brk := h.mem_brk + E } := ⟨[], rfl, by simp⟩
  exact (((t0.put _ _ (by omega)).put _ _ (by omega)).put _ _ (by omega)).trans htw

/-! ## Search -/

theorem firstFit_some {asize : Nat} {bs : List Blk} {a q : Nat}
    (h : firstFit asize a bs = some q) :
    ∃ xs c ys, bs = xs ++ ⟨c, false⟩ :: ys ∧ q = a + total xs ∧ asize ≤ c ∧
      ∀ b ∈ xs, ¬ (b.alloc = false ∧ asize ≤ b.size) := by
  induction bs generalizing a with
  | nil => simp [firstFit] at h
  | cons b bs ih =>
    simp only [firstFit] at h
    split_ifs at h with hc
    · cases b with
      | mk sz al =>
        simp only at hc
        obtain ⟨rfl, hle⟩ := hc
        exact ⟨[], sz, bs, rfl, by simp at h; simp [h], hle, by simp⟩
    · obtain ⟨xs, c, ys, e, hq, hle, hno⟩ := ih h
      refine ⟨b :: xs, c, ys, by simp [e], by simp [hq]; omega, hle, ?_⟩
      intro x hx
      rcases List.mem_cons.1 hx with rfl | hx
      · exact hc
      · exact hno x hx

theorem firstFit_none {asize : Nat} {bs : List Blk} {a : Nat} :
    firstFit asize a bs = none ↔ ∀ b ∈ bs, ¬ (b.alloc = false ∧ asize ≤ b.size) := by
  induction bs generalizing a with
  | nil => simp [firstFit]
  | cons b bs ih =>
    simp only [firstFit]
    split_ifs with hc
    · simp only [List.mem_cons, forall_eq_or_imp, false_iff]
      intro hh; exact hh.1 hc
    · rw [ih]
      simp only [List.mem_cons, forall_eq_or_imp]
      exact ⟨fun hh => ⟨hc, hh⟩, fun hh => hh.2⟩

theorem firstFit_of_prefix {asize : Nat} {xs : List Blk} {c : Nat} {ys : List Blk} (a : Nat)
    (hle : asize ≤ c) (hno : ∀ b ∈ xs, ¬ (b.alloc = false ∧ asize ≤ b.size)) :
    firstFit asize a (xs ++ ⟨c, false⟩ :: ys) = some (a + total xs) := by
  induction xs generalizing a with
  | nil => simp [firstFit, hle]
  | cons b bs ih =>
    have hb := hno b (by simp)
    show firstFit asize a (b :: (bs ++ ⟨c, false⟩ :: ys)) = _
    simp only [firstFit, hb, if_false, total_cons]
    rw [ih _ (fun x hx => hno x (by simp [hx]))]
    congr 1; omega

/-! ## The adjusted size -/

theorem adjust_mod (size : Nat) : adjust size % 8 = 0 := by
  unfold adjust mul32 add32 DSIZE OVERHEAD WORD
  split_ifs <;> omega

theorem adjust_lt (size : Nat) : adjust size < 4294967296 := by
  unfold adjust mul32 add32 DSIZE OVERHEAD WORD
  split_ifs <;> omega

theorem adjust_ge {size : Nat} (h : size + 16 ≤ 4294967296) :
    16 ≤ adjust size ∧ size + 8 ≤ adjust size := by
  unfold adjust mul32 add32 DSIZE OVERHEAD WORD
  split_ifs <;> omega

theorem MAX_adjust (size : Nat) :
    MAX (adjust size) CHUNKSIZE % 8 = 0 ∧ adjust size ≤ MAX (adjust size) CHUNKSIZE ∧
    4096 ≤ MAX (adjust size) CHUNKSIZE ∧ MAX (adjust size) CHUNKSIZE < 4294967296 := by
  have := adjust_mod size
  have := adjust_lt size
  unfold MAX CHUNKSIZE
  split_ifs <;> omega

theorem extend_size_of_even {E : Nat} (h8 : E % 8 = 0) (hlt : E < 4294967296) :
    extend_size (E / WSIZE) = E := by
  unfold extend_size mul32 add32 WSIZE WORD
  split_ifs <;> omega

/-! ## Blocks with their addresses -/

theorem mem_blocksAt_append (x : Nat × Blk) (a : Nat) (xs ys : List Blk) :
    x ∈ blocksAt a (xs ++ ys) ↔ x ∈ blocksAt a xs ∨ x ∈ blocksAt (a + total xs) ys := by
  induction xs generalizing a with
  | nil => simp [blocksAt]
  | cons b bs ih =>
    have := ih (a + b.size)
    show x ∈ blocksAt a (b :: (bs ++ ys)) ↔ _
    simp only [blocksAt, List.mem_cons, this, total_cons, Nat.add_assoc, or_assoc]

theorem mem_blocksAt_iff (q : Nat) (b : Blk) (a : Nat) (bs : List Blk) :
    (q, b) ∈ blocksAt a bs ↔ ∃ pre post, bs = pre ++ b :: post ∧ q = a + total pre := by
  constructor
  · intro h
    induction bs generalizing a with
    | nil => simp [blocksAt] at h
    | cons c cs ih =>
      simp only [blocksAt, List.mem_cons, Prod.mk.injEq] at h
      rcases h with ⟨rfl, rfl⟩ | h
      · exact ⟨[], cs, rfl, by simp⟩
      · obtain ⟨pre, post, e, hq⟩ := ih _ h
        exact ⟨c :: pre, post, by simp [e], by simp [hq]; omega⟩
  · rintro ⟨pre, post, rfl, rfl⟩
    rw [mem_blocksAt_append]
    right
    simp [blocksAt]

theorem WF.set_cursor {h : Heap} {bs : List Blk} (hw : WF h bs) {x : Nat}
    (hx : x ∈ starts h.heap_listp bs) : WF { h with last_malloc_call := x } bs :=
  ⟨hw.lo_pos, hw.lo_al, hw.listp, hw.max_lt, hw.brk_le, hw.pro, hw.pos, hw.sizes, hw.hdrs,
    hw.ftrs, hw.epi, hw.fin, hw.coal, hx⟩

/-- The result of the search of `mm_malloc` on a well-formed heap. -/
theorem next_fit_WF {h : Heap} {bs cpre csuf : List Blk} {asize fuel : Nat} (hw : WF h bs)
    (hsplit : bs = cpre ++ csuf) (hcur : h.last_malloc_call = h.heap_listp + total cpre)
    (hfuel : bs.length < fuel) :
    next_fit fuel h asize = some (match firstFit asize (h.heap_listp + total cpre) csuf with
      | some p => ({ h with last_malloc_call := p }, p)
      | none => ({ h with last_malloc_call := h.heap_listp }, 0)) := by
  obtain ⟨a8, a16, t8, tge, hfin, hbrk, hmax, b8, hlp⟩ := hw.bounds
  subst hsplit
  have hH := hw.hdrs
  rw [Hdrs_append] at hH
  simp only [total_append] at hfin
  unfold next_fit
  rw [hcur]
  refine next_fit_loop_spec h asize csuf _ fuel hH.2 (pos_append hw.pos).2 ?_ (by omega)
    (by omega) (by simp at hfuel; omega)
  have := hw.epi
  rw [← hfin] at this
  exact mem_congr this (by omega)

/-- The three ways in which `mm_malloc` proceeds on a well-formed heap: a fit is found
at or after the cursor; no fit and the growth fails; no fit and the heap grows. -/
theorem mm_malloc_cases {h : Heap} {bs cpre csuf : List Blk} {size fuel : Nat} (hw : WF h bs)
    (hsplit : bs = cpre ++ csuf) (hcur : h.last_malloc_call = h.heap_listp + total cpre)
    (hs0 : 0 < size) (hfuel : bs.length < fuel) :
    (∃ xs c ys, csuf = xs ++ ⟨c, false⟩ :: ys ∧ adjust size ≤ c ∧
      (∀ b ∈ xs, ¬ (b.alloc = false ∧ adjust size ≤ b.size)) ∧
      mm_malloc fuel h size =
        some (place { h with last_malloc_call := h.heap_listp + total (cpre ++ xs) }
          (h.heap_listp + total (cpre ++ xs)) (adjust size), h.heap_listp + total (cpre ++ xs)))
    ∨ ((∀ b ∈ csuf, ¬ (b.alloc = false ∧ adjust size ≤ b.size)) ∧
      h.mem_max_addr < h.mem_brk + MAX (adjust size) CHUNKSIZE ∧
      mm_malloc fuel h size = some ({ h with last_malloc_call := h.heap_listp }, 0))
    ∨ ((∀ b ∈ csuf, ¬ (b.alloc = false ∧ adjust size ≤ b.size)) ∧
      h.mem_brk + MAX (adjust size) CHUNKSIZE ≤ h.mem_max_addr ∧
      ∃ h2, extend_heap { h with last_malloc_call := h.heap_listp }
          (MAX (adjust size) CHUNKSIZE / WSIZE) = (h2, h.heap_listp + total (mergePrev bs).1) ∧
        WF h2 (coalesced bs (MAX (adjust size) CHUNKSIZE) []) ∧
        h2.last_malloc_call = h.heap_listp + total (mergePrev bs).1 ∧
        h2.mem_start_brk = h.mem_start_brk ∧
        h2.mem_brk = h.mem_brk + MAX (adjust size) CHUNKSIZE ∧
        h2.mem_max_addr = h.mem_max_addr ∧ h2.heap_listp = h.heap_listp ∧ TagWrites h h2 ∧
        mm_malloc fuel h size = some (place h2 (h.heap_listp + total (mergePrev bs).1)
          (adjust size), h.heap_listp + total (mergePrev bs).1)) := by
  obtain ⟨a8, a16, t8, tge, hfin, hbrk, hmax, b8, hlp⟩ := hw.bounds
  have hnf := @next_fit_WF h bs cpre csuf (adjust size) fuel hw hsplit hcur hfuel
  have hsz : ¬ (size ≤ 0) := by omega
  obtain ⟨E8, Ele, E4096, Elt⟩ := MAX_adjust size
  cases hff : firstFit (adjust size) (h.heap_listp + total cpre) csuf with
  | some q =>
    left
    obtain ⟨xs, c, ys, e, hq, hle, hno⟩ := firstFit_some hff
    refine ⟨xs, c, ys, e, hle, hno, ?_⟩
    have hq' : q = h.heap_listp + total (cpre ++ xs) := by
      rw [hq]; simp only [total_append]; omega
    rw [hff] at hnf
    simp only [] at hnf
    have hq0 : q ≠ 0 := by omega
    unfold mm_malloc
    simp only [hsz, if_false, hnf, hq0, ne_eq, not_false_eq_true, if_true]
    rw [hq']
  | none =>
    right
    rw [hff] at hnf
    simp only [] at hnf
    have hno := firstFit_none.1 hff
    have hwc : WF { h with last_malloc_call := h.heap_listp } bs :=
      hw.set_cursor (mem_starts_self _ _)
    have hes : extend_size (MAX (adjust size) CHUNKSIZE / WSIZE) = MAX (adjust size) CHUNKSIZE :=
      extend_size_of_even E8 Elt
    by_cases hok : h.mem_brk + MAX (adjust size) CHUNKSIZE ≤ h.mem_max_addr
    · right
      refine ⟨hno, hok, ?_⟩
      obtain ⟨h2, hex, hw2, hc2, f1, f2, f3, f4, htw⟩ := @extend_heap_WF _ _
        (MAX (adjust size) CHUNKSIZE / WSIZE) hwc (by rw [hes]; omega)
        (by rw [hes]; exact hok)
      rw [hes] at hw2 f2
      refine ⟨h2, hex, hw2, hc2, f1, f2, f3, f4, (by obtain ⟨ws, e, p⟩ := htw; exact ⟨ws, e, p⟩), ?_⟩
      have hq0 : h.heap_listp + total (mergePrev bs).1 ≠ 0 := by omega
      unfold mm_malloc
      simp only [hsz, if_false, hnf, ne_eq, not_true_eq_false, if_false]
      simp only [] at hex
      rw [hex]
      simp only [hq0, if_false]
    · left
      refine ⟨hno, by omega, ?_⟩
      have hfl := @extend_heap_fail { h with last_malloc_call := h.heap_listp }
        (MAX (adjust size) CHUNKSIZE / WSIZE)
        (by rw [hes]; show h.mem_max_addr < h.mem_brk + _; omega)
      unfold mm_malloc
      simp only [hsz, if_false, hnf, ne_eq, not_true_eq_false, if_false]
      rw [hfl]
      simp

theorem mergePrev_ne_nil {bs : List Blk} (hpro : bs.head? = some ⟨8, true⟩) :
    (mergePrev bs).1 ≠ [] := by
  rcases List.eq_nil_or_concat' bs with h0 | ⟨pre', pb, rfl⟩
  · rw [h0] at hpro; simp at hpro
  · rw [mergePrev_concat]
    cases hpa : pb.alloc with
    | true => simp
    | false =>
      simp only [Bool.false_eq_true, if_false]
      intro h0
      rw [h0] at hpro
      simp at hpro
      rw [hpro] at hpa
      simp at hpa

theorem ALIGN_facts (size : Nat) :
    ALIGN size % 8 = 0 ∧ ALIGN size < 4294967296 ∧
    (size + 7 < 4294967296 → size ≤ ALIGN size ∧ ALIGN size ≤ size + 7) ∧
    (size < 4294967296 → 4294967296 ≤ size + 7 → ALIGN size = 0) := by
  have hx : add32 size (ALIGNMENT - 1) < WORD := by
    unfold add32; exact Nat.mod_lt _ (by unfold WORD; omega)
  unfold ALIGN
  rw [and_NOT7 _ hx]
  unfold add32 ALIGNMENT WORD at *
  refine ⟨by omega, by omega, by intro h; omega, by intro h1 h2; omega⟩

theorem needed_facts (size : Nat) :
    needed size % 8 = 0 ∧ needed size < 4294967296 ∧
    ((needed size = 0 ∧ ALIGN size = 4294967288) ∨
      (8 ≤ needed size ∧ ALIGN size + 8 = needed size)) := by
  obtain ⟨a8, alt, -, -⟩ := ALIGN_facts size
  unfold needed add32 OVERHEAD WORD
  refine ⟨by omega, by omega, by omega⟩

/-- `mm_realloc` when the block already has the needed size. -/
theorem realloc_same {h : Heap} {p size old fuel : Nat} (hp : 8 ≤ p) (hs0 : 0 < size)
    (hhi : p + old < 4294967296) (ho8 : old % 8 = 0)
    (Hh : h.mem (p - 4) = old + 1) (hn : needed size = old) :
    mm_realloc fuel h p size = some (h, p) := by
  have e0 : HDRP p = p - 4 := HDRP_eq (by omega) (by omega)
  have e1 : GET_SIZE h (p - 4) = old := GET_SIZE_eq _ old 1 Hh ho8 (by omega) (by omega)
  have c1 : ¬ (p = 0) := by omega
  have c2 : ¬ (size ≤ 0) := by omega
  unfold needed at hn
  unfold mm_realloc
  simp only [c1, c2, if_false, e0, e1, hn, if_true]

/-- `mm_realloc` before a free block, absorbing it (needed size at least 8). -/
theorem realloc_absorb {h : Heap} {p size old nx fuel : Nat} (hp : 8 ≤ p) (hs0 : 0 < size)
    (hhi : p + old + nx < 4294967296) (ho8 : old % 8 = 0) (ho16 : 16 ≤ old)
    (hnx : nx % 8 = 0) (hnx16 : 16 ≤ nx)
    (Hh : h.mem (p - 4) = old + 1) (Hnh : h.mem (p + old - 4) = nx)
    (hn8 : 8 ≤ needed size) (hne : needed size ≠ old) (hn : needed size + 16 ≤ old + nx) :
    mm_realloc fuel h p size = some ({ PUT (PUT (PUT (PUT h (p - 4) (needed size + 1))
      (p + needed size - 8) (needed size + 1)) (p + needed size - 4) (old + nx - needed size))
      (p + old + nx - 8) (old + nx - needed size) with
        last_malloc_call := p + needed size }, p) := by
  obtain ⟨n8, nlt, hcase⟩ := needed_facts size
  have hsa : ALIGN size + 8 = needed size := by omega
  have e0 : HDRP p = p - 4 := HDRP_eq (by omega) (by omega)
  have e1 : GET_SIZE h (p - 4) = old := GET_SIZE_eq _ old 1 Hh ho8 (by omega) (by omega)
  have e2 : NEXT_BLKP h p = p + old := NEXT_BLKP_eq p old 1 Hh ho8 (by omega) (by omega) (by omega)
  have e3 : HDRP (p + old) = p + old - 4 := HDRP_eq (by omega) (by omega)
  have e4 : GET_ALLOC h (p + old - 4) = 0 := GET_ALLOC_eq0 _ nx Hnh hnx
  have e5 : GET_SIZE h (p + old - 4) = nx := GET_SIZE_eq0 _ nx Hnh hnx (by omega)
  have c1 : ¬ (p = 0) := by omega
  have c2 : ¬ (size ≤ 0) := by omega
  have c5 : old > needed size ∨ sub32 (add32 old nx) (2 * DSIZE) ≥ needed size := by
    right; unfold sub32 add32 DSIZE WORD; omega
  have a1 : add32 p (ALIGN size) = p + needed size - 8 := by
    rw [add32_eq (by unfold WORD; omega)]; omega
  have a2 : add32 (p + needed size - 8) WSIZE = p + needed size - 4 := by
    unfold WSIZE; rw [add32_eq (by unfold WORD; omega)]; omega
  have a3 : add32 (sub32 old (needed size)) nx = old + nx - needed size := by
    unfold add32 sub32 WORD; omega
  have a4 : PACK (needed size) 1 = needed size + 1 := PACK_eq n8 (by omega)
  have a5 : PACK (old + nx - needed size) 0 = old + nx - needed size :=
    PACK_eq (by omega) (by omega)
  have f1 : FTRP (PUT (PUT (PUT h (p - 4) (needed size + 1)) (p + needed size - 8)
      (needed size + 1)) (p + needed size - 4) (old + nx - needed size)) (p + old)
      = p + old + nx - 8 :=
    FTRP_eq0 (p + old) nx
      (by rw [PUT_mem_ne _ _ (by omega), PUT_mem_ne _ _ (by omega), PUT_mem_ne _ _ (by omega)]
          exact Hnh) hnx (by omega) (by omega) (by omega)
  have f2 : NEXT_BLKP (PUT (PUT (PUT (PUT h (p - 4) (needed size + 1)) (p + needed size - 8)
      (needed size + 1)) (p + needed size - 4) (old + nx - needed size))
      (p + old + nx - 8) (old + nx - needed size)) p = p + needed size :=
    NEXT_BLKP_eq p (needed size) 1
      (by rw [PUT_mem_ne _ _ (by omega), PUT_mem_ne _ _ (by omega), PUT_mem_ne _ _ (by omega),
            PUT_mem_eq]) n8 (by omega) (by omega) (by omega)
  unfold needed at hne c5 a3 a4 a5 a1 a2 f1 f2 ⊢
  unfold mm_realloc
  simp only [c1, c2, if_false, e0, e1, e2, e3, e4, e5, hne, c5, if_true, ne_eq,
    not_true_eq_false, a1, a2, a3, a4, a5, f1, f2]

theorem mergeNext_cons (nb : Blk) (rest : List Blk) :
    mergeNext (nb :: rest) = if nb.alloc then (nb :: rest, 0) else (rest, nb.size) := rfl

@[simp]
theorem memcpy_mem (h : Heap) (d s n x : Nat) :
    (memcpy h d s n).mem x = if d ≤ x ∧ x < d + n then h.mem (s + (x - d)) else h.mem x := rfl

theorem Live.mem {h : Heap} {bs pre : List Blk} {b : Blk} {post : List Blk} {p : Nat}
    (hl : Live h bs pre b post p) : (p, b) ∈ blocksAt h.heap_listp bs :=
  (mem_blocksAt_iff _ _ _ _).2 ⟨pre, post, hl.1, hl.2.2.1⟩

theorem memcpy_brk (h : Heap) (d s n : Nat) : (memcpy h d s n).mem_brk = h.mem_brk := rfl

theorem memcpy_cursor (h : Heap) (d s n : Nat) :
    (memcpy h d s n).last_malloc_call = h.last_malloc_call := rfl

theorem Live.pos {h : Heap} {bs pre : List Blk} {b : Blk} {post : List Blk} {p : Nat}
    (hw : WF h bs) (hl : Live h bs pre b post p) : h.heap_listp < p := by
  obtain ⟨rfl, hne, rfl, -⟩ := hl
  obtain ⟨-, -, -, -, -, tp, -⟩ := hw.toTiled.block hne
  omega

/-- The header that follows a block of a tiled heap: an allocated tag (a block or the
epilogue), or the tag of a free block. -/
theorem Tiled.succ {h : Heap} {pre : List Blk} {b : Blk} {post : List Blk}
    (ht : Tiled h (pre ++ b :: post)) :
    (∃ ns, ns % 8 = 0 ∧ ns ≤ total post ∧
      h.mem (h.heap_listp + total pre + b.size - 4) = ns + 1 ∧
      ∀ y ∈ post.head?, y.alloc = true) ∨
    (∃ nb rest, post = nb :: rest ∧ nb.alloc = false ∧ 16 ≤ nb.size ∧ nb.size % 8 = 0 ∧
      h.mem (h.heap_listp + total pre + b.size - 4) = nb.size) := by
  cases post with
  | nil =>
    left
    refine ⟨0, rfl, Nat.le_refl _, ?_, by simp⟩
    have hfin := ht.fin
    have hepi := ht.epi
    simp only [total_append, total_cons, total_nil] at hfin
    rw [← hfin] at hepi
    exact mem_congr hepi (by omega)
  | cons nb rest =>
    have hnb := ht.pos nb (by simp)
    have hH := ht.hdrs
    have e : pre ++ b :: nb :: rest = (pre ++ [b]) ++ nb :: rest := by simp
    rw [e] at hH
    have h1 := Hdrs_at hH
    simp only [total_append, total_cons, total_nil] at h1
    rw [nb.tag_eq hnb.2] at h1
    have h16 : 16 ≤ nb.size := by
      apply ht.sizes
      cases pre <;> simp
    cases hna : nb.alloc with
    | true =>
      left
      rw [bit_alloc hna] at h1
      exact ⟨nb.size, hnb.2, by simp, mem_congr h1 (by omega), by simp [hna]⟩
    | false =>
      right
      rw [bit_free hna] at h1
      exact ⟨nb, rest, rfl, hna, h16, hnb.2, mem_congr h1 (by omega)⟩

/-- The heap that `mm_init` hands to `extend_heap`, described by its cells. -/
theorem init_tail {h0 X : Heap} {r : Heap × Nat} (hf : Fresh h0)
    (hcap : h0.mem_start_brk + 16 + 4096 ≤ h0.mem_max_addr)
    (hX : extend_heap X (CHUNKSIZE / WSIZE) = r)
    (x1 : X.mem (h0.mem_start_brk + 4) = 9) (x2 : X.mem (h0.mem_start_brk + 8) = 9)
    (x3 : X.mem (h0.mem_start_brk + 12) = 1) (x4 : X.heap_listp = h0.mem_start_brk + 8)
    (x5 : X.mem_brk = h0.mem_start_brk + 16) (x6 : X.last_malloc_call = h0.mem_start_brk + 8)
    (x7 : X.mem_start_brk = h0.mem_start_brk) (x8 : X.mem_max_addr = h0.mem_max_addr)
    (x9 : TagWrites h0 X) :
    ∃ h1, r = (h1, h0.mem_start_brk + 16) ∧
      WF h1 [⟨8, true⟩, ⟨4096, false⟩] ∧ TagWrites h0 h1 ∧
      h1.mem_start_brk = h0.mem_start_brk ∧ h1.mem_max_addr = h0.mem_max_addr ∧
      h1.mem_brk = h0.mem_start_brk + 16 + 4096 ∧
      h1.last_malloc_call = h0.mem_start_brk + 16 := by
  have hlo := hf.lo_pos
  have hal := hf.lo_al
  have hmax := hf.max_lt
  have hwI : WF X [⟨8, true⟩] := by
    refine ⟨by rw [x7]; exact hlo, by rw [x7]; exact hal, by rw [x4, x7], by rw [x8]; exact hmax,
      by rw [x5, x8]; omega, rfl, ?_, ?_, ?_, ?_, ?_, ?_, ?_, ?_⟩
    · intro b hb
      simp only [List.mem_singleton] at hb
      subst hb
      exact ⟨by simp, rfl⟩
    · intro b hb
      simp at hb
    · simp only [Hdrs, and_true]
      rw [tag_alloc 8 rfl, x4]
      exact mem_congr x1 (by omega)
    · simp only [Ftrs, and_true]
      rw [tag_alloc 8 rfl, x4]
      exact mem_congr x2 (by omega)
    · rw [x5]
      exact mem_congr x3 (by omega)
    · rw [x4, x5]
      simp only [total_cons, total_nil]
    · unfold NoAdjFree
      exact List.chain'_singleton _
    · rw [x6, x4]
      simp [starts]
  have hes : extend_size (CHUNKSIZE / WSIZE) = 4096 := by decide
  obtain ⟨h1, hex, hw1, hc1, f1, f2, f3, f4, htw⟩ := @extend_heap_WF _ _ (CHUNKSIZE / WSIZE)
    hwI (by rw [hes]; omega) (by rw [hes, x5, x8]; omega)
  have hmp : mergePrev [(⟨8, true⟩ : Blk)] = ([⟨8, true⟩], 0) := rfl
  have hco : coalesced [(⟨8, true⟩ : Blk)] 4096 [] = [⟨8, true⟩, ⟨4096, false⟩] := rfl
  rw [hes] at hw1 f2
  rw [hmp, hX] at hex
  rw [hmp] at hc1
  rw [hco] at hw1
  simp only [total_cons, total_nil, x4] at hex hc1
  exact ⟨h1, hex, hw1, x9.trans htw, by rw [f1, x7], by rw [f3, x8], by rw [f2, x5], hc1⟩

/-- `mm_init` on a fresh region with room for the first chunk returns 0 and leaves the
prologue followed by one free block of `CHUNKSIZE` bytes. -/
theorem mm_init_spec {h0 : Heap} (hf : Fresh h0)
    (hcap : h0.mem_start_brk + 16 + 4096 ≤ h0.mem_max_addr) :
    ∃ h1, mm_init h0 = (h1, 0) ∧ WF h1 [⟨8, true⟩, ⟨4096, false⟩] ∧ TagWrites h0 h1 ∧
      h1.mem_start_brk = h0.mem_start_brk ∧ h1.mem_max_addr = h0.mem_max_addr ∧
      h1.mem_brk = h0.mem_start_brk + 16 + 4096 ∧
      h1.last_malloc_call = h0.mem_start_brk + 16 := by
  have hlo := hf.lo_pos
  have hal := hf.lo_al
  have hmax := hf.max_lt
  have hbrk := hf.brk
  unfold WORD at hmax
  have e1 : mem_sbrk h0 (4 * WSIZE) =
      ({ h0 with mem_brk := h0.mem_brk + 4 * WSIZE }, h0.mem_brk) := by
    unfold mem_sbrk
    have : h0.mem_brk + 4 * WSIZE ≤ h0.mem_max_addr := by unfold WSIZE; omega
    simp only [this, if_true]
  have a1 : add32 h0.mem_brk WSIZE = h0.mem_start_brk + 4 := by
    unfold WSIZE; rw [add32_eq (by unfold WORD; omega)]; omega
  have a2 : add32 h0.mem_brk DSIZE = h0.mem_start_brk + 8 := by
    unfold DSIZE; rw [add32_eq (by unfold WORD; omega)]; omega
  have a3 : add32 (h0.mem_start_brk + 4) DSIZE = h0.mem_start_brk + 12 := by
    unfold DSIZE; rw [add32_eq (by unfold WORD; omega)]
  have c1 : ¬ (h0.mem_brk = 0) := by omega
  have p9 : PACK OVERHEAD 1 = 9 := by decide
  have p1 : PACK 0 1 = 1 := by decide
  unfold mm_init
  rw [e1]
  simp only [c1, if_false, PUT_listp, a1, a2, a3, p9, p1]
  generalize hX : extend_heap _ _ = r
  have key := init_tail hf hcap hX
  have t0 : TagWrites h0 { h0 with mem_brk := h0.mem_brk + 4 * WSIZE, heap_listp := h0.mem_brk } :=
    ⟨[], rfl, by simp⟩
  obtain ⟨h1, hr, hw1, htw, g1, g2, g3, g4⟩ := key
    (by dsimp only; rw [PUT_mem_ne _ _ (by omega), PUT_mem_ne _ _ (by omega), PUT_mem_eq])
    (by dsimp only; rw [PUT_mem_ne _ _ (by omega), PUT_mem_eq])
    (by dsimp only; rw [PUT_mem_eq])
    rfl (by show h0.mem_brk + 4 * WSIZE = _; unfold WSIZE; omega) rfl rfl rfl
    (TagWrites.of_eq ((((t0.put _ _ (by omega)).put _ _ (by omega)).put _ _ (by omega)).put _ _
      (by omega)) rfl)
  rw [hr]
  have : ¬ (h0.mem_start_brk + 16 = 0) := by omega
  simp only [this, if_false]
  exact ⟨h1, rfl, hw1, htw, g1, g2, g3, g4⟩

/-! ## Termination of the traversals -/

theorem mergePrev_of_alloc {pre : List Blk} (hprev : ∀ pb ∈ pre.getLast?, pb.alloc = true) :
    mergePrev pre = (pre, 0) := by
  unfold mergePrev
  cases hg : pre.getLast? with
  | none => rfl
  | some pb =>
    have := hprev pb (by rw [hg]; rfl)
    simp [this]

theorem mergeNext_length (post : List Blk) : (mergeNext post).1.length ≤ post.length := by
  cases post with
  | nil => simp [mergeNext]
  | cons nb rest =>
    rw [mergeNext_cons]
    split_ifs <;> simp

/-- The growth primitive fails exactly when the request does not fit below
`mem_max_addr`. -/
theorem mem_sbrk_fails_iff {h : Heap} {bs : List Blk} (hw : WF h bs) (n : Nat) :
    (mem_sbrk h n).2 = WORD - 1 ↔ h.mem_max_addr < h.mem_brk + n := by
  obtain ⟨a8, a16, t8, tge, hfin, hbrk, hmax, b8, hlp⟩ := hw.bounds
  unfold mem_sbrk WORD
  split_ifs with hc
  · simp only []
    constructor
    · intro e; omega
    · intro e; omega
  · simp only [true_iff]
    omega

/-! ## The concrete heaps are well formed -/

theorem region_Fresh : Fresh region := by constructor <;> decide

theorem initHeap_WF : WF initHeap [⟨8, true⟩, ⟨4096, false⟩] := by
  constructor <;> first | decide | simp [NoAdjFree]

theorem smallHeap_WF : WF smallHeap [⟨8, true⟩, ⟨4096, false⟩] := by
  constructor <;> first | decide | simp [NoAdjFree]

theorem mainHeap_WF : WF mainHeap [⟨8, true⟩, ⟨24, true⟩, ⟨16, true⟩, ⟨4056, false⟩] := by
  constructor <;> first | decide | simp [NoAdjFree]

theorem mainHeap_Live :
    Live mainHeap [⟨8, true⟩, ⟨24, true⟩, ⟨16, true⟩, ⟨4056, false⟩] [⟨8, true⟩] ⟨24, true⟩
      [⟨16, true⟩, ⟨4056, false⟩] 80 :=
  ⟨rfl, by decide, by decide, rfl⟩

theorem BlockAt.of_cells {h : Heap} {bp s a : Nat} (hs : s % 8 = 0) (ha : a ≤ 1)
    (h4 : 4 ≤ bp) (h8 : 8 ≤ bp + s) (hlt : bp + s < 4294967296)
    (Hh : h.mem (bp - 4) = s + a) (Hf : h.mem (bp + s - 8) = s + a) : BlockAt h bp s a := by
  unfold BlockAt GET
  rw [HDRP_eq h4 (by omega), FTRP_eq bp s a Hh hs ha h4 h8 hlt, PACK_eq hs (by omega)]
  exact ⟨Hh, Hf⟩

theorem BlockAt.of_free {h : Heap} {bp s : Nat} (hs : s % 8 = 0)
    (h4 : 4 ≤ bp) (h8 : 8 ≤ bp + s) (hlt : bp + s < 4294967296)
    (Hh : h.mem (bp - 4) = s) (Hf : h.mem (bp + s - 8) = s) : BlockAt h bp s 0 :=
  BlockAt.of_cells hs (by omega) h4 h8 hlt (by simpa using Hh) (by simpa using Hf)

theorem BlockAt.header {h : Heap} {bp s a : Nat} (hb : BlockAt h bp s a) (hs : s % 8 = 0)
    (ha : a ≤ 1) (h4 : 4 ≤ bp) (hlt : bp < 4294967296) : h.mem (bp - 4) = s + a := by
  have := hb.1
  unfold GET at this
  rw [HDRP_eq h4 hlt, PACK_eq hs (by omega)] at this
  exact this

theorem mainBefore_WF :
    WF mainBefore [⟨8, true⟩, ⟨24, true⟩, ⟨16, true⟩, ⟨4056, false⟩] := by
  constructor <;> first | decide | simp [NoAdjFree]

theorem skipHeap_WF :
    WF skipHeap [⟨8, true⟩, ⟨16, false⟩, ⟨16, true⟩, ⟨16, true⟩, ⟨4048, true⟩] := by
  constructor <;> first | decide | simp [NoAdjFree]

/-- The aligned size of a payload size that is already a multiple of eight. -/
theorem needed_of_payload {old : Nat} (h16 : 16 ≤ old) (h8 : old % 8 = 0)
    (hlt : old < 4294967296) : needed (old - 8) = old := by
  obtain ⟨a8, alt, ha1, -⟩ := ALIGN_facts (old - 8)
  obtain ⟨l1, l2⟩ := ha1 (by omega)
  unfold needed OVERHEAD
  rw [add32_eq (by unfold WORD; omega)]
  omega

/-- The explicit result of `coalesce` on a free block of a tiled heap: the words written
are the header and the footer of the merged block, both with the sum of the sizes. -/
theorem coalesce_exec {h : Heap} {pre : List Blk} {s : Nat} {post : List Blk}
    (ht : Tiled h (pre ++ ⟨s, false⟩ :: post)) (hne : pre ≠ []) :
    ∃ h' ws, coalesce h (h.heap_listp + total pre)
        = (h', h.heap_listp + total pre - (mergePrev pre).2) ∧
      h.heap_listp + total (mergePrev pre).1
        = h.heap_listp + total pre - (mergePrev pre).2 ∧
      h'.writes = ws ++ h.writes ∧
      (∀ w ∈ ws, (w.1 = h.heap_listp + total pre - (mergePrev pre).2 - 4 ∨
          w.1 = h.heap_listp + total pre + s + (mergeNext post).2 - 8) ∧
        w.2 = (mergePrev pre).2 + s + (mergeNext post).2) ∧
      (∀ x, x ≠ h.heap_listp + total pre - (mergePrev pre).2 - 4 →
        x ≠ h.heap_listp + total pre + s + (mergeNext post).2 - 8 → h'.mem x = h.mem x) := by
  obtain ⟨pre', pb, rfl⟩ : ∃ pre' pb, pre = pre' ++ [pb] := by
    rcases List.eq_nil_or_concat' pre with h0 | h0
    · exact absurd h0 hne
    · exact h0
  obtain ⟨Hh, Hpf, Hph, a8, a16, tp8, pb8, pbm, s8, sm, tq8, hfin, hlt⟩ := ht.around
  have hnext := ht.next
  obtain ⟨p, hp⟩ : ∃ p, p = h.heap_listp + total pre' + pb.size := ⟨_, rfl⟩
  have ep : h.heap_listp + total (pre' ++ [pb]) = p := by
    simp only [total_append, total_cons, total_nil]; omega
  rw [ep] at hnext ⊢
  rw [← hp] at Hh Hpf hfin
  have Hph' : h.mem (p - pb.size - 4) = pb.size + pb.bit := mem_congr Hph (by omega)
  cases hpa : pb.alloc with
  | true =>
    rw [bit_alloc hpa] at Hpf Hph'
    have em : mergePrev (pre' ++ [pb]) = (pre' ++ [pb], 0) := by
      rw [mergePrev_concat]; simp [hpa]
    rw [em]; simp only []
    rw [ep]
    rcases hnext with ⟨ns, nsm, nsle, Hnh, emn, hhd⟩ | ⟨nb, rest, rfl, hna, nb16, nbm, Hnh, Hnf⟩
    · -- case 1
      have hex := @coalesce_case1 h p s pb.size ns sm pbm nsm
        pb8 (by omega) (by omega) Hpf Hph' Hh Hnh
      rw [emn]
      exact ⟨_, [], hex, rfl, rfl, by simp, fun x _ _ => rfl⟩
    · -- case 2
      have hex := @coalesce_case2 h p s pb.size nb.size sm pbm
        nbm pb8 (by omega) (by simp only [total_cons] at hfin; omega) Hpf Hph' Hh Hnh
      have emn : mergeNext (nb :: rest) = (rest, nb.size) := by simp [mergeNext, hna]
      rw [emn]
      refine ⟨_, [(p + s + nb.size - 8, s + nb.size), (p - 4, s + nb.size)], hex, rfl, rfl,
        ?_, ?_⟩
      · intro w hw
        simp only [List.mem_cons, List.mem_singleton, List.not_mem_nil, or_false] at hw
        rcases hw with rfl | rfl
        · exact ⟨Or.inr rfl, by simp only []; omega⟩
        · exact ⟨Or.inl rfl, by simp only []; omega⟩
      · intro x hx1 hx2
        dsimp only at hx1 hx2 ⊢
        rw [PUT_mem_ne _ _ (by omega), PUT_mem_ne _ _ (by omega)]
  | false =>
    rw [bit_free hpa] at Hpf Hph'
    simp only [Nat.add_zero] at Hpf Hph'
    have em : mergePrev (pre' ++ [pb]) = (pre', pb.size) := by
      rw [mergePrev_concat]; simp [hpa]
    rw [em]; simp only []
    rcases hnext with ⟨ns, nsm, nsle, Hnh, emn, hhd⟩ | ⟨nb, rest, rfl, hna, nb16, nbm, Hnh, Hnf⟩
    · -- case 3
      have hex := @coalesce_case3 h p s pb.size ns sm pbm nsm
        pb8 s8 (by omega) (by omega) Hpf Hph' Hh Hnh
      rw [emn]
      refine ⟨_, [(p - pb.size - 4, s + pb.size), (p + s - 8, s + pb.size)], hex, by omega,
        rfl, ?_, ?_⟩
      · intro w hw
        simp only [List.mem_cons, List.mem_singleton, List.not_mem_nil, or_false] at hw
        rcases hw with rfl | rfl
        · exact ⟨Or.inl rfl, by simp only []; omega⟩
        · exact ⟨Or.inr rfl, by simp only []; omega⟩
      · intro x hx1 hx2
        dsimp only at hx1 hx2 ⊢
        rw [PUT_mem_ne _ _ (by omega), PUT_mem_ne _ _ (by omega)]
    · -- case 4
      simp only [total_cons] at hfin
      have hex := @coalesce_case4 h p s pb.size nb.size sm pbm
        nbm pb8 s8 (by omega) (by omega) (by omega) Hpf Hph' Hh Hnh Hnf
      have emn : mergeNext (nb :: rest) = (rest, nb.size) := by simp [mergeNext, hna]
      rw [emn]
      refine ⟨_, [(p + s + nb.size - 8, s + (pb.size + nb.size)),
        (p - pb.size - 4, s + (pb.size + nb.size))], hex, by omega, rfl, ?_, ?_⟩
      · intro w hw
        simp only [List.mem_cons, List.mem_singleton, List.not_mem_nil, or_false] at hw
        rcases hw with rfl | rfl
        · exact ⟨Or.inr rfl, by simp only []; omega⟩
        · exact ⟨Or.inl rfl, by simp only []; omega⟩
      · intro x hx1 hx2
        dsimp only at hx1 hx2 ⊢
        rw [PUT_mem_ne _ _ (by omega), PUT_mem_ne _ _ (by omega)]

theorem markedFree_Tiled :
    Tiled markedFree ([⟨8, true⟩, ⟨24, true⟩] ++ ⟨16, false⟩ :: [⟨4056, false⟩]) := by
  constructor <;> decide

theorem extend_size_eq {words : Nat} (hnw : WSIZE * (words + words % 2) < WORD) :
    extend_size words = WSIZE * (words + words % 2) := by
  unfold extend_size mul32 add32
  unfold WSIZE WORD at *
  split_ifs <;> omega

/-- The explicit effect of a successful `extend_heap` on a well-formed heap whose last
block is `lb`. -/
theorem extend_heap_exec {h : Heap} {init : List Blk} {lb : Blk} {words : Nat}
    (hw : WF h (init ++ [lb])) (h8 : 8 ≤ extend_size words)
    (hok : h.mem_brk + extend_size words ≤ h.mem_max_addr) :
    ∃ h', extend_heap h words = (h', h.mem_brk - (if lb.alloc then 0 else lb.size)) ∧
      h'.mem_brk = h.mem_brk + extend_size words ∧
      h'.mem (h.mem_brk + extend_size words - 4) = 1 ∧
      h'.mem (h.mem_brk - (if lb.alloc then 0 else lb.size) - 4)
        = extend_size words + (if lb.alloc then 0 else lb.size) ∧
      h'.mem (h.mem_brk + extend_size words - 8)
        = extend_size words + (if lb.alloc then 0 else lb.size) ∧
      h'.mem (h.mem_brk - 4) = extend_size words ∧
      (∀ x, x + 4 < h.mem_brk → x ≠ h.mem_brk - (if lb.alloc then 0 else lb.size) - 4 →
        h'.mem x = h.mem x) ∧
      h'.mem_start_brk = h.mem_start_brk ∧ h'.mem_max_addr = h.mem_max_addr ∧
      h'.heap_listp = h.heap_listp ∧
      h'.last_malloc_call = h.mem_brk - (if lb.alloc then 0 else lb.size) ∧
      (if lb.alloc then 0 else lb.size) + 16 ≤ h.mem_brk ∧
      (if lb.alloc then 0 else lb.size) % 8 = 0 ∧
      h.mem_brk + extend_size words < 4294967296 ∧ h.mem_brk % 8 = 0 := by
  obtain ⟨a8, a16, t8, tge, hfin, hbrk, hmax, b8, hlp⟩ := hw.bounds
  have hm8 := extend_size_mod words
  have hex := @extend_heap_ok h words hok hmax h8 (by omega) b8
  obtain ⟨E, hE⟩ : ∃ E, E = extend_size words := ⟨_, rfl⟩
  rw [← hE] at h8 hok hm8 hex ⊢
  have hlb := hw.pos lb (by simp)
  have hinit : ∀ b ∈ init, 8 ≤ b.size ∧ b.size % 8 = 0 := fun b hb => hw.pos b (by simp [hb])
  have ti8 := total_mod hinit
  have Hph := Hdrs_at hw.hdrs
  have Hpf := Ftrs_at hw.ftrs
  rw [lb.tag_eq hlb.2] at Hph Hpf
  simp only [total_append, total_cons, total_nil] at hfin
  have Hph' : h.mem (h.mem_brk - lb.size - 4) = lb.size + lb.bit := mem_congr Hph (by omega)
  have Hpf' : h.mem (h.mem_brk - 8) = lb.size + lb.bit := mem_congr Hpf (by omega)
  rw [hex]
  cases hpa : lb.alloc with
  | true =>
    rw [bit_alloc hpa] at Hph' Hpf'
    simp only [if_true, Nat.sub_zero, Nat.add_zero]
    have hc := @coalesce_case1 (PUT (PUT (PUT { h with mem_brk := h.mem_brk + E }
        (h.mem_brk - 4) E) (h.mem_brk + E - 8) E) (h.mem_brk + E - 4) 1) h.mem_brk E lb.size 0
      hm8 hlb.2 rfl hlb.1 (by omega) (by omega)
      (by rw [PUT_mem_ne _ _ (by omega), PUT_mem_ne _ _ (by omega),
            PUT_mem_ne _ _ (by omega)]; exact Hpf')
      (by rw [PUT_mem_ne _ _ (by omega), PUT_mem_ne _ _ (by omega),
            PUT_mem_ne _ _ (by omega)]; exact Hph')
      (by rw [PUT_mem_ne _ _ (by omega), PUT_mem_ne _ _ (by omega), PUT_mem_eq])
      (by rw [PUT_mem_eq])
    rw [hc]
    refine ⟨_, rfl, rfl, ?_, ?_, ?_, ?_, ?_, rfl, rfl, rfl, rfl, by omega, trivial, by omega, b8⟩
    · dsimp only
      rw [PUT_mem_eq]
    · dsimp only
      rw [PUT_mem_ne _ _ (by omega), PUT_mem_ne _ _ (by omega), PUT_mem_eq]
    · dsimp only
      rw [PUT_mem_ne _ _ (by omega), PUT_mem_eq]
    · dsimp only
      rw [PUT_mem_ne _ _ (by omega), PUT_mem_ne _ _ (by omega), PUT_mem_eq]
    · intro x hx1 hx2
      dsimp only
      rw [PUT_mem_ne _ _ (by omega), PUT_mem_ne _ _ (by omega), PUT_mem_ne _ _ (by omega)]
  | false =>
    rw [bit_free hpa] at Hph' Hpf'
    simp only [Nat.add_zero] at Hph' Hpf'
    simp only [Bool.false_eq_true, if_false]
    have hc := @coalesce_case3 (PUT (PUT (PUT { h with mem_brk := h.mem_brk + E }
        (h.mem_brk - 4) E) (h.mem_brk + E - 8) E) (h.mem_brk + E - 4) 1) h.mem_brk E lb.size 0
      hm8 hlb.2 rfl hlb.1 h8 (by omega) (by omega)
      (by rw [PUT_mem_ne _ _ (by omega), PUT_mem_ne _ _ (by omega),
            PUT_mem_ne _ _ (by omega)]; exact Hpf')
      (by rw [PUT_mem_ne _ _ (by omega), PUT_mem_ne _ _ (by omega),
            PUT_mem_ne _ _ (by omega)]; exact Hph')
      (by rw [PUT_mem_ne _ _ (by omega), PUT_mem_ne _ _ (by omega), PUT_mem_eq])
      (by rw [PUT_mem_eq])
    rw [hc]
    refine ⟨_, rfl, rfl, ?_, ?_, ?_, ?_, ?_, rfl, rfl, rfl, rfl, by omega, hlb.2, by omega, b8⟩
    · dsimp only
      rw [PUT_mem_ne _ _ (by omega), PUT_mem_ne _ _ (by omega), PUT_mem_eq]
    · dsimp only
      rw [PUT_mem_eq]
    · dsimp only
      rw [PUT_mem_ne _ _ (by omega), PUT_mem_eq]
    · dsimp only
      rw [PUT_mem_ne _ _ (by omega), PUT_mem_ne _ _ (by omega), PUT_mem_ne _ _ (by omega),
        PUT_mem_ne _ _ (by omega), PUT_mem_eq]
    · intro x hx1 hx2
      dsimp only
      rw [PUT_mem_ne _ _ (by omega), PUT_mem_ne _ _ (by omega), PUT_mem_ne _ _ (by omega),
        PUT_mem_ne _ _ (by omega), PUT_mem_ne _ _ (by omega)]

/-- The padding word survives the first `extend_heap` of `mm_init`. -/
theorem init_pad {h0 X : Heap} {r : Heap × Nat} (hf : Fresh h0)
    (hcap : h0.mem_start_brk + 16 + 4096 ≤ h0.mem_max_addr)
    (hX : extend_heap X (CHUNKSIZE / WSIZE) = r)
    (x0 : X.mem h0.mem_start_brk = 0)
    (x1 : X.mem (h0.mem_start_brk + 4) = 9) (x2 : X.mem (h0.mem_start_brk + 8) = 9)
    (x3 : X.mem (h0.mem_start_brk + 12) = 1) (x4 : X.heap_listp = h0.mem_start_brk + 8)
    (x5 : X.mem_brk = h0.mem_start_brk + 16) (x6 : X.last_malloc_call = h0.mem_start_brk + 8)
    (x7 : X.mem_start_brk = h0.mem_start_brk) (x8 : X.mem_max_addr = h0.mem_max_addr) :
    ∃ h1 q, r = (h1, q) ∧ h1.mem h0.mem_start_brk = 0 := by
  have hlo := hf.lo_pos
  have hal := hf.lo_al
  have hmax := hf.max_lt
  have hwI : WF X ([] ++ [⟨8, true⟩]) := by
    refine ⟨by rw [x7]; exact hlo, by rw [x7]; exact hal, by rw [x4, x7], by rw [x8]; exact hmax,
      by rw [x5, x8]; omega, rfl, ?_, ?_, ?_, ?_, ?_, ?_, ?_, ?_⟩
    · intro b hb
      simp only [List.nil_append, List.mem_singleton] at hb
      subst hb
      exact ⟨by simp, rfl⟩
    · intro b hb
      simp at hb
    · simp only [List.nil_append, Hdrs, and_true]
      rw [tag_alloc 8 rfl, x4]
      exact mem_congr x1 (by omega)
    · simp only [List.nil_append, Ftrs, and_true]
      rw [tag_alloc 8 rfl, x4]
      exact mem_congr x2 (by omega)
    · rw [x5]
      exact mem_congr x3 (by omega)
    · rw [x4, x5]
      simp only [List.nil_append, total_cons, total_nil]
    · unfold NoAdjFree
      exact List.chain'_singleton _
    · rw [x6, x4]
      simp [starts]
  have hes : extend_size (CHUNKSIZE / WSIZE) = 4096 := by decide
  obtain ⟨h1, hex, -, -, -, -, -, hfr, -⟩ := @extend_heap_exec X [] ⟨8, true⟩
    (CHUNKSIZE / WSIZE) hwI (by rw [hes]; omega) (by rw [hes, x5, x8]; omega)
  rw [hX] at hex
  refine ⟨h1, _, hex, ?_⟩
  rw [hfr _ (by omega) (by simp only [if_true]; omega)]
  exact x0

/-- `mm_init` on a fresh region with room for the first chunk leaves zero in the padding
word at the start of the region. -/
theorem mm_init_pad {h0 : Heap} (hf : Fresh h0)
    (hcap : h0.mem_start_brk + 16 + 4096 ≤ h0.mem_max_addr) :
    ∃ h1 r, mm_init h0 = (h1, r) ∧ h1.mem h0.mem_start_brk = 0 := by
  have hlo := hf.lo_pos
  have hal := hf.lo_al
  have hmax := hf.max_lt
  have hbrk := hf.brk
  unfold WORD at hmax
  have e1 : mem_sbrk h0 (4 * WSIZE) =
      ({ h0 with mem_brk := h0.mem_brk + 4 * WSIZE }, h0.mem_brk) := by
    unfold mem_sbrk
    have : h0.mem_brk + 4 * WSIZE ≤ h0.mem_max_addr := by unfold WSIZE; omega
    simp only [this, if_true]
  have a1 : add32 h0.mem_brk WSIZE = h0.mem_start_brk + 4 := by
    unfold WSIZE; rw [add32_eq (by unfold WORD; omega)]; omega
  have a2 : add32 h0.mem_brk DSIZE = h0.mem_start_brk + 8 := by
    unfold DSIZE; rw [add32_eq (by unfold WORD; omega)]; omega
  have a3 : add32 (h0.mem_start_brk + 4) DSIZE = h0.mem_start_brk + 12 := by
    unfold DSIZE; rw [add32_eq (by unfold WORD; omega)]
  have c1 : ¬ (h0.mem_brk = 0) := by omega
  have p9 : PACK OVERHEAD 1 = 9 := by decide
  have p1 : PACK 0 1 = 1 := by decide
  unfold mm_init
  rw [e1]
  simp only [c1, if_false, PUT_listp, a1, a2, a3, p9, p1]
  generalize hX : extend_heap _ _ = r
  have key := init_pad hf hcap hX
  obtain ⟨h1, q, hr, hpad⟩ := key
    (by dsimp only; rw [PUT_mem_ne _ _ (by omega), PUT_mem_ne _ _ (by omega),
          PUT_mem_ne _ _ (by omega), PUT_mem_eq' _ _ (by omega)])
    (by dsimp only; rw [PUT_mem_ne _ _ (by omega), PUT_mem_ne _ _ (by omega), PUT_mem_eq])
    (by dsimp only; rw [PUT_mem_ne _ _ (by omega), PUT_mem_eq])
    (by dsimp only; rw [PUT_mem_eq])
    rfl (by show h0.mem_brk + 4 * WSIZE = _; unfold WSIZE; omega) rfl rfl rfl
  rw [hr]
  by_cases hq : q = 0
  · simp only [hq, if_true]
    exact ⟨h1, _, rfl, hpad⟩
  · simp only [hq, if_false]
    exact ⟨h1, _, rfl, hpad⟩

theorem chainFrom_cases {h : Heap} {f bp : Nat} {l : List Nat}
    (hc : chainFrom h (f + 1) bp = some l) :
    (GET_SIZE h (HDRP bp) > 0 ∧
      ∃ l0, l = bp :: l0 ∧ chainFrom h f (NEXT_BLKP h bp) = some l0) ∨
    (¬ GET_SIZE h (HDRP bp) > 0 ∧ l = []) := by
  rw [chainFrom] at hc
  split_ifs at hc with hs
  · left
    cases hcf : chainFrom h f (NEXT_BLKP h bp) with
    | none => rw [hcf] at hc; simp at hc
    | some l0 =>
      rw [hcf] at hc
      simp only [Option.map_some', Option.some.injEq] at hc
      exact ⟨hs, l0, hc.symm, rfl⟩
  · right
    simp only [Option.some.injEq] at hc
    exact ⟨hs, hc.symm⟩

/-- The chain from a block does not depend on the fuel. -/
theorem chainFrom_det (h : Heap) : ∀ (f1 f2 bp : Nat) (l1 l2 : List Nat),
    chainFrom h f1 bp = some l1 → chainFrom h f2 bp = some l2 → l1 = l2 := by
  intro f1
  induction f1 with
  | zero => intro f2 bp l1 l2 h1; simp [chainFrom] at h1
  | succ f1 ih =>
    intro f2 bp l1 l2 h1 h2
    cases f2 with
    | zero => simp [chainFrom] at h2
    | succ f2 =>
      rcases chainFrom_cases h1 with ⟨hs1, a1, rfl, c1⟩ | ⟨hs1, rfl⟩
      · rcases chainFrom_cases h2 with ⟨hs2, a2, rfl, c2⟩ | ⟨hs2, rfl⟩
        · rw [ih f2 _ a1 a2 c1 c2]
        · exact absurd hs1 hs2
      · rcases chainFrom_cases h2 with ⟨hs2, a2, rfl, c2⟩ | ⟨hs2, rfl⟩
        · exact absurd hs2 hs1
        · rfl

/-- Every block on a chain starts a chain that is not longer. -/
theorem chainFrom_from (h : Heap) : ∀ (f bp : Nat) (l : List Nat),
    chainFrom h f bp = some l →
    ∀ x ∈ l, ∃ f1 l1, chainFrom h f1 x = some l1 ∧ l1.length ≤ l.length := by
  intro f
  induction f with
  | zero => intro bp l h1; simp [chainFrom] at h1
  | succ f ih =>
    intro bp l h1 x hx
    rcases chainFrom_cases h1 with ⟨hs1, l0, rfl, c1⟩ | ⟨hs1, rfl⟩
    · rcases List.mem_cons.1 hx with rfl | hx0
      · exact ⟨f + 1, _, h1, Nat.le_refl _⟩
      · obtain ⟨f1, l1, e1, e2⟩ := ih _ l0 c1 x hx0
        exact ⟨f1, l1, e1, by simp only [List.length_cons]; omega⟩
    · simp at hx

/-- A chain that reaches a header of size 0 visits no block twice: its first block does
not occur again. -/
theorem chainFrom_head_notin {h : Heap} {f bp : Nat} {l0 : List Nat}
    (hc : chainFrom h f bp = some (bp :: l0)) : bp ∉ l0 := by
  intro hmem
  cases f with
  | zero => simp [chainFrom] at hc
  | succ f =>
    rcases chainFrom_cases hc with ⟨hs1, l1, e, c1⟩ | ⟨hs1, e⟩
    · injection e with e1 e2
      subst e2
      obtain ⟨f1, l2, e3, e4⟩ := chainFrom_from h f _ l0 c1 bp hmem
      have := chainFrom_det h _ _ _ _ _ e3 hc
      subst this
      simp only [List.length_cons] at e4
      omega
    · simp at e

/-- The loop of `mm_check` from a block other than the first one: it returns 1 when the
tests of `okFrom` hold on the rest of the chain, and 0 otherwise. -/
theorem mm_check_loop_ok (h : Heap) : ∀ (f bp curr : Nat) (l : List Nat),
    chainFrom h f bp = some l → (∀ x ∈ l, x ≠ h.heap_listp) →
    (okFrom h curr l → mm_check_loop h f bp curr = some 1) ∧
    (¬ okFrom h curr l → mm_check_loop h f bp curr = some 0) := by
  intro f
  induction f with
  | zero => intro bp curr l h1; simp [chainFrom] at h1
  | succ f ih =>
    intro bp curr l h1 hne
    rcases chainFrom_cases h1 with ⟨hs1, l0, rfl, c1⟩ | ⟨hs1, rfl⟩
    · have hbp : bp ≠ h.heap_listp := hne bp (List.mem_cons_self _ _)
      have ih' := ih (NEXT_BLKP h bp) (GET_ALLOC h (HDRP bp)) l0 c1
        (fun x hx => hne x (List.mem_cons_of_mem _ hx))
      rw [mm_check_loop]
      simp only [hs1, if_true, hbp, ne_eq, not_false_eq_true, true_and, okFrom, DSIZE]
      by_cases hadj : GET_ALLOC h (HDRP bp) = 0 ∧ curr = 0
      · simp only [hadj, and_self, if_true, not_true_eq_false, false_and, false_implies,
          not_false_eq_true, true_implies, true_and]
      · by_cases hb : mem_heap_lo h ≤ bp ∧ bp ≤ mem_heap_hi h
        · have hb' : ¬ (bp > mem_heap_hi h ∨ bp < mem_heap_lo h) := by omega
          by_cases hsz : GET_SIZE h (HDRP bp) % 8 = 0
          · simp only [hadj, hb', hsz, hb, if_false, not_false_eq_true, true_and, and_self,
              not_true_eq_false]
            exact ih'
          · simp only [hadj, hb', hsz, hb, if_false, not_false_eq_true, true_and, and_self,
              if_true, false_and, and_false, false_implies, true_implies]
        · have hb' : bp > mem_heap_hi h ∨ bp < mem_heap_lo h := by omega
          simp only [hadj, hb', hb, if_false, if_true, not_false_eq_true, true_and, false_and,
            and_false, false_implies, true_implies]
    · rw [mm_check_loop]
      simp only [hs1, if_false, okFrom, true_implies, not_true_eq_false, false_implies,
        and_self]

/-- The conditions of the specification on a non-empty chain, unfolded by one block. -/
theorem Healthy_cons (h : Heap) : ∀ (l : List Nat) (x : Nat),
    Healthy h (x :: l) ↔ ((mem_heap_lo h ≤ x ∧ x ≤ mem_heap_hi h) ∧
      GET_SIZE h (HDRP x) % 8 = 0 ∧ okFrom h (GET_ALLOC h (HDRP x)) l) := by
  intro l
  induction l with
  | nil =>
    intro x
    simp [Healthy, okFrom]
  | cons y l ih =>
    intro x
    have hy := ih y
    unfold Healthy at hy ⊢
    simp only [okFrom, List.chain'_cons, List.mem_cons, forall_eq_or_imp]
    simp only [List.mem_cons, forall_eq_or_imp] at hy
    constructor
    · rintro ⟨⟨h1, h2⟩, ⟨h3, h4, h5⟩, h6, h7, h8⟩
      have := hy.1 ⟨h2, ⟨h4, h5⟩, h7, h8⟩
      refine ⟨h3, h6, ?_, h4, h7, this.2.2⟩
      rintro ⟨e1, e2⟩
      rcases h1 with h1 | h1
      · exact h1 e2
      · exact h1 e1
    · rintro ⟨h3, h6, hn, h4, h7, h9⟩
      have := hy.2 ⟨h4, h7, h9⟩
      refine ⟨⟨?_, this.1⟩, ⟨h3, h4, this.2.1.2⟩, h6, h7, this.2.2.2⟩
      by_cases e2 : GET_ALLOC h (HDRP x) = 0
      · right
        intro e1
        exact hn ⟨e1, e2⟩
      · exact Or.inl e2

/-! ## The claims -/

/-- C1 (live blocks stay allocated and disjoint): the code breaks the claim.  After
`mm_init`, `p = mm_malloc(40)` (80) and `q = mm_malloc(8)` (128) the heap is well formed;
`mm_realloc(p, 8)` shrinks the block in place and returns `p`, whose header is still
allocated; after `mm_free(q)` the header of the live pointer `p` is marked free. -/
theorem live_block_marked_free :
    ptrOf (mm_malloc 8 initHeap 40) = some 80 ∧
    ptrOf (mm_malloc 8 (heapOr initHeap (mm_malloc 8 initHeap 40)) 8) = some 128 ∧
    WF twoBlocks [⟨8, true⟩, ⟨48, true⟩, ⟨16, true⟩, ⟨4032, false⟩] ∧
    ptrOf (mm_realloc 8 twoBlocks 80 8) = some 80 ∧
    GET_ALLOC shrunk (HDRP 80) = 1 ∧
    GET shrunk (HDRP 80) ≠ GET shrunk (FTRP shrunk 80) ∧
    GET_ALLOC (mm_free shrunk 128) (HDRP 80) = 0 := by
  refine ⟨by decide, by decide, ?_, by decide, by decide, by decide, by decide⟩
  constructor <;> first | decide | simp [NoAdjFree]

/-- C2 (tag consistency under allocate and release): the code breaks the claim.  On the
well-formed heap that `mm_init` leaves, `mm_malloc(4294967288)` computes the adjusted
size 0, returns 80 and leaves the prologue with header 9 and footer 1. -/
theorem malloc_overflow_breaks_footer :
    WF initHeap [⟨8, true⟩, ⟨4096, false⟩] ∧
    adjust 4294967288 = 0 ∧
    ptrOf (mm_malloc 8 initHeap 4294967288) = some 80 ∧
    (heapOr initHeap (mm_malloc 8 initHeap 4294967288)).heap_listp = 72 ∧
    GET (heapOr initHeap (mm_malloc 8 initHeap 4294967288)) (HDRP 72) = 9 ∧
    GET (heapOr initHeap (mm_malloc 8 initHeap 4294967288))
      (FTRP (heapOr initHeap (mm_malloc 8 initHeap 4294967288)) 72) = 1 := by
  refine ⟨?_, by decide, by decide, by decide, by decide, by decide⟩
  constructor <;> first | decide | simp [NoAdjFree]

/-- C3 (no adjacent free blocks): the code breaks the claim.  On a well-formed heap
whose block at 80 is free and whose blocks at 96 and 112 are allocated,
`mm_realloc(96, 4294967288)` computes the needed size 0, returns 96 and leaves the
consecutive blocks at 80 and 96 both with a free header. -/
theorem realloc_overflow_adjacent_free :
    ptrOf (mm_malloc 8 (heapOr initHeap (mm_malloc 8 initHeap 8)) 8) = some 96 ∧
    WF holeHeap [⟨8, true⟩, ⟨16, false⟩, ⟨16, true⟩, ⟨16, true⟩, ⟨4048, false⟩] ∧
    needed 4294967288 = 0 ∧
    ptrOf (mm_realloc 8 holeHeap 96 4294967288) = some 96 ∧
    GET_ALLOC (heapOr holeHeap (mm_realloc 8 holeHeap 96 4294967288)) (HDRP 80) = 0 ∧
    NEXT_BLKP (heapOr holeHeap (mm_realloc 8 holeHeap 96 4294967288)) 80 = 96 ∧
    GET_ALLOC (heapOr holeHeap (mm_realloc 8 holeHeap 96 4294967288)) (HDRP 96) = 0 := by
  refine ⟨by decide, ?_, by decide, by decide, by decide, by decide, by decide⟩
  constructor <;> first | decide | simp [NoAdjFree]

/-- C5 (containment over the full range of `size_t`): the code breaks the claim.  On
the well-formed heap that `mm_init` leaves, `mm_malloc(4294967288)` returns the non-NULL
pointer 80, but the block at 80 is marked free and the request is larger than the whole
heap. -/
theorem malloc_overflow_returns_free_block :
    WF initHeap [⟨8, true⟩, ⟨4096, false⟩] ∧
    ptrOf (mm_malloc 8 initHeap 4294967288) = some 80 ∧
    GET_ALLOC (heapOr initHeap (mm_malloc 8 initHeap 4294967288)) (HDRP 80) = 0 ∧
    GET_SIZE (heapOr initHeap (mm_malloc 8 initHeap 4294967288)) (HDRP 80) - OVERHEAD
      < 4294967288 := by
  refine ⟨?_, by decide, by decide, by decide⟩
  constructor <;> first | decide | simp [NoAdjFree]

/-- C7 (data preservation on resize): the code breaks the claim.  On the well-formed
heap with one allocated block of 24 bytes at 80, `mm_realloc(80, 4294967295)` computes
the aligned size 0, returns 80 and overwrites the first payload byte, which was 0,
with 9. -/
theorem realloc_overflow_clobbers_payload :
    ptrOf (mm_malloc 8 initHeap 16) = some 80 ∧
    WF oneBlock [⟨8, true⟩, ⟨24, true⟩, ⟨4072, false⟩] ∧
    ALIGN 4294967295 = 0 ∧
    ptrOf (mm_realloc 8 oneBlock 80 4294967295) = some 80 ∧
    byteAt oneBlock 80 0 = 0 ∧
    byteAt (heapOr oneBlock (mm_realloc 8 oneBlock 80 4294967295)) 80 0 = 9 := by
  refine ⟨by decide, ?_, by decide, by decide, by decide, by decide⟩
  constructor <;> first | decide | simp [NoAdjFree]

/-- C8 (failed relocation leaves the original intact): the code breaks the claim.  On a
well-formed heap that cannot grow, with an allocated block of 24 bytes at 80,
`mm_realloc(80, 8000)` relocates, its inner `mm_malloc(8000)` returns NULL and
`mm_realloc` returns NULL, but the header of the block at 80, which was 25, is now the
free tag 4096. -/
theorem failed_realloc_frees_block :
    ptrOf (mm_malloc 8 smallHeap 16) = some 80 ∧
    WF fullHeap [⟨8, true⟩, ⟨24, true⟩, ⟨4072, false⟩] ∧
    ptrOf (mm_malloc 8 fullHeap 8000) = some 0 ∧
    ptrOf (mm_realloc 8 fullHeap 80 8000) = some 0 ∧
    GET fullHeap (HDRP 80) = 25 ∧
    GET (heapOr fullHeap (mm_realloc 8 fullHeap 80 8000)) (HDRP 80) = 4096 ∧
    GET_ALLOC (heapOr fullHeap (mm_realloc 8 fullHeap 80 8000)) (HDRP 80) = 0 := by
  refine ⟨by decide, ?_, by decide, by decide, by decide, by decide, by decide⟩
  constructor <;> first | decide | simp [NoAdjFree]

/-- C9 (`mm_malloc` fails exactly on a zero size or growth exhaustion): on a
well-formed heap whose chain is `cpre ++ csuf` with the cursor at the first block of
`csuf`, `mm_malloc(size)` returns, and it returns NULL if and only if `size` is 0 or no
block of `csuf` is free with at least the adjusted size and `mem_sbrk` fails for
`MAX(adjusted size, CHUNKSIZE)` bytes; when it returns NULL the memory, the list of
writes and the break are unchanged and the cursor is unchanged or `heap_listp`. -/
theorem malloc_null_iff {h : Heap} {bs cpre csuf : List Blk} {size fuel : Nat}
    (hw : WF h bs) (hsplit : bs = cpre ++ csuf)
    (hcur : h.last_malloc_call = h.heap_listp + total cpre) (hfuel : bs.length < fuel) :
    ∃ h' p, mm_malloc fuel h size = some (h', p) ∧
      (p = 0 ↔ size = 0 ∨ ((∀ b ∈ csuf, ¬ (b.alloc = false ∧ adjust size ≤ b.size)) ∧
        (mem_sbrk h (MAX (adjust size) CHUNKSIZE)).2 = WORD - 1)) ∧
      (p = 0 → h'.mem = h.mem ∧ h'.writes = h.writes ∧ h'.mem_brk = h.mem_brk ∧
        h'.heap_listp = h.heap_listp ∧
        (h'.last_malloc_call = h.last_malloc_call ∨ h'.last_malloc_call = h.heap_listp)) := by
  obtain ⟨a8, a16, t8, tge, hfin, hbrk, hmax, b8, hlp⟩ := hw.bounds
  have hsb := mem_sbrk_fails_iff hw (MAX (adjust size) CHUNKSIZE)
  by_cases hs0 : size = 0
  · subst hs0
    refine ⟨h, 0, by simp [mm_malloc], by simp, fun _ => ⟨rfl, rfl, rfl, rfl, Or.inl rfl⟩⟩
  have hpos : 0 < size := by omega
  rcases mm_malloc_cases hw hsplit hcur hpos hfuel with
    ⟨xs, c, ys, hcs, hc, hno, hex⟩ | ⟨hno, hfail, hex⟩ | ⟨hno, hok, h2, -, -, -, -, -, -, -, -, hex⟩
  · refine ⟨_, _, hex, ?_, ?_⟩
    · constructor
      · intro e; omega
      · rintro (e | ⟨hn, -⟩)
        · exact absurd e hs0
        · exact absurd ⟨rfl, hc⟩ (hn ⟨c, false⟩ (by rw [hcs]; simp))
    · intro e; omega
  · refine ⟨_, _, hex, ?_, ?_⟩
    · constructor
      · intro _
        exact Or.inr ⟨hno, hsb.2 hfail⟩
      · intro _; rfl
    · intro _
      exact ⟨rfl, rfl, rfl, rfl, Or.inr rfl⟩
  · refine ⟨_, _, hex, ?_, ?_⟩
    · constructor
      · intro e; omega
      · rintro (e | ⟨-, hf⟩)
        · exact absurd e hs0
        · have := hsb.1 hf
          omega
    · intro e; omega

theorem malloc_null_iff_witness :
    ∃ h' p, mm_malloc 4 smallHeap 8000 = some (h', p) ∧
      (p = 0 ↔ 8000 = 0 ∨ ((∀ b ∈ [(⟨4096, false⟩ : Blk)],
          ¬ (b.alloc = false ∧ adjust 8000 ≤ b.size)) ∧
        (mem_sbrk smallHeap (MAX (adjust 8000) CHUNKSIZE)).2 = WORD - 1)) ∧
      (p = 0 → h'.mem = smallHeap.mem ∧ h'.writes = smallHeap.writes ∧
        h'.mem_brk = smallHeap.mem_brk ∧ h'.heap_listp = smallHeap.heap_listp ∧
        (h'.last_malloc_call = smallHeap.last_malloc_call ∨
          h'.last_malloc_call = smallHeap.heap_listp)) :=
  @malloc_null_iff _ _ [⟨8, true⟩] _ _ _ smallHeap_WF rfl (by decide) (by decide)

/-- C10 (release then allocate reuses the released block): on a well-formed heap, for a
live pointer `p` whose preceding block is allocated and a request `n > 0` whose adjusted
size is at most the size of the block of `p`, `mm_free(p)` followed by `mm_malloc(n)`
returns `p`. -/
theorem free_then_malloc_reuses {h : Heap} {bs pre : List Blk} {b : Blk} {post : List Blk}
    {p n fuel : Nat} (hw : WF h bs) (hl : Live h bs pre b post p)
    (hprev : ∀ pb ∈ pre.getLast?, pb.alloc = true) (hn : 0 < n) (hle : adjust n ≤ b.size)
    (hfuel : bs.length < fuel) : ∃ h', mm_malloc fuel (mm_free h p) n = some (h', p) := by
  have key := mm_free_WF hw hl
  obtain ⟨e, hne, hp, hba⟩ := hl
  have hmp := mergePrev_of_alloc hprev
  unfold coalesced at key
  rw [hmp] at key
  simp only [Nat.zero_add] at key
  generalize mm_free h p = hf at key ⊢
  obtain ⟨hwf, hcur, ⟨s1, s2, s3, s4⟩, -⟩ := key
  have hlen : (pre ++ ⟨b.size + (mergeNext post).2, false⟩ :: (mergeNext post).1).length
      < fuel := by
    have := mergeNext_length post
    rw [e] at hfuel
    simp only [List.length_append, List.length_cons] at hfuel ⊢
    omega
  rw [← s4] at hcur
  have hfit : adjust n ≤ b.size + (mergeNext post).2 := by omega
  rcases mm_malloc_cases hwf rfl hcur hn hlen with
    ⟨xs, c, ys, hsplit, -, hno, hex⟩ | ⟨hno, -, -⟩ | ⟨hno, -, -⟩
  · cases xs with
    | nil =>
      have ep : hf.heap_listp + total (pre ++ []) = p := by
        rw [List.append_nil, s4, ← hp]
      rw [ep] at hex
      exact ⟨_, hex⟩
    | cons x xs' =>
      injection hsplit with h1 h2
      have hx := hno x (by simp)
      rw [← h1] at hx
      exact absurd ⟨rfl, hfit⟩ hx
  · exact absurd ⟨rfl, hfit⟩ (hno ⟨b.size + (mergeNext post).2, false⟩ (List.mem_cons_self _ _))
  · exact absurd ⟨rfl, hfit⟩ (hno ⟨b.size + (mergeNext post).2, false⟩ (List.mem_cons_self _ _))

theorem free_then_malloc_reuses_witness :
    ∃ h', mm_malloc 8 (mm_free mainHeap 80) 8 = some (h', 80) :=
  free_then_malloc_reuses mainHeap_WF mainHeap_Live (by decide) (by decide) (by decide)
    (by decide)

/-- C11 (no-op resize): on a well-formed heap, for a live pointer `p` of a block of size
`old`, `mm_realloc(p, size)` with `size > 0` and `ALIGN(size) + OVERHEAD == old` returns
`p` and the same heap (every byte and the cursor unchanged); `size = old - 8`, the usable
size of the block, is such a size. -/
theorem realloc_same_size_noop {h : Heap} {bs pre : List Blk} {b : Blk} {post : List Blk}
    {p size fuel : Nat} (hw : WF h bs) (hl : Live h bs pre b post p) (hs0 : 0 < size)
    (hn : needed size = b.size) :
    mm_realloc fuel h p size = some (h, p) ∧
    mm_realloc fuel h p (b.size - 8) = some (h, p) := by
  obtain ⟨e, hne, hp, hba⟩ := hl
  have ht := hw.toTiled
  rw [e] at ht
  obtain ⟨Hh, Hf, a8, a16, tp8, tp, c16, cm, tq8, hfin, hlt⟩ := ht.block hne
  rw [bit_alloc hba] at Hh
  rw [← hp] at Hh hfin
  exact ⟨realloc_same (by omega) hs0 (by omega) cm Hh hn,
    realloc_same (by omega) (by omega) (by omega) cm Hh
      (needed_of_payload c16 cm (by omega))⟩

theorem realloc_same_size_noop_witness :
    mm_realloc 8 mainHeap 104 8 = some (mainHeap, 104) ∧
    mm_realloc 8 mainHeap 104 (16 - 8) = some (mainHeap, 104) :=
  @realloc_same_size_noop mainHeap [⟨8, true⟩, ⟨24, true⟩, ⟨16, true⟩, ⟨4056, false⟩]
    [⟨8, true⟩, ⟨24, true⟩] ⟨16, true⟩ [⟨4056, false⟩] 104 8 8 mainHeap_WF
    ⟨rfl, by decide, by decide, rfl⟩ (by decide) (by decide)

/-- C12 (checker correctness, amended): on a heap whose chain `bps` from `heap_listp`
reaches a header of size 0 within the fuel, and on which the word at `heap_listp` (the
footer of a prologue of size 8, from which `mm_check` takes its first
`curr_block_alloc`) has the allocated bit of the header of the first block, `mm_check`
returns 1 when (a) no two consecutive blocks of the chain both have a free header,
(b) every payload pointer of the chain lies within `[mem_heap_lo, mem_heap_hi]` and
(c) every size is a multiple of 8, and returns 0 otherwise. -/
theorem mm_check_iff_healthy {h : Heap} {fuel : Nat} {bps : List Nat}
    (hc : chainFrom h fuel h.heap_listp = some bps)
    (hpro : GET_ALLOC h h.heap_listp = GET_ALLOC h (HDRP h.heap_listp)) :
    (Healthy h bps → mm_check fuel h = some 1) ∧
    (¬ Healthy h bps → mm_check fuel h = some 0) := by
  cases fuel with
  | zero => simp [chainFrom] at hc
  | succ f =>
    rcases chainFrom_cases hc with ⟨hs1, l0, rfl, c1⟩ | ⟨hs1, rfl⟩
    · have hnot := chainFrom_head_notin hc
      have key := mm_check_loop_ok h f (NEXT_BLKP h h.heap_listp)
        (GET_ALLOC h (HDRP h.heap_listp)) l0 c1
        (fun x hx e => hnot (by rw [← e]; exact hx))
      unfold mm_check
      rw [mm_check_loop, Healthy_cons, hpro]
      simp only [hs1, if_true, ne_eq, not_true_eq_false, false_and, if_false, DSIZE]
      by_cases hb : mem_heap_lo h ≤ h.heap_listp ∧ h.heap_listp ≤ mem_heap_hi h
      · have hb' : ¬ (h.heap_listp > mem_heap_hi h ∨ h.heap_listp < mem_heap_lo h) := by omega
        by_cases hsz : GET_SIZE h (HDRP h.heap_listp) % 8 = 0
        · simp only [hb', hsz, hb, if_false, not_false_eq_true, true_and, and_self,
            not_true_eq_false]
          exact key
        · simp only [hb', hsz, hb, if_false, not_false_eq_true, true_and, and_self,
            if_true, false_and, and_false, false_implies, true_implies]
      · have hb' : h.heap_listp > mem_heap_hi h ∨ h.heap_listp < mem_heap_lo h := by omega
        simp only [hb', hb, if_true, not_false_eq_true, false_and, false_implies,
          true_implies, and_self]
    · unfold mm_check
      rw [mm_check_loop]
      simp [hs1, Healthy]

theorem mm_check_iff_healthy_witness :
    mm_check 8 initHeap = some 1 ∧ mm_check 8 mainAfter = some 1 :=
  ⟨(@mm_check_iff_healthy initHeap 8 [72, 80] (by decide) (by decide)).1
      (by rw [Healthy_cons]; simp only [okFrom]; decide),
    (@mm_check_iff_healthy mainAfter 8 [72, 80, 104, 128] (by decide) (by decide)).1
      (by rw [Healthy_cons]; simp only [okFrom]; decide)⟩

/-- C12 (counterexamples to the claim as stated): `mm_check` takes the allocated bit of
the first block from the word at `heap_listp`, not from the header of that block, and it
compares only the payload pointer of a block with the bounds.  On `footerFree` the chain
`[72, 80]` reaches the epilogue and satisfies (a), (b) (every block lies within the
mapped range) and (c), yet `mm_check` returns 0; on `headerFree` the headers of the two
consecutive blocks 72 and 80 are both free, yet `mm_check` returns 1.  On `overrun` the
word at `heap_listp` agrees with the header of the first block and the block at 80 runs
from inside the mapped range, which ends at 4175, to its footer at 8264, yet `mm_check`
returns 1. -/
theorem mm_check_counterexamples :
    chainFrom footerFree 8 footerFree.heap_listp = some [72, 80] ∧
    Healthy footerFree [72, 80] ∧
    BlockWithin footerFree 72 ∧ BlockWithin footerFree 80 ∧
    mm_check 8 footerFree = some 0 ∧
    chainFrom headerFree 8 headerFree.heap_listp = some [72, 80] ∧
    GET_ALLOC headerFree (HDRP 72) = 0 ∧ GET_ALLOC headerFree (HDRP 80) = 0 ∧
    ¬ Healthy headerFree [72, 80] ∧ mm_check 8 headerFree = some 1 ∧
    chainFrom overrun 8 overrun.heap_listp = some [72, 80] ∧
    GET_ALLOC overrun overrun.heap_listp = GET_ALLOC overrun (HDRP overrun.heap_listp) ∧
    Healthy overrun [72, 80] ∧
    mem_heap_hi overrun = 4175 ∧ FTRP overrun 80 = 8264 ∧
    ¬ BlockWithin overrun 80 ∧ mm_check 8 overrun = some 1 := by
  refine ⟨by decide, ?_, ?_, ?_, by decide, by decide, by decide, by decide, ?_, by decide,
    by decide, by decide, ?_, by decide, by decide, ?_, by decide⟩
  · rw [Healthy_cons]; simp only [okFrom]; decide
  · unfold BlockWithin; decide
  · unfold BlockWithin; decide
  · rw [Healthy_cons]; simp only [okFrom]; decide
  · rw [Healthy_cons]; simp only [okFrom]; decide
  · unfold BlockWithin; decide

/-- C13 (bootstrap postcondition): on an empty region with room for both growth
requests, `mm_init` returns 0; the mapped range then starts with one padding word,
followed by the prologue block of size 8 marked allocated, one free block of size
`CHUNKSIZE` and the epilogue header `PACK(0, 1)` in the last word of the range, each block
with footer equal to header; `heap_listp` is the payload pointer of the prologue and the
search cursor is the payload pointer of the free block. -/
theorem mm_init_layout {h0 : Heap} (hf : Fresh h0)
    (hcap : h0.mem_start_brk + 16 + 4096 ≤ h0.mem_max_addr) :
    ∃ h1, mm_init h0 = (h1, 0) ∧
      mem_heap_lo h1 = h0.mem_start_brk ∧
      GET h1 (mem_heap_lo h1) = 0 ∧
      HDRP h1.heap_listp = mem_heap_lo h1 + 4 ∧
      h1.heap_listp = mem_heap_lo h1 + 8 ∧
      BlockAt h1 h1.heap_listp 8 1 ∧
      NEXT_BLKP h1 h1.heap_listp = mem_heap_lo h1 + 16 ∧
      BlockAt h1 (mem_heap_lo h1 + 16) CHUNKSIZE 0 ∧
      NEXT_BLKP h1 (mem_heap_lo h1 + 16) = h1.mem_brk ∧
      GET h1 (HDRP h1.mem_brk) = PACK 0 1 ∧
      HDRP h1.mem_brk + 3 = mem_heap_hi h1 ∧
      h1.mem_brk = mem_heap_lo h1 + 4 + 8 + CHUNKSIZE + 4 ∧
      h1.last_malloc_call = mem_heap_lo h1 + 16 ∧
      WF h1 [⟨8, true⟩, ⟨4096, false⟩] := by
  obtain ⟨h1, hex, hw, -, g1, g2, g3, g4⟩ := mm_init_spec hf hcap
  obtain ⟨h1', r, hex', hpad⟩ := mm_init_pad hf hcap
  rw [hex] at hex'
  injection hex' with e1 e2
  subst e1
  obtain ⟨a8, a16, t8, tge, hfin, hbrk, hmax, b8, hlp⟩ := hw.bounds
  have H1 := @Hdrs_at h1.mem h1.heap_listp [] ⟨8, true⟩ [⟨4096, false⟩] hw.hdrs
  have F1 := @Ftrs_at h1.mem h1.heap_listp [] ⟨8, true⟩ [⟨4096, false⟩] hw.ftrs
  have H2 := @Hdrs_at h1.mem h1.heap_listp [⟨8, true⟩] ⟨4096, false⟩ [] hw.hdrs
  have F2 := @Ftrs_at h1.mem h1.heap_listp [⟨8, true⟩] ⟨4096, false⟩ [] hw.ftrs
  have hepi := hw.epi
  rw [tag_alloc 8 rfl] at H1 F1
  rw [tag_free 4096 rfl] at H2 F2
  simp only [total_cons, total_nil, Nat.add_zero] at H1 F1 H2 F2
  have hlo := hf.lo_pos
  unfold mem_heap_lo mem_heap_hi CHUNKSIZE
  have hlp' : h1.heap_listp = h0.mem_start_brk + 8 := by rw [hlp, g1]
  rw [hlp'] at H1 F1 H2 F2
  rw [g3] at hepi
  have hH : HDRP (h0.mem_start_brk + 8) = h0.mem_start_brk + 4 := by
    rw [HDRP_eq (by omega) (by omega)]; omega
  have hE : HDRP (h0.mem_start_brk + 16 + 4096) = h0.mem_start_brk + 16 + 4096 - 4 :=
    HDRP_eq (by omega) (by omega)
  refine ⟨h1, hex, g1, ?_, ?_, ?_, ?_, ?_, ?_, ?_, ?_, ?_, ?_, ?_, hw⟩
  · rw [g1]; exact hpad
  · rw [hlp', g1]; exact hH
  · rw [hlp', g1]
  · rw [hlp']
    exact BlockAt.of_cells rfl (by omega) (by omega) (by omega) (by omega)
      (mem_congr H1 (by omega)) (mem_congr F1 (by omega))
  · rw [hlp', g1]
    rw [NEXT_BLKP_eq (h0.mem_start_brk + 8) 8 1 (mem_congr H1 (by omega)) rfl (by omega)
      (by omega) (by omega)]
  · rw [g1]
    exact BlockAt.of_free rfl (by omega) (by omega) (by omega)
      (mem_congr H2 (by omega)) (mem_congr F2 (by omega))
  · rw [g1, NEXT_BLKP_eq0 (h0.mem_start_brk + 16) 4096 (mem_congr H2 (by omega)) rfl (by omega)
      (by omega), g3]
  · rw [g3, hE]
    exact hepi
  · rw [g3, hE]; omega
  · rw [g3, g1]
  · rw [g4, g1]

theorem mm_init_layout_witness :
    ∃ h1, mm_init region = (h1, 0) ∧
      mem_heap_lo h1 = region.mem_start_brk ∧
      GET h1 (mem_heap_lo h1) = 0 ∧
      HDRP h1.heap_listp = mem_heap_lo h1 + 4 ∧
      h1.heap_listp = mem_heap_lo h1 + 8 ∧
      BlockAt h1 h1.heap_listp 8 1 ∧
      NEXT_BLKP h1 h1.heap_listp = mem_heap_lo h1 + 16 ∧
      BlockAt h1 (mem_heap_lo h1 + 16) CHUNKSIZE 0 ∧
      NEXT_BLKP h1 (mem_heap_lo h1 + 16) = h1.mem_brk ∧
      GET h1 (HDRP h1.mem_brk) = PACK 0 1 ∧
      HDRP h1.mem_brk + 3 = mem_heap_hi h1 ∧
      h1.mem_brk = mem_heap_lo h1 + 4 + 8 + CHUNKSIZE + 4 ∧
      h1.last_malloc_call = mem_heap_lo h1 + 16 ∧
      WF h1 [⟨8, true⟩, ⟨4096, false⟩] :=
  mm_init_layout region_Fresh (by decide)

/-- C14 (growth failure at the first step): the code breaks the claim.  On the empty
region `noRoom` the first growth request of `mm_init` fails with the sentinel
`(void *)-1`; `mm_init` compares the result with NULL only, so it goes on, writes four
words (at the addresses `-1`, `3`, `7` and `11` modulo `2^32`) and returns -1 only
because its second growth request fails as well. -/
theorem init_failure_writes_memory :
    Fresh noRoom ∧ noRoom.writes = [] ∧
    (mem_sbrk noRoom (4 * WSIZE)).2 = WORD - 1 ∧
    (mm_init noRoom).2 = -1 ∧
    (mm_init noRoom).1.writes = [(11, 1), (7, 9), (3, 9), (4294967295, 0)] := by
  refine ⟨?_, by decide, by decide, by decide, by decide⟩
  constructor <;> decide

/-- C15 (coalescing cases): on a heap that is well formed except that the block at `bp`
(of size `s`, after the blocks `pre` and before the blocks `post`) has just been marked
free, `coalesce(bp)` returns the start `bp - mp` of one free block of size
`mp + s + mn`, where `mp` is the size of the block before `bp` when that block is free
and `0` otherwise, and `mn` likewise for the block after `bp`; the header and the footer
of the merged block hold that size, the block ends where the last merged block ended, the
search cursor is the returned pointer, the heap is well formed with the merged chain, and
the only words written are the header and the footer of the merged block. -/
theorem coalesce_merges_free_neighbours {h : Heap} {pre : List Blk} {s : Nat}
    {post : List Blk} (ht : Tiled h (pre ++ ⟨s, false⟩ :: post)) (hne : pre ≠ [])
    (hs16 : 16 ≤ s) (c1 : NoAdjFree pre) (c2 : NoAdjFree post) :
    (∀ pb ∈ pre.getLast?, (mergePrev pre).2 = if pb.alloc then 0 else pb.size) ∧
    (mergeNext post).2 = (match post.head? with
      | some nb => if nb.alloc then 0 else nb.size
      | none => 0) ∧
    ∃ h' ws, coalesce h (h.heap_listp + total pre)
        = (h', h.heap_listp + total pre - (mergePrev pre).2) ∧
      BlockAt h' (h.heap_listp + total pre - (mergePrev pre).2)
        ((mergePrev pre).2 + s + (mergeNext post).2) 0 ∧
      NEXT_BLKP h' (h.heap_listp + total pre - (mergePrev pre).2)
        = h.heap_listp + total pre + s + (mergeNext post).2 ∧
      h'.last_malloc_call = h.heap_listp + total pre - (mergePrev pre).2 ∧
      WF h' (coalesced pre s post) ∧
      h'.writes = ws ++ h.writes ∧
      (∀ w ∈ ws, (w.1 = h.heap_listp + total pre - (mergePrev pre).2 - 4 ∨
          w.1 = h.heap_listp + total pre + s + (mergeNext post).2 - 8) ∧
        w.2 = (mergePrev pre).2 + s + (mergeNext post).2) ∧
      (∀ x, x ≠ h.heap_listp + total pre - (mergePrev pre).2 - 4 →
        x ≠ h.heap_listp + total pre + s + (mergeNext post).2 - 8 → h'.mem x = h.mem x) ∧
      SameBounds h h' := by
  refine ⟨?_, ?_, ?_⟩
  · intro pb hpb
    unfold mergePrev
    rw [Option.mem_def] at hpb
    rw [hpb]
    by_cases hpa : pb.alloc = true <;> simp [hpa]
  · cases post with
    | nil => rfl
    | cons nb rest =>
      unfold mergeNext
      by_cases hna : nb.alloc = true <;> simp [hna]
  · obtain ⟨h', hex, hwf, hcur, hsb, -⟩ := coalesce_WF ht hne hs16 c1 c2
    obtain ⟨h2, ws, hex2, eq, hwr, hws, hfr⟩ := coalesce_exec ht hne
    rw [hex] at hex2
    injection hex2 with e1 e2
    subst e1
    have ht' := hwf.toTiled
    unfold coalesced at ht'
    obtain ⟨Hh, Hf, a8, a16, tp8, tp, c16, cm, tq8, hfin, hlt⟩ :=
      ht'.block (mergePrev_ne_nil (by rw [← head_append_of_ne hne]; exact ht.pro))
    rw [hsb.2.2.2, eq] at Hh Hf hfin
    simp only [bit_free, Nat.add_zero] at Hh Hf hfin c16 cm
    have hfin0 : (mergePrev pre).2 ≤ total pre := by
      unfold mergePrev
      cases hgl : pre.getLast? with
      | none => simp
      | some pb =>
        simp only []
        cases pb.alloc with
        | true => simp
        | false =>
          simp only [Bool.false_eq_true, if_false]
          rcases List.eq_nil_or_concat' pre with h0 | ⟨pre', pb', rfl⟩
          · exact absurd h0 hne
          · simp at hgl
            subst hgl
            simp [total_append, total_cons, total_nil]
    rw [eq] at hcur
    refine ⟨h', ws, ?_, ?_, ?_, hcur, hwf, hwr, hws, hfr, hsb⟩
    · rw [hex, eq]
    · exact BlockAt.of_free cm (by omega) (by omega) (by omega) Hh
        (mem_congr Hf (by omega))
    · rw [NEXT_BLKP_eq0 _ _ Hh cm (by omega) (by omega)]
      omega

theorem coalesce_merges_free_neighbours_witness :
    (∀ pb ∈ ([⟨8, true⟩, ⟨24, true⟩] : List Blk).getLast?,
      (mergePrev [⟨8, true⟩, ⟨24, true⟩]).2 = if pb.alloc then 0 else pb.size) ∧
    (mergeNext [⟨4056, false⟩]).2 = (match ([⟨4056, false⟩] : List Blk).head? with
      | some nb => if nb.alloc then 0 else nb.size
      | none => 0) ∧
    ∃ h' ws, coalesce markedFree (markedFree.heap_listp + total [⟨8, true⟩, ⟨24, true⟩])
        = (h', markedFree.heap_listp + total [⟨8, true⟩, ⟨24, true⟩]
            - (mergePrev [⟨8, true⟩, ⟨24, true⟩]).2) ∧
      BlockAt h' (markedFree.heap_listp + total [⟨8, true⟩, ⟨24, true⟩]
          - (mergePrev [⟨8, true⟩, ⟨24, true⟩]).2)
        ((mergePrev [⟨8, true⟩, ⟨24, true⟩]).2 + 16 + (mergeNext [⟨4056, false⟩]).2) 0 ∧
      NEXT_BLKP h' (markedFree.heap_listp + total [⟨8, true⟩, ⟨24, true⟩]
          - (mergePrev [⟨8, true⟩, ⟨24, true⟩]).2)
        = markedFree.heap_listp + total [⟨8, true⟩, ⟨24, true⟩] + 16
          + (mergeNext [⟨4056, false⟩]).2 ∧
      h'.last_malloc_call = markedFree.heap_listp + total [⟨8, true⟩, ⟨24, true⟩]
        - (mergePrev [⟨8, true⟩, ⟨24, true⟩]).2 ∧
      WF h' (coalesced [⟨8, true⟩, ⟨24, true⟩] 16 [⟨4056, false⟩]) ∧
      h'.writes = ws ++ markedFree.writes ∧
      (∀ w ∈ ws, (w.1 = markedFree.heap_listp + total [⟨8, true⟩, ⟨24, true⟩]
            - (mergePrev [⟨8, true⟩, ⟨24, true⟩]).2 - 4 ∨
          w.1 = markedFree.heap_listp + total [⟨8, true⟩, ⟨24, true⟩] + 16
            + (mergeNext [⟨4056, false⟩]).2 - 8) ∧
        w.2 = (mergePrev [⟨8, true⟩, ⟨24, true⟩]).2 + 16 + (mergeNext [⟨4056, false⟩]).2) ∧
      (∀ x, x ≠ markedFree.heap_listp + total [⟨8, true⟩, ⟨24, true⟩]
            - (mergePrev [⟨8, true⟩, ⟨24, true⟩]).2 - 4 →
        x ≠ markedFree.heap_listp + total [⟨8, true⟩, ⟨24, true⟩] + 16
            + (mergeNext [⟨4056, false⟩]).2 - 8 → h'.mem x = markedFree.mem x) ∧
      SameBounds markedFree h' :=
  coalesce_merges_free_neighbours markedFree_Tiled (by decide) (by decide)
    (by simp [NoAdjFree]) (by simp [NoAdjFree])

/-- C16 (split or consume): for a free block at `bp` of size `csize` and an aligned
`asize` with `16 ≤ asize ≤ csize`, `place(bp, asize)` leaves, when `csize - asize ≥ 16`,
an allocated block of size `asize` at `bp` followed at `bp + asize` by a free block of
size `csize - asize`, and otherwise one allocated block of size `csize` at `bp`; the
footers equal the headers, the blocks end where the original block ended, and no word
outside the original block changes. -/
theorem place_split_or_consume {h : Heap} {bp asize csize : Nat} (hbp : 8 ≤ bp)
    (hhi : bp + csize < WORD) (hc : csize % 8 = 0) (ha : asize % 8 = 0) (h16 : 16 ≤ asize)
    (hle : asize ≤ csize) (hb : BlockAt h bp csize 0) :
    (16 ≤ csize - asize →
      BlockAt (place h bp asize) bp asize 1 ∧ NEXT_BLKP (place h bp asize) bp = bp + asize ∧
      BlockAt (place h bp asize) (bp + asize) (csize - asize) 0 ∧
      NEXT_BLKP (place h bp asize) (bp + asize) = bp + csize) ∧
    (csize - asize < 16 →
      BlockAt (place h bp asize) bp csize 1 ∧ NEXT_BLKP (place h bp asize) bp = bp + csize) ∧
    (∀ x, x + 4 < bp ∨ bp + csize ≤ x + 4 → (place h bp asize).mem x = h.mem x) ∧
    SameBounds h (place h bp asize) ∧
    (place h bp asize).last_malloc_call = h.last_malloc_call := by
  unfold WORD at hhi
  have Hh : h.mem (bp - 4) = csize := by
    have := hb.header hc (by omega) (by omega) (by omega)
    simpa using this
  by_cases hsp : asize + 16 ≤ csize
  · rw [place_split hbp hhi hc ha hsp Hh]
    refine ⟨fun _ => ⟨?_, ?_, ?_, ?_⟩, fun hlt => absurd hlt (by omega), ?_,
      ⟨rfl, rfl, rfl, rfl⟩, rfl⟩
    · refine BlockAt.of_cells ha (by omega) (by omega) (by omega) (by omega) ?_ ?_
      · rw [PUT_mem_ne _ _ (by omega), PUT_mem_ne _ _ (by omega), PUT_mem_ne _ _ (by omega),
          PUT_mem_eq]
      · rw [PUT_mem_ne _ _ (by omega), PUT_mem_ne _ _ (by omega), PUT_mem_eq]
    · refine NEXT_BLKP_eq bp asize 1 ?_ ha (by omega) (by omega) (by omega)
      rw [PUT_mem_ne _ _ (by omega), PUT_mem_ne _ _ (by omega), PUT_mem_ne _ _ (by omega),
        PUT_mem_eq]
    · refine BlockAt.of_free (by omega) (by omega) (by omega) (by omega) ?_ ?_
      · rw [PUT_mem_ne _ _ (by omega), PUT_mem_eq]
      · rw [PUT_mem_eq' _ _ (by omega)]
    · have := NEXT_BLKP_eq0 (h := PUT (PUT (PUT (PUT h (bp - 4) (asize + 1)) (bp + asize - 8)
        (asize + 1)) (bp + asize - 4) (csize - asize)) (bp + csize - 8) (csize - asize))
        (bp + asize) (csize - asize)
        (by rw [PUT_mem_ne _ _ (by omega), PUT_mem_eq]) (by omega) (by omega) (by omega)
      rw [this]; omega
    · intro x hx
      rw [PUT_mem_ne _ _ (by omega), PUT_mem_ne _ _ (by omega), PUT_mem_ne _ _ (by omega),
        PUT_mem_ne _ _ (by omega)]
  · rw [place_whole hbp hhi hc (by omega) hle (by omega) Hh]
    refine ⟨fun hge => absurd hge (by omega), fun _ => ⟨?_, ?_⟩, ?_, ⟨rfl, rfl, rfl, rfl⟩, rfl⟩
    · refine BlockAt.of_cells hc (by omega) (by omega) (by omega) (by omega) ?_ ?_
      · rw [PUT_mem_ne _ _ (by omega), PUT_mem_eq]
      · rw [PUT_mem_eq]
    · refine NEXT_BLKP_eq bp csize 1 ?_ hc (by omega) (by omega) (by omega)
      rw [PUT_mem_ne _ _ (by omega), PUT_mem_eq]
    · intro x hx
      rw [PUT_mem_ne _ _ (by omega), PUT_mem_ne _ _ (by omega)]

theorem place_split_or_consume_witness :
    (16 ≤ 4096 - 24 →
      BlockAt (place initHeap 80 24) 80 24 1 ∧ NEXT_BLKP (place initHeap 80 24) 80 = 80 + 24 ∧
      BlockAt (place initHeap 80 24) (80 + 24) (4096 - 24) 0 ∧
      NEXT_BLKP (place initHeap 80 24) (80 + 24) = 80 + 4096) ∧
    (4096 - 24 < 16 →
      BlockAt (place initHeap 80 24) 80 4096 1 ∧
      NEXT_BLKP (place initHeap 80 24) 80 = 80 + 4096) ∧
    (∀ x, x + 4 < 80 ∨ 80 + 4096 ≤ x + 4 → (place initHeap 80 24).mem x = initHeap.mem x) ∧
    SameBounds initHeap (place initHeap 80 24) ∧
    (place initHeap 80 24).last_malloc_call = initHeap.last_malloc_call :=
  place_split_or_consume (by decide) (by decide) (by decide) (by decide) (by decide)
    (by decide) ⟨by decide, by decide⟩

/-- C17 (next-fit search): on a well-formed heap whose chain is `cpre ++ csuf` with the
cursor at the first block of `csuf`, `next_fit(asize)` returns the first block of `csuf`
that is free with size at least `asize` and sets the cursor to it; if `csuf` has no such
block it returns NULL and sets the cursor to `heap_listp`, whatever the blocks `cpre`
before the cursor are; in both cases only the cursor changes. -/
theorem next_fit_search {h : Heap} {bs cpre csuf : List Blk} {asize fuel : Nat}
    (hw : WF h bs) (hsplit : bs = cpre ++ csuf)
    (hcur : h.last_malloc_call = h.heap_listp + total cpre) (hfuel : bs.length < fuel) :
    (∃ xs c ys, csuf = xs ++ ⟨c, false⟩ :: ys ∧ asize ≤ c ∧
      (∀ b ∈ xs, ¬ (b.alloc = false ∧ asize ≤ b.size)) ∧
      next_fit fuel h asize =
        some ({ h with last_malloc_call := h.heap_listp + total (cpre ++ xs) },
          h.heap_listp + total (cpre ++ xs))) ∨
    ((∀ b ∈ csuf, ¬ (b.alloc = false ∧ asize ≤ b.size)) ∧
      next_fit fuel h asize = some ({ h with last_malloc_call := h.heap_listp }, 0)) := by
  have hnf := @next_fit_WF h bs cpre csuf asize fuel hw hsplit hcur hfuel
  cases hff : firstFit asize (h.heap_listp + total cpre) csuf with
  | some q =>
    left
    obtain ⟨xs, c, ys, e, hq, hle, hno⟩ := firstFit_some hff
    refine ⟨xs, c, ys, e, hle, hno, ?_⟩
    have hq' : q = h.heap_listp + total (cpre ++ xs) := by
      rw [hq]; simp only [total_append]; omega
    rw [hff] at hnf
    simp only [] at hnf
    rw [hnf, hq']
  | none =>
    right
    rw [hff] at hnf
    simp only [] at hnf
    exact ⟨firstFit_none.1 hff, hnf⟩

theorem next_fit_search_witness :
    ((∃ xs c ys, [(⟨4048, true⟩ : Blk)] = xs ++ ⟨c, false⟩ :: ys ∧ 16 ≤ c ∧
      (∀ b ∈ xs, ¬ (b.alloc = false ∧ 16 ≤ b.size)) ∧
      next_fit 8 skipHeap 16 =
        some ({ skipHeap with last_malloc_call := (skipHeap.heap_listp +
            total ([⟨8, true⟩, ⟨16, false⟩, ⟨16, true⟩, ⟨16, true⟩] ++ xs)) },
          skipHeap.heap_listp + total ([⟨8, true⟩, ⟨16, false⟩, ⟨16, true⟩, ⟨16, true⟩] ++ xs))) ∨
    ((∀ b ∈ [(⟨4048, true⟩ : Blk)], ¬ (b.alloc = false ∧ 16 ≤ b.size)) ∧
      next_fit 8 skipHeap 16 =
        some ({ skipHeap with last_malloc_call := skipHeap.heap_listp }, 0))) ∧
    skipHeap.last_malloc_call = 128 ∧ ptrOf (next_fit 8 skipHeap 16) = some 0 :=
  ⟨next_fit_search skipHeap_WF rfl (by decide) (by decide), by decide, by decide⟩

/-- In-place resize absorbing a free neighbour, for the sizes whose needed total
`ALIGN(size) + 8` does not wrap: on a well-formed heap, for a live
pointer `p` of a block of size `old` that is followed by a free block of size `next`, and
`size > 0` with `needed = ALIGN(size) + 8` (as a number, which the premise bounds by the
two block sizes) different from `old`, if `old > needed` or `old + next - 16 ≥ needed`
then `mm_realloc(p, size)` returns `p`; afterwards the block at `p` is allocated with
size `needed`, the block after it, at `p + needed`, is free with size
`old + next - needed ≥ 16`, the footers equal the headers, the cursor is `p + needed`,
and no word outside the two original blocks has changed. -/
theorem realloc_absorbs_next {h : Heap} {bs pre : List Blk} {b nb : Blk} {rest : List Blk}
    {p size fuel : Nat} (hw : WF h bs) (hl : Live h bs pre b (nb :: rest) p)
    (hnb : nb.alloc = false) (hs0 : 0 < size) (hne : ALIGN size + 8 ≠ b.size)
    (hfit : b.size > ALIGN size + 8 ∨ b.size + nb.size - 16 ≥ ALIGN size + 8) :
    ∃ h', mm_realloc fuel h p size = some (h', p) ∧
      BlockAt h' p (ALIGN size + 8) 1 ∧ NEXT_BLKP h' p = p + (ALIGN size + 8) ∧
      BlockAt h' (p + (ALIGN size + 8)) (b.size + nb.size - (ALIGN size + 8)) 0 ∧
      NEXT_BLKP h' (p + (ALIGN size + 8)) = p + b.size + nb.size ∧
      16 ≤ b.size + nb.size - (ALIGN size + 8) ∧
      h'.last_malloc_call = p + (ALIGN size + 8) ∧
      (∀ x, x + 4 < p ∨ p + b.size + nb.size ≤ x + 4 → h'.mem x = h.mem x) ∧
      SameBounds h h' := by
  obtain ⟨e, hne0, hp, hba⟩ := hl
  have ht := hw.toTiled
  rw [e] at ht
  obtain ⟨Hh, Hf, a8, a16, tp8, tp, c16, cm, tq8, hfin, hlt⟩ := ht.block hne0
  rw [bit_alloc hba] at Hh
  rw [← hp] at Hh hfin
  have hsucc := ht.succ
  rw [← hp] at hsucc
  simp only [total_cons] at hfin
  obtain ⟨Hn, n16, n8⟩ : h.mem (p + b.size - 4) = nb.size ∧ 16 ≤ nb.size ∧ nb.size % 8 = 0 := by
    rcases hsucc with ⟨ns, -, -, -, hpa⟩ | ⟨nb', rest', e', -, h16, h8, Hn⟩
    · have := hpa nb (by simp)
      rw [hnb] at this
      exact absurd this (by simp)
    · injection e' with e1 e2
      subst e1
      exact ⟨Hn, h16, h8⟩
  obtain ⟨m8, mlt, hcase⟩ := needed_facts size
  have hN : needed size = ALIGN size + 8 := by omega
  rw [← hN] at hne hfit ⊢
  have hn16 : needed size + 16 ≤ b.size + nb.size := by omega
  rw [realloc_absorb (by omega) hs0 (by omega) cm c16 n8 n16 Hh Hn (by omega) hne hn16]
  refine ⟨_, rfl, ?_, ?_, ?_, ?_, by omega, rfl, ?_, ⟨rfl, rfl, rfl, rfl⟩⟩
  · refine BlockAt.of_cells m8 (by omega) (by omega) (by omega) (by omega) ?_ ?_
    · dsimp only
      rw [PUT_mem_ne _ _ (by omega), PUT_mem_ne _ _ (by omega), PUT_mem_ne _ _ (by omega),
        PUT_mem_eq]
    · dsimp only
      rw [PUT_mem_ne _ _ (by omega), PUT_mem_ne _ _ (by omega), PUT_mem_eq]
  · refine NEXT_BLKP_eq p (needed size) 1 ?_ m8 (by omega) (by omega) (by omega)
    dsimp only
    rw [PUT_mem_ne _ _ (by omega), PUT_mem_ne _ _ (by omega), PUT_mem_ne _ _ (by omega),
      PUT_mem_eq]
  · refine BlockAt.of_free (by omega) (by omega) (by omega) (by omega) ?_ ?_
    · dsimp only
      rw [PUT_mem_ne _ _ (by omega), PUT_mem_eq' _ _ (by omega)]
    · dsimp only
      rw [PUT_mem_eq' _ _ (by omega)]
  · have hx := NEXT_BLKP_eq0 (h := { PUT (PUT (PUT (PUT h (p - 4) (needed size + 1))
        (p + needed size - 8) (needed size + 1)) (p + needed size - 4)
        (b.size + nb.size - needed size)) (p + b.size + nb.size - 8)
        (b.size + nb.size - needed size) with last_malloc_call := p + needed size })
        (p + needed size) (b.size + nb.size - needed size)
        (by dsimp only
            rw [PUT_mem_ne _ _ (by omega), PUT_mem_eq' _ _ (by omega)])
        (by omega) (by omega) (by omega)
    rw [hx]; omega
  · intro x hx
    dsimp only
    rw [PUT_mem_ne _ _ (by omega), PUT_mem_ne _ _ (by omega), PUT_mem_ne _ _ (by omega),
      PUT_mem_ne _ _ (by omega)]

theorem realloc_absorbs_next_witness :
    ∃ h', mm_realloc 8 mainBefore 104 16 = some (h', 104) ∧
      BlockAt h' 104 (ALIGN 16 + 8) 1 ∧ NEXT_BLKP h' 104 = 104 + (ALIGN 16 + 8) ∧
      BlockAt h' (104 + (ALIGN 16 + 8)) (16 + 4056 - (ALIGN 16 + 8)) 0 ∧
      NEXT_BLKP h' (104 + (ALIGN 16 + 8)) = 104 + 16 + 4056 ∧
      16 ≤ 16 + 4056 - (ALIGN 16 + 8) ∧
      h'.last_malloc_call = 104 + (ALIGN 16 + 8) ∧
      (∀ x, x + 4 < 104 ∨ 104 + 16 + 4056 ≤ x + 4 → h'.mem x = mainBefore.mem x) ∧
      SameBounds mainBefore h' :=
  @realloc_absorbs_next mainBefore [⟨8, true⟩, ⟨24, true⟩, ⟨16, true⟩, ⟨4056, false⟩]
    [⟨8, true⟩, ⟨24, true⟩] ⟨16, true⟩ ⟨4056, false⟩ [] 104 16 8 mainBefore_WF
    ⟨rfl, by decide, by decide, rfl⟩ rfl (by decide) (by decide) (by decide)

/-- C18 (in-place resize absorbing a free neighbour): the code breaks the claim.  On the
well-formed heap `oneBlock` the live pointer 80 has a block of size 24 followed by a free
block of size 4072.  For `size = 4294967288` the code computes `ALIGN(size) + OVERHEAD`
modulo `2^32`, which is 0: it differs from 24 and 24 exceeds it, so the branch that
absorbs the free neighbour runs.  The call returns 80, but the header of the block at 80
is then the free tag of size 4096 and not the allocated tag of the needed size. -/
theorem realloc_absorb_wraps :
    WF oneBlock [⟨8, true⟩, ⟨24, true⟩, ⟨4072, false⟩] ∧
    Live oneBlock [⟨8, true⟩, ⟨24, true⟩, ⟨4072, false⟩] [⟨8, true⟩] ⟨24, true⟩
      [⟨4072, false⟩] 80 ∧
    GET_ALLOC oneBlock (HDRP (NEXT_BLKP oneBlock 80)) = 0 ∧
    GET_SIZE oneBlock (HDRP (NEXT_BLKP oneBlock 80)) = 4072 ∧
    0 < 4294967288 ∧ ALIGN 4294967288 = 4294967288 ∧
    needed 4294967288 = 0 ∧ needed 4294967288 ≠ 24 ∧ 24 > needed 4294967288 ∧
    ptrOf (mm_realloc 8 oneBlock 80 4294967288) = some 80 ∧
    GET (heapOr oneBlock (mm_realloc 8 oneBlock 80 4294967288)) (HDRP 80) = PACK 4096 0 ∧
    GET_ALLOC (heapOr oneBlock (mm_realloc 8 oneBlock 80 4294967288)) (HDRP 80) = 0 ∧
    ¬ BlockAt (heapOr oneBlock (mm_realloc 8 oneBlock 80 4294967288)) 80
      (needed 4294967288) 1 := by
  refine ⟨?_, ⟨rfl, by decide, by decide, rfl⟩, by decide, by decide, by decide, by decide,
    by decide, by decide, by decide, by decide, by decide, by decide, ?_⟩
  · constructor <;> first | decide | simp [NoAdjFree]
  · unfold BlockAt; decide

/-- C19 (in-place shrink before an allocated neighbour): the code breaks the claim.  On
the well-formed heap `twoBlocks` the live pointer 80 has a block of size 48 followed by
an allocated block; `mm_realloc(80, 8)` needs 16 bytes, so the block can shrink by 32.
The call returns 80 and writes the two headers, but it writes the tag of the remainder
into the footer of the shrunk block and leaves the old footer in the remainder: neither
block has a footer equal to its header. -/
theorem shrink_writes_wrong_footer :
    WF twoBlocks [⟨8, true⟩, ⟨48, true⟩, ⟨16, true⟩, ⟨4032, false⟩] ∧
    Live twoBlocks [⟨8, true⟩, ⟨48, true⟩, ⟨16, true⟩, ⟨4032, false⟩] [⟨8, true⟩] ⟨48, true⟩
      [⟨16, true⟩, ⟨4032, false⟩] 80 ∧
    ALIGN 8 + 8 = 16 ∧ 16 ≤ 48 - (ALIGN 8 + 8) ∧
    ptrOf (mm_realloc 8 twoBlocks 80 8) = some 80 ∧
    GET shrunk (HDRP 80) = PACK 16 1 ∧
    GET shrunk (FTRP shrunk 80) = PACK 32 0 ∧
    NEXT_BLKP shrunk 80 = 96 ∧
    GET shrunk (HDRP 96) = PACK 32 0 ∧
    GET shrunk (FTRP shrunk 96) = PACK 48 1 ∧
    shrunk.last_malloc_call = twoBlocks.last_malloc_call := by
  refine ⟨?_, ⟨rfl, by decide, by decide, rfl⟩, by decide, by decide, by decide, by decide,
    by decide, by decide, by decide, by decide, by decide⟩
  constructor <;> first | decide | simp [NoAdjFree]

/-- C20 (heap growth): the word counts that `mm_init` and `mm_malloc` pass to
`extend_heap`, `CHUNKSIZE / WSIZE` and `MAX(asize, CHUNKSIZE) / WSIZE`, are positive and
their byte count `size = WSIZE * (words rounded up to even)` fits in `size_t`.  On a
well-formed heap with last block `lb`, for every `words > 0` with such a byte count,
when the growth primitive succeeds `extend_heap(words)` extends the range by `size`
bytes, writes the header of the new free block over the old epilogue header, writes the
new epilogue header `PACK(0, 1)` in the last word of the new range, and returns a free
block with footer equal to header that ends at the new epilogue, of size `size` plus the
size of `lb` when `lb` was free and of size `size` otherwise; no other word below the old
epilogue changes, and the heap is well formed again when `size ≥ 16`.  When the primitive
fails it returns NULL and leaves the heap as it was. -/
theorem extend_heap_grows {h : Heap} {init : List Blk} {lb : Blk} {words : Nat}
    (hw : WF h (init ++ [lb])) (hpos : 0 < words)
    (hnw : WSIZE * (words + words % 2) < WORD) :
    (0 < CHUNKSIZE / WSIZE ∧
      WSIZE * (CHUNKSIZE / WSIZE + CHUNKSIZE / WSIZE % 2) < WORD ∧
      ∀ size, 0 < MAX (adjust size) CHUNKSIZE / WSIZE ∧
        WSIZE * (MAX (adjust size) CHUNKSIZE / WSIZE
          + MAX (adjust size) CHUNKSIZE / WSIZE % 2) < WORD) ∧
    ((mem_sbrk h (WSIZE * (words + words % 2))).2 ≠ WORD - 1 →
      ∃ h', extend_heap h words = (h', h.mem_brk - (if lb.alloc then 0 else lb.size)) ∧
        h'.mem_brk = h.mem_brk + WSIZE * (words + words % 2) ∧
        GET h' (HDRP h.mem_brk) = PACK (WSIZE * (words + words % 2)) 0 ∧
        GET h' (HDRP h'.mem_brk) = PACK 0 1 ∧
        HDRP h'.mem_brk + 3 = mem_heap_hi h' ∧
        BlockAt h' (h.mem_brk - (if lb.alloc then 0 else lb.size))
          (WSIZE * (words + words % 2) + (if lb.alloc then 0 else lb.size)) 0 ∧
        NEXT_BLKP h' (h.mem_brk - (if lb.alloc then 0 else lb.size)) = h'.mem_brk ∧
        (∀ x, x + 4 < h.mem_brk → x ≠ h.mem_brk - (if lb.alloc then 0 else lb.size) - 4 →
          h'.mem x = h.mem x) ∧
        h'.mem_start_brk = h.mem_start_brk ∧ h'.mem_max_addr = h.mem_max_addr ∧
        h'.heap_listp = h.heap_listp ∧
        (16 ≤ WSIZE * (words + words % 2) →
          WF h' (coalesced (init ++ [lb]) (WSIZE * (words + words % 2)) []))) ∧
    ((mem_sbrk h (WSIZE * (words + words % 2))).2 = WORD - 1 →
      extend_heap h words = (h, 0)) := by
  have hE := extend_size_eq hnw
  have hcall : 0 < CHUNKSIZE / WSIZE ∧
      WSIZE * (CHUNKSIZE / WSIZE + CHUNKSIZE / WSIZE % 2) < WORD ∧
      ∀ size, 0 < MAX (adjust size) CHUNKSIZE / WSIZE ∧
        WSIZE * (MAX (adjust size) CHUNKSIZE / WSIZE
          + MAX (adjust size) CHUNKSIZE / WSIZE % 2) < WORD := by
    refine ⟨by decide, by decide, fun size => ?_⟩
    obtain ⟨E8, Ele, E4096, Elt⟩ := MAX_adjust size
    unfold WSIZE WORD
    omega
  rw [mem_sbrk_fails_iff hw]
  obtain ⟨E, hEd⟩ : ∃ E, E = WSIZE * (words + words % 2) := ⟨_, rfl⟩
  rw [← hEd] at hE hnw ⊢
  have h8 : 8 ≤ E := by unfold WSIZE at hEd; omega
  have hm8 : E % 8 = 0 := by rw [← hE]; exact extend_size_mod words
  refine ⟨hcall, fun hok => ?_, fun hfail => extend_heap_fail (by rw [hE]; exact hfail)⟩
  have hok' : h.mem_brk + E ≤ h.mem_max_addr := by
    have := (mem_sbrk_fails_iff hw E).not.1 hok
    omega
  obtain ⟨h', hex, hb, Hepi, Hh, Hf, Hold, hfr, s1, s2, s3, -, lo, m8, hlt, b8⟩ :=
    @extend_heap_exec h init lb words hw (by rw [hE]; exact h8) (by rw [hE]; exact hok')
  rw [hE] at hb Hepi Hh Hf Hold hlt
  obtain ⟨m, hm⟩ : ∃ m, m = (if lb.alloc then 0 else lb.size) := ⟨_, rfl⟩
  rw [← hm] at hex Hh Hf hfr lo m8 ⊢
  have e1 : HDRP h.mem_brk = h.mem_brk - 4 := HDRP_eq (by omega) (by omega)
  have e2 : HDRP (h.mem_brk + E) = h.mem_brk + E - 4 := HDRP_eq (by omega) (by omega)
  refine ⟨h', hex, hb, ?_, ?_, ?_, ?_, ?_, hfr, s1, s2, s3, ?_⟩
  · unfold GET
    rw [e1, Hold, PACK_eq hm8 (by omega)]
    rfl
  · unfold GET
    rw [hb, e2, Hepi]
    rfl
  · unfold mem_heap_hi
    rw [hb, e2]
    omega
  · exact BlockAt.of_free (by omega) (by omega) (by omega) (by omega) Hh
      (mem_congr Hf (by omega))
  · rw [NEXT_BLKP_eq0 _ _ Hh (by omega) (by omega) (by omega), hb]
    omega
  · intro h16
    obtain ⟨h2, hex2, hwf, -⟩ := @extend_heap_WF h (init ++ [lb]) words hw
      (by rw [hE]; exact h16) (by rw [hE]; exact hok')
    rw [hex] at hex2
    injection hex2 with e3 e4
    subst e3
    rw [hE] at hwf
    exact hwf

theorem extend_heap_grows_witness :
    (0 < CHUNKSIZE / WSIZE ∧
      WSIZE * (CHUNKSIZE / WSIZE + CHUNKSIZE / WSIZE % 2) < WORD ∧
      ∀ size, 0 < MAX (adjust size) CHUNKSIZE / WSIZE ∧
        WSIZE * (MAX (adjust size) CHUNKSIZE / WSIZE
          + MAX (adjust size) CHUNKSIZE / WSIZE % 2) < WORD) ∧
    ((mem_sbrk initHeap (WSIZE * (1024 + 1024 % 2))).2 ≠ WORD - 1 →
      ∃ h', extend_heap initHeap 1024
          = (h', initHeap.mem_brk - (if (Blk.mk 4096 false).alloc then 0
              else (Blk.mk 4096 false).size)) ∧
        h'.mem_brk = initHeap.mem_brk + WSIZE * (1024 + 1024 % 2) ∧
        GET h' (HDRP initHeap.mem_brk) = PACK (WSIZE * (1024 + 1024 % 2)) 0 ∧
        GET h' (HDRP h'.mem_brk) = PACK 0 1 ∧
        HDRP h'.mem_brk + 3 = mem_heap_hi h' ∧
        BlockAt h' (initHeap.mem_brk - (if (Blk.mk 4096 false).alloc then 0
            else (Blk.mk 4096 false).size))
          (WSIZE * (1024 + 1024 % 2) + (if (Blk.mk 4096 false).alloc then 0
            else (Blk.mk 4096 false).size)) 0 ∧
        NEXT_BLKP h' (initHeap.mem_brk - (if (Blk.mk 4096 false).alloc then 0
            else (Blk.mk 4096 false).size)) = h'.mem_brk ∧
        (∀ x, x + 4 < initHeap.mem_brk →
          x ≠ initHeap.mem_brk - (if (Blk.mk 4096 false).alloc then 0
            else (Blk.mk 4096 false).size) - 4 →
          h'.mem x = initHeap.mem x) ∧
        h'.mem_start_brk = initHeap.mem_start_brk ∧
        h'.mem_max_addr = initHeap.mem_max_addr ∧
        h'.heap_listp = initHeap.heap_listp ∧
        (16 ≤ WSIZE * (1024 + 1024 % 2) →
          WF h' (coalesced ([⟨8, true⟩] ++ [⟨4096, false⟩]) (WSIZE * (1024 + 1024 % 2)) []))) ∧
    ((mem_sbrk initHeap (WSIZE * (1024 + 1024 % 2))).2 = WORD - 1 →
      extend_heap initHeap 1024 = (initHeap, 0)) :=
  @extend_heap_grows initHeap [⟨8, true⟩] ⟨4096, false⟩ 1024 initHeap_WF (by decide) (by decide)

/-- The bound on the byte count matters: on the well-formed heap left by `mm_init`,
`extend_heap(2^30)`, a word count that no caller passes, computes the size
`2^30 * WSIZE` modulo `2^32`, which is `0`; the growth primitive succeeds, yet the range
is not extended, the last word of the range holds `0` and not the epilogue header
`PACK(0, 1)`, and the footer of the last block has been overwritten. -/
theorem extend_heap_size_wraps :
    WF initHeap [⟨8, true⟩, ⟨4096, false⟩] ∧
    0 < 1073741824 ∧
    (mem_sbrk initHeap (mul32 1073741824 WSIZE)).2 ≠ WORD - 1 ∧
    (extend_heap initHeap 1073741824).1.mem_brk = initHeap.mem_brk ∧
    GET (extend_heap initHeap 1073741824).1
      (HDRP (extend_heap initHeap 1073741824).1.mem_brk) = 0 ∧
    PACK 0 1 = 1 ∧
    GET initHeap 4168 = 4096 ∧
    GET (extend_heap initHeap 1073741824).1 4168 = 0 := by
  refine ⟨initHeap_WF, by decide, by decide, by decide, by decide, by decide, by decide,
    by decide⟩

end Mm
